import Mathlib

/-!
# GraphCL caching proxy

A shallow embedding of `proxy/proxy.go` and of the table parsing of `main.go`
(codomatech/graphcl), and the properties their specification states about them.

Conventions of the embedding.

* A Go `string` is a list of runes (`GoString`); this is the text of every
  string that is valid UTF-8.  A `[]byte` is a list of naturals below 256
  (`Bytes`); `bytesOf` is the conversion `[]byte(s)`, the UTF-8 encoding.
  Positions inside a string count runes; the source only slices at the
  positions of the ASCII characters `{` and space, where rune and byte slices
  are the same text.
* A Go `map` is an association list; the order of the list is the order in which
  a `range` loop visits the map.  A map has no key twice.
* `time.Duration` and `time.Time` are integers counting nanoseconds; the zero
  `time.Time` is `0`.  `time.Duration.Seconds` returns a `float64`; the
  `float64` operations it performs are written out on rationals with the IEEE
  rounding (`Float64`).
* The standard library functions the source calls (`strings`, `unicode`,
  `sort`, `crypto/sha256`, `encoding/hex`) are written out below under their Go
  names.  The `gjson` parser is not written out: what the source observes of
  a parsed body is a parameter (`GjsonResult`).
* A handler is a function from the proxy and the request to the proxy it leaves
  and what it did (`Outcome`, `Served`); the lock is not modelled, one call runs
  at a time.  The clock, `http.NewRequest` and the upstream of
  `handleCachedQuery` are the fields of `Env`.  The re-entrant call of
  `handleCachedQuery` is bounded by a depth; depth 2 always returns
  (`handleCachedQuery_returns`).
-/

namespace Graphcl

/-- A Go string, as the list of its runes. -/
abbrev GoString := List Char

/-- A Go byte slice. -/
abbrev Bytes := List Nat

/-! ## The standard library, as far as the source uses it -/

namespace unicode

/-- Go `unicode.IsSpace`: the Latin-1 spaces and the `White_Space` table. -/
def IsSpace (r : Char) : Bool :=
  let n := r.toNat
  (9 ≤ n && n ≤ 13) || n == 32 || n == 0x85 || n == 0xA0 || n == 0x1680 ||
  (0x2000 ≤ n && n ≤ 0x200a) || n == 0x2028 || n == 0x2029 || n == 0x202f ||
  n == 0x205f || n == 0x3000

/-- Go `unicode.ToLower`, exact on every rune whose lower case is an ASCII
character: the letters `A`-`Z`, U+0130 (lower case `i`) and U+212A (lower case
`k`).  Any other rune is left in place; its Go lower case is not ASCII either,
so a comparison with ASCII text cannot tell the difference. -/
def ToLower (r : Char) : Char :=
  if 65 ≤ r.toNat ∧ r.toNat ≤ 90 then Char.ofNat (r.toNat + 32)
  else if r.toNat = 0x130 then 'i'
  else if r.toNat = 0x212A then 'k'
  else r

/-- The representative of a rune's orbit under Go `unicode.SimpleFold`, exact on
every orbit that holds an ASCII character: a letter and its other case, with
U+212A in the orbit of `k` and U+017F in the orbit of `s`. -/
def foldRune (r : Char) : Char :=
  if 65 ≤ r.toNat ∧ r.toNat ≤ 90 then Char.ofNat (r.toNat + 32)
  else if r.toNat = 0x212A then 'k'
  else if r.toNat = 0x17F then 's'
  else r

end unicode

namespace strings

/-- Go `strings.Fields`: the maximal runs of non-space runes, in order. -/
def Fields (s : GoString) : List GoString :=
  (s.splitOnP unicode.IsSpace).filter fun w => !w.isEmpty

/-- Go `strings.TrimSpace`: the spaces at both ends removed. -/
def TrimSpace (s : GoString) : GoString :=
  (s.dropWhile unicode.IsSpace).rdropWhile unicode.IsSpace

/-- Go `strings.Trim`: the runes of `cutset` at both ends removed. -/
def Trim (s cutset : GoString) : GoString :=
  (s.dropWhile fun c => cutset.contains c).rdropWhile fun c => cutset.contains c

/-- Go `strings.ToLower`. -/
def ToLower (s : GoString) : GoString := s.map unicode.ToLower

/-- Go `strings.EqualFold`, exact when one of the two strings is ASCII (as
`query` and `type` are): equal length and rune by rune in the same fold orbit. -/
def EqualFold (s t : GoString) : Bool :=
  s.map unicode.foldRune == t.map unicode.foldRune

/-- Go `strings.Contains`: `substr` occurs in `s` as a contiguous block. -/
def Contains : GoString → GoString → Bool
  | [], substr => substr.isEmpty
  | c :: cs, substr => substr.isPrefixOf (c :: cs) || Contains cs substr

/-- The largest position below `n` at which `substr` starts in `s`, plus one;
`0` when there is none. -/
def lastIndexBelow (s substr : GoString) : Nat → Nat
  | 0 => 0
  | n + 1 => if substr.isPrefixOf (s.drop n) then n + 1 else lastIndexBelow s substr n

/-- Go `strings.LastIndex`: the position of the last occurrence of `substr` in
`s`, and `-1` when there is none. -/
def LastIndex (s substr : GoString) : Int :=
  (lastIndexBelow s substr (s.length + 1) : Int) - 1

end strings

/-- Go `utf8.EncodeRune`: the UTF-8 bytes of one rune. -/
def utf8EncodeRune (r : Char) : Bytes :=
  let n := r.toNat
  if n < 128 then [n]
  else if n < 2048 then [192 + n / 64, 128 + n % 64]
  else if n < 65536 then [224 + n / 4096, 128 + n / 64 % 64, 128 + n % 64]
  else [240 + n / 262144, 128 + n / 4096 % 64, 128 + n / 64 % 64, 128 + n % 64]

/-- The conversion `[]byte(s)`. -/
def bytesOf (s : GoString) : Bytes := s.flatMap utf8EncodeRune

/-- Go's `<=` on the bytes of two strings: lexicographic, byte by byte. -/
def bytesLE : Bytes → Bytes → Bool
  | [], _ => true
  | _ :: _, [] => false
  | a :: as, b :: bs => decide (a < b) || (a == b && bytesLE as bs)

/-- Go's `<=` on strings. -/
def stringLE (s t : GoString) : Bool := bytesLE (bytesOf s) (bytesOf t)

/-- Go's `<` on strings. -/
def stringLT (s t : GoString) : Bool := !stringLE t s

namespace sort

/-- Go `sort.Strings`: the strings in ascending order.  The source sorts the
keys of a map, which are distinct, so every sorting algorithm gives this list. -/
def Strings (keys : List GoString) : List GoString :=
  keys.insertionSort fun s t => stringLE s t = true

end sort

/-! ## The data model of `proxy.go` -/

/-- One nanosecond-counted second, Go `time.Second`. -/
def Second : Int := 1000000000

/-- Go `cachePrefix`. -/
def cachePrefix : GoString := "/_gcl/".toList

/-- Go `QueryInfo`. -/
structure QueryInfo where
  Body : Bytes
  AuthHeaders : List (GoString × GoString)
  Entities : List GoString
  OriginalTarget : GoString
  Expiry : Int
deriving DecidableEq

/-- Go `Proxy`: the upstream target (`p.target.String()`), the entity TTL table
and the cache store.  The reverse proxy and the lock carry no data. -/
structure Proxy where
  target : GoString
  cacheTimes : List (GoString × Int)
  queries : List (GoString × QueryInfo)
deriving DecidableEq

/-- Go `New`, for an endpoint that parses: an empty store. -/
def New (endpoint : GoString) (cacheTimes : List (GoString × Int)) : Proxy :=
  { target := endpoint, cacheTimes := cacheTimes, queries := [] }

/-- The Go map read `m[k]` with its presence flag. -/
def mapGet {β : Type} (m : List (GoString × β)) (k : GoString) : Option β :=
  m.lookup k

/-- The Go map write `m[k] = v`: the value of an existing key is replaced where
it stands, a new key is added. -/
def mapSet {β : Type} : List (GoString × β) → GoString → β → List (GoString × β)
  | [], k, v => [(k, v)]
  | (k', v') :: m, k, v => if k' = k then (k, v) :: m else (k', v') :: mapSet m k v

/-- Go `delete(m, k)`. -/
def mapDelete {β : Type} (m : List (GoString × β)) (k : GoString) : List (GoString × β) :=
  m.filter fun e => e.1 ≠ k

/-! ## `getMinCacheDuration` -/

/-- The loop body of `getMinCacheDuration`; the state is `(minDuration, first)`. -/
def minDurationStep (cacheTimes : List (GoString × Int)) (acc : Int × Bool)
    (entity : GoString) : Int × Bool :=
  match mapGet cacheTimes entity with
  | some duration => if acc.2 || decide (duration < acc.1) then (duration, false) else acc
  | none => acc

/-- Go `(*Proxy).getMinCacheDuration`. -/
def getMinCacheDuration (p : Proxy) (entities : List GoString) : Int :=
  let acc := entities.foldl (minDurationStep p.cacheTimes) (0, true)
  if acc.2 then 60 * Second else acc.1


/-! ## `crypto/sha256` and `encoding/hex` -/

namespace sha256

/-- Rotation of a 32-bit word to the right. -/
def rotr32 (x n : Nat) : Nat := ((x >>> n) ||| (x <<< (32 - n))) % 4294967296

/-- The 64 round constants of SHA-256 (FIPS 180-4, section 4.2.2). -/
def K256 : List Nat := [
  0x428a2f98, 0x71374491, 0xb5c0fbcf, 0xe9b5dba5, 0x3956c25b, 0x59f111f1, 0x923f82a4, 0xab1c5ed5,
  0xd807aa98, 0x12835b01, 0x243185be, 0x550c7dc3, 0x72be5d74, 0x80deb1fe, 0x9bdc06a7, 0xc19bf174,
  0xe49b69c1, 0xefbe4786, 0x0fc19dc6, 0x240ca1cc, 0x2de92c6f, 0x4a7484aa, 0x5cb0a9dc, 0x76f988da,
  0x983e5152, 0xa831c66d, 0xb00327c8, 0xbf597fc7, 0xc6e00bf3, 0xd5a79147, 0x06ca6351, 0x14292967,
  0x27b70a85, 0x2e1b2138, 0x4d2c6dfc, 0x53380d13, 0x650a7354, 0x766a0abb, 0x81c2c92e, 0x92722c85,
  0xa2bfe8a1, 0xa81a664b, 0xc24b8b70, 0xc76c51a3, 0xd192e819, 0xd6990624, 0xf40e3585, 0x106aa070,
  0x19a4c116, 0x1e376c08, 0x2748774c, 0x34b0bcb5, 0x391c0cb3, 0x4ed8aa4a, 0x5b9cca4f, 0x682e6ff3,
  0x748f82ee, 0x78a5636f, 0x84c87814, 0x8cc70208, 0x90befffa, 0xa4506ceb, 0xbef9a3f7, 0xc67178f2]

/-- The eight 32-bit words of the running hash value. -/
structure Digest where
  h0 : Nat
  h1 : Nat
  h2 : Nat
  h3 : Nat
  h4 : Nat
  h5 : Nat
  h6 : Nat
  h7 : Nat
deriving DecidableEq

/-- The initial hash value (FIPS 180-4, section 5.3.3). -/
def initDigest : Digest :=
  ⟨0x6a09e667, 0xbb67ae85, 0x3c6ef372, 0xa54ff53a, 0x510e527f, 0x9b05688c, 0x1f83d9ab, 0x5be0cd19⟩

/-- The padded message: a `0x80` byte, zero bytes up to 56 modulo 64, and the
bit length as eight big-endian bytes. -/
def padding (msg : Bytes) : Bytes :=
  let n := msg.length
  let bits := 8 * n
  msg ++ 128 :: List.replicate ((119 - n % 64) % 64) 0 ++
    [bits / 72057594037927936 % 256, bits / 281474976710656 % 256, bits / 1099511627776 % 256,
     bits / 4294967296 % 256, bits / 16777216 % 256, bits / 65536 % 256, bits / 256 % 256,
     bits % 256]

/-- The bytes read as big-endian 32-bit words. -/
def beWords : Bytes → List Nat
  | a :: b :: c :: d :: rest =>
      (a % 256 * 16777216 + b % 256 * 65536 + c % 256 * 256 + d % 256) :: beWords rest
  | _ => []

/-- The state inside one block: the working variables and the sixteen most
recent words of the message schedule. -/
structure RoundState where
  d : Digest
  w : List Nat

/-- One round of the compression function, with round constant `k`: the working
variables are updated with the oldest schedule word, and the schedule window
moves on by one word. -/
def round (s : RoundState) (k : Nat) : RoundState :=
  match s.w with
  | w0 :: w1 :: w2 :: w3 :: w4 :: w5 :: w6 :: w7 :: w8 :: w9 :: w10 :: w11 :: w12 :: w13 ::
      w14 :: w15 :: _ =>
    let a := s.d.h0
    let e := s.d.h4
    let s1 := rotr32 e 6 ^^^ rotr32 e 11 ^^^ rotr32 e 25
    let ch := (e &&& s.d.h5) ^^^ ((4294967295 - e) &&& s.d.h6)
    let t1 := (s.d.h7 + s1 + ch + k + w0) % 4294967296
    let s0 := rotr32 a 2 ^^^ rotr32 a 13 ^^^ rotr32 a 22
    let maj := (a &&& s.d.h1) ^^^ (a &&& s.d.h2) ^^^ (s.d.h1 &&& s.d.h2)
    let t2 := (s0 + maj) % 4294967296
    let g0 := rotr32 w1 7 ^^^ rotr32 w1 18 ^^^ (w1 >>> 3)
    let g1 := rotr32 w14 17 ^^^ rotr32 w14 19 ^^^ (w14 >>> 10)
    let wn := (g1 + w9 + g0 + w0) % 4294967296
    { d := ⟨(t1 + t2) % 4294967296, a, s.d.h1, s.d.h2, (s.d.h3 + t1) % 4294967296, e, s.d.h5,
            s.d.h6⟩,
      w := [w1, w2, w3, w4, w5, w6, w7, w8, w9, w10, w11, w12, w13, w14, w15, wn] }
  | _ => s

/-- The compression of one sixteen-word block into the hash value. -/
def block (d : Digest) (w : List Nat) : Digest :=
  let r := (K256.foldl round ⟨d, w⟩).d
  ⟨(d.h0 + r.h0) % 4294967296, (d.h1 + r.h1) % 4294967296, (d.h2 + r.h2) % 4294967296,
   (d.h3 + r.h3) % 4294967296, (d.h4 + r.h4) % 4294967296, (d.h5 + r.h5) % 4294967296,
   (d.h6 + r.h6) % 4294967296, (d.h7 + r.h7) % 4294967296⟩

/-- The compression of `n` consecutive blocks. -/
def blocks : Nat → Digest → List Nat → Digest
  | 0, d, _ => d
  | n + 1, d, ws => blocks n (block d (ws.take 16)) (ws.drop 16)

/-- The four big-endian bytes of a 32-bit word. -/
def wordBytes (x : Nat) : Bytes :=
  [x / 16777216 % 256, x / 65536 % 256, x / 256 % 256, x % 256]

/-- Go `sha256.Sum256`: the 32-byte SHA-256 digest of a message. -/
def Sum256 (msg : Bytes) : Bytes :=
  let ws := beWords (padding msg)
  let d := blocks (ws.length / 16) initDigest ws
  wordBytes d.h0 ++ wordBytes d.h1 ++ wordBytes d.h2 ++ wordBytes d.h3 ++
  wordBytes d.h4 ++ wordBytes d.h5 ++ wordBytes d.h6 ++ wordBytes d.h7

/-- Go `sha256.New()`: a hash that has been written nothing.  The hash is kept as
the bytes written to it so far. -/
def New : Bytes := []

/-- Go `h.Write(p)`. -/
def Write (h p : Bytes) : Bytes := h ++ p

/-- Go `h.Sum(nil)`: the digest of everything written. -/
def Sum (h : Bytes) : Bytes := Sum256 h

end sha256

namespace hex

/-- Go `hextable`. -/
def hextable : GoString := "0123456789abcdef".toList

/-- Go `hex.EncodeToString`: two lower-case hexadecimal digits a byte. -/
def EncodeToString (src : Bytes) : GoString :=
  src.flatMap fun v => [hextable.getD (v / 16 % 16) '0', hextable.getD (v % 16) '0']

end hex

/-! ## Entity extraction -/

/-- The cut set of `sanitizeEntityName`: braces, parentheses, comma, colon and
the two quotes. -/
def entityCutset : GoString := "\x7b\x7d(),:\x22\x27".toList

/-- Go `sanitizeEntityName`. -/
def sanitizeEntityName (name : GoString) : GoString :=
  let name := strings.TrimSpace name
  let name := strings.Trim name entityCutset
  match name with
  | c :: _ => if 65 ≤ c.toNat ∧ c.toNat ≤ 90 then name else []
  | [] => []

/-- The loop of `findAllIndices`, from position `i` on. -/
def findAllIndicesFrom (char : Char) : GoString → Nat → List Nat
  | [], _ => []
  | c :: cs, i =>
    if c = char then i :: findAllIndicesFrom char cs (i + 1)
    else findAllIndicesFrom char cs (i + 1)

/-- Go `findAllIndices`. -/
def findAllIndices (s : GoString) (char : Char) : List Nat := findAllIndicesFrom char s 0

/-- The two variables of `extractEntities`: the result slice and the map of the
names already recorded. -/
structure EntityAcc where
  entities : List GoString
  entityMap : List (GoString × Bool)
deriving DecidableEq

/-- The guarded append both loops of `extractEntities` end in. -/
def recordEntity (acc : EntityAcc) (entity : GoString) : EntityAcc :=
  if entity ≠ [] ∧ (mapGet acc.entityMap entity).getD false = false then
    { entities := acc.entities ++ [entity], entityMap := mapSet acc.entityMap entity true }
  else acc

/-- The keywords of `extractEntities`. -/
def entityFields : List GoString := ["query".toList, "type".toList]

/-- The body of the inner loop over `fields`, for the word at position `i`. -/
def keywordStep (words : List GoString) (i : Nat) (word : GoString) (acc : EntityAcc)
    (field : GoString) : EntityAcc :=
  if strings.EqualFold word field && decide (i + 1 < words.length) then
    recordEntity acc (sanitizeEntityName (words.getD (i + 1) []))
  else acc

/-- The first loop of `extractEntities`, over the words and their positions. -/
def keywordLoop (words : List GoString) (acc : EntityAcc) : EntityAcc :=
  words.enum.foldl (fun acc iw => entityFields.foldl (keywordStep words iw.1 iw.2) acc) acc

/-- The body of the second loop of `extractEntities`, for one brace position. -/
def braceStep (query : GoString) (acc : EntityAcc) (idx : Nat) : EntityAcc :=
  if idx > 0 then
    let precedingText := strings.TrimSpace (query.take idx)
    if precedingText.length > 0 then
      let lastSpace := strings.LastIndex precedingText " ".toList
      if lastSpace ≠ -1 then
        recordEntity acc (sanitizeEntityName (precedingText.drop (lastSpace + 1).toNat))
      else acc
    else acc
  else acc

/-- Go `extractEntities`. -/
def extractEntities (query : GoString) : List GoString :=
  let acc := keywordLoop (strings.Fields query) { entities := [], entityMap := [] }
  let acc := (findAllIndices query (Char.ofNat 123)).foldl (braceStep query) acc
  acc.entities

/-! ## Fingerprinting -/

/-- Go `http.Request`, as far as the handlers read it: the method, `r.URL.String()`,
`r.URL.Path`, the header map, and what `io.ReadAll(r.Body)` returns (`none`
when the read fails). -/
structure Request where
  Method : GoString
  URL : GoString
  Path : GoString
  Header : List (GoString × List GoString)
  Body : Option Bytes
deriving DecidableEq

/-- The patterns of `extractAuthHeaders`. -/
def authPatterns : List GoString :=
  ["Authorization".toList, "Auth".toList, "X-Auth".toList, "Api-Key".toList,
   "X-Api-Key".toList, "Bearer".toList, "Token".toList]

/-- The body of the inner loop of `extractAuthHeaders`, for the header `key`. -/
def authPatternStep (key : GoString) (values : List GoString)
    (authHeaders : List (GoString × GoString)) (pattern : GoString) :
    List (GoString × GoString) :=
  let keyLower := strings.ToLower key
  if strings.Contains keyLower (strings.ToLower pattern) then
    match values with
    | v :: _ => mapSet authHeaders key v
    | [] => authHeaders
  else authHeaders

/-- Go `extractAuthHeaders`. -/
def extractAuthHeaders (r : Request) : List (GoString × GoString) :=
  r.Header.foldl (fun authHeaders kv => authPatterns.foldl (authPatternStep kv.1 kv.2) authHeaders)
    []

/-- The bytes written for the header `k` in `computeQueryHash`. -/
def writeHeader (authHeaders : List (GoString × GoString)) (h : Bytes) (k : GoString) : Bytes :=
  let h := sha256.Write h (bytesOf k)
  let h := sha256.Write h (bytesOf ":".toList)
  let h := sha256.Write h (bytesOf ((mapGet authHeaders k).getD []))
  sha256.Write h (bytesOf "\n".toList)

/-- Everything `computeQueryHash` writes to the hash: the body, then the headers
in the order of their sorted keys. -/
def hashInput (body : Bytes) (authHeaders : List (GoString × GoString)) : Bytes :=
  let h := sha256.Write sha256.New body
  let keys := authHeaders.foldl (fun keys kv => keys ++ [kv.1]) []
  let keys := sort.Strings keys
  keys.foldl (writeHeader authHeaders) h

/-- Go `computeQueryHash`. -/
def computeQueryHash (body : Bytes) (authHeaders : List (GoString × GoString)) : GoString :=
  hex.EncodeToString (sha256.Sum (hashInput body authHeaders))

/-! ## Classification and registration: `handleRequest` -/

/-- What the source reads of a `gjson.Result`: `Get("query").Exists()` and
`Get("query").String()`. -/
structure GjsonResult where
  queryExists : Bool
  queryString : GoString
deriving DecidableEq

/-- Go `isGraphQLQuery`. -/
def isGraphQLQuery (data : GjsonResult) : Bool := data.queryExists

/-- Go `hasMutations`. -/
def hasMutations (query : GoString) : Bool :=
  strings.Contains (strings.ToLower query) "mutation".toList

/-- Go `http.Header.Get`, for a key in canonical form: the first value, or the
empty string. -/
def headerGet (h : List (GoString × List GoString)) (key : GoString) : GoString :=
  match mapGet h key with
  | some (v :: _) => v
  | _ => []

/-- What a handler wrote to its `http.ResponseWriter`. -/
structure Response where
  status : Nat
  header : List (GoString × List GoString)
  body : Bytes
deriving DecidableEq

/-- What a handler did with a request: it handed the request to the reverse
proxy (`p.proxy.ServeHTTP(w, r)`), or it answered itself. -/
inductive Outcome where
  | forwarded (r : Request)
  | responded (resp : Response)
deriving DecidableEq

/-- Go `http.Error`. -/
def httpError (msg : GoString) (code : Nat) : Response :=
  { status := code,
    header := [("Content-Type".toList, ["text/plain; charset=utf-8".toList]),
               ("X-Content-Type-Options".toList, ["nosniff".toList])],
    body := bytesOf (msg ++ "\n".toList) }

/-- Go `(*Proxy).handleRequest`.  `parse` is `gjson.ParseBytes`.  A forwarded
request carries the body that was read. -/
def handleRequest (parse : Bytes → GjsonResult) (p : Proxy) (r : Request) : Proxy × Outcome :=
  if r.Method ≠ "POST".toList then (p, .forwarded r)
  else
    match r.Body with
    | none => (p, .responded (httpError "Failed to read request body".toList 500))
    | some body =>
      let contentType := headerGet r.Header "Content-Type".toList
      if !strings.Contains contentType "application/json".toList then (p, .forwarded r)
      else
        let graphqlData := parse body
        if !isGraphQLQuery graphqlData then (p, .forwarded r)
        else
          let query := graphqlData.queryString
          if hasMutations query then (p, .forwarded r)
          else
            let entities := extractEntities query
            if entities.length = 0 then (p, .forwarded r)
            else
              let authHeaders := extractAuthHeaders r
              let hash := computeQueryHash body authHeaders
              let info : QueryInfo :=
                { Body := body, AuthHeaders := authHeaders, Entities := entities,
                  OriginalTarget := r.URL, Expiry := 0 }
              ({ p with queries := mapSet p.queries hash info },
               .responded
                 { status := 303,
                   header := [("Location".toList, [ cachePrefix ++ hash])],
                   body := [] })

/-! ## The fingerprint input as the specification words it -/

/-- The bytes of one auth-context entry, `key:value\n`. -/
def entryBytes (kv : GoString × GoString) : Bytes :=
  bytesOf kv.1 ++ bytesOf ":".toList ++ bytesOf kv.2 ++ bytesOf "\n".toList

/-- An auth context as HTTP delivers it: the header names hold no colon, the
values no line feed, and no name occurs twice. -/
def WellFormedAuth (m : List (GoString × GoString)) : Prop :=
  (m.map Prod.fst).Nodup ∧ ∀ kv ∈ m, ':' ∉ kv.1 ∧ '\n' ∉ kv.2

instance (m : List (GoString × GoString)) : Decidable (WellFormedAuth m) :=
  inferInstanceAs (Decidable ((m.map Prod.fst).Nodup ∧ ∀ kv ∈ m, ':' ∉ kv.1 ∧ '\n' ∉ kv.2))

/-! ## The entity extractor as the specification words it -/

/-- The specification's acceptance test: the candidate with the surrounding
white space and then the surrounding punctuation characters `{}(),:"'` removed,
when that text is not empty and begins with an upper-case ASCII letter. -/
def acceptedName (candidate : GoString) : Option GoString :=
  let name := strings.Trim (strings.TrimSpace candidate) "\x7b\x7d(),:\x22\x27".toList
  match name.head? with
  | some c => if 'A' ≤ c ∧ c ≤ 'Z' then some name else none
  | none => none

/-- A token is one of the keywords `query` and `type`, in any letter case. -/
def isEntityKeyword (token : GoString) : Bool :=
  strings.EqualFold token "query".toList || strings.EqualFold token "type".toList

/-- The specification's first pass: the accepted names of the tokens that follow
a keyword token, in token order. -/
def keywordNames (query : GoString) : List GoString :=
  let tokens := strings.Fields query
  (tokens.zip tokens.tail).filterMap fun pair =>
    if isEntityKeyword pair.1 then acceptedName pair.2 else none

/-- The positions of the opening braces of a text, ascending. -/
def bracePositions (query : GoString) : List Nat :=
  (List.range query.length).filter fun i => query.get? i = some (Char.ofNat 123)

/-- The text before a brace back to the previous space, as the specification
words it: of the text with its surrounding white space removed, the part after
the last space, and all of it when it holds no space. -/
def wordBeforePlain (text : GoString) : GoString :=
  (strings.TrimSpace text).rtakeWhile fun c => c ≠ ' '

/-- The specification's second pass as it is worded: the accepted names of the
texts before the opening braces, in the order of the braces. -/
def braceNamesPlain (query : GoString) : List GoString :=
  (bracePositions query).filterMap fun idx => acceptedName (wordBeforePlain (query.take idx))

/-- The text before a brace back to the previous space, when there is a previous
space: of the text with its surrounding white space removed, the part after the
last space; no candidate when that text holds no space. -/
def wordBefore (text : GoString) : Option GoString :=
  let text := strings.TrimSpace text
  if ' ' ∈ text then some (text.rtakeWhile fun c => c ≠ ' ') else none

/-- The second pass with the condition on the previous space: the accepted names
of the words before those opening braces whose preceding text holds a space, in
the order of the braces. -/
def braceNames (query : GoString) : List GoString :=
  (bracePositions query).filterMap fun idx => (wordBefore (query.take idx)).bind acceptedName

/-- The names of a list that are not in `seen` and not earlier in the list, in
order. -/
def dedupFrom (seen : List GoString) : List GoString → List GoString
  | [] => []
  | name :: names =>
    if name ∈ seen then dedupFrom seen names else name :: dedupFrom (name :: seen) names

/-- Deduplication that keeps the first occurrence of every name. -/
def dedupKeepFirst (names : List GoString) : List GoString := dedupFrom [] names

/-! ## Concrete requests used in the examples -/

/-- A `gjson.ParseBytes` that finds the `query` field `q` in every body. -/
def parseFinds (q : GoString) : Bytes → GjsonResult := fun _ =>
  { queryExists := true, queryString := q }

/-- A POST request with a plain-text content type whose body cannot be read. -/
def unreadablePost : Request :=
  { Method := "POST".toList, URL := "/graphql".toList, Path := "/graphql".toList,
    Header := [("Content-Type".toList, ["text/plain".toList])], Body := none }

/-- The query text `mutation { createUser(name: "x") { id } }`. -/
def mutationQuery : GoString :=
  "mutation \x7b createUser(name: \x22x\x22) \x7b id \x7d \x7d".toList

/-- The body `{"query":"mutation { createUser(name: \"x\") { id } }"}`. -/
def mutationBody : Bytes :=
  bytesOf ("\x7b\x22query\x22:\x22mutation \x7b createUser(name: \\\x22x\\\x22) " ++
    "\x7b id \x7d \x7d\x22\x7d").toList

/-- A JSON POST request carrying `mutationBody`. -/
def mutationPost : Request :=
  { Method := "POST".toList, URL := "/graphql".toList, Path := "/graphql".toList,
    Header := [("Content-Type".toList, ["application/json".toList])],
    Body := some mutationBody }

/-- The query text `query { User { id name } }`. -/
def userQuery : GoString := "query \x7b User \x7b id name \x7d \x7d".toList

/-- The body `{"query":"query { User { id name } }"}`. -/
def userBody : Bytes :=
  bytesOf "\x7b\x22query\x22:\x22query \x7b User \x7b id name \x7d \x7d\x22\x7d".toList

/-- A JSON POST request carrying `userBody` and the header
`Authorization: Bearer abc`. -/
def userPost : Request :=
  { Method := "POST".toList, URL := "/graphql".toList, Path := "/graphql".toList,
    Header := [("Content-Type".toList, ["application/json".toList]),
               ("Authorization".toList, ["Bearer abc".toList])],
    Body := some userBody }

/-- The body `{"query":"query { User { id name } }"}` followed by the line
`Authorization:Bearer abc`. -/
def userBodyWithLine : Bytes := userBody ++ bytesOf "Authorization:Bearer abc\n".toList

/-! ## Fulfilment: `handleCachedQuery` -/

namespace path

/-- Go `path.Base`: the last element of a path, after the trailing slashes are
removed; `.` for the empty path and `/` for a path of slashes only. -/
def Base (p : GoString) : GoString :=
  if p = [] then ".".toList
  else
    let p := p.rdropWhile fun c => c = '/'
    let p := p.rtakeWhile fun c => c ≠ '/'
    if p = [] then "/".toList else p

end path

namespace textproto

/-- Go `validHeaderFieldByte`: the characters of an HTTP token. -/
def validHeaderFieldByte (c : Char) : Bool :=
  (48 ≤ c.toNat && c.toNat ≤ 57) || (65 ≤ c.toNat && c.toNat ≤ 90) ||
  (97 ≤ c.toNat && c.toNat ≤ 122) || "!#$%&\x27*+-.^_\x60|~".toList.contains c

/-- The loop of Go `canonicalMIMEHeaderKey`: upper case for the first letter and
for a letter after a dash, lower case for every other letter. -/
def canonicalLoop : Bool → GoString → GoString
  | _, [] => []
  | upper, c :: cs =>
    let c :=
      if upper && (97 ≤ c.toNat && c.toNat ≤ 122) then Char.ofNat (c.toNat - 32)
      else if !upper && (65 ≤ c.toNat && c.toNat ≤ 90) then Char.ofNat (c.toNat + 32)
      else c
    c :: canonicalLoop (c == '-') cs

/-- Go `textproto.CanonicalMIMEHeaderKey`: a key with a character that is not a
token character is returned as it is. -/
def CanonicalMIMEHeaderKey (s : GoString) : GoString :=
  if s.all validHeaderFieldByte then canonicalLoop true s else s

end textproto

/-- Go `http.Header.Set`. -/
def headerSet (h : List (GoString × List GoString)) (key value : GoString) :
    List (GoString × List GoString) :=
  mapSet h (textproto.CanonicalMIMEHeaderKey key) [value]

/-- Go `http.Header.Add`. -/
def headerAdd (h : List (GoString × List GoString)) (key value : GoString) :
    List (GoString × List GoString) :=
  mapSet h (textproto.CanonicalMIMEHeaderKey key)
    ((mapGet h (textproto.CanonicalMIMEHeaderKey key)).getD [] ++ [value])

/-- Go `fmt.Sprintf("%d", n)`. -/
def formatInt (n : Int) : GoString :=
  if n < 0 then '-' :: Nat.toDigits 10 n.natAbs else Nat.toDigits 10 n.natAbs

/-! ## `float64` arithmetic, as far as `time.Duration.Seconds` needs it

A finite `float64` is a rational whose numerator has at most 53 bits and whose
denominator is a power of two.  The operations below are the IEEE 754 ones that
Go performs: the exact result, rounded to the nearest `float64`, ties to the even
mantissa.  No value that a duration produces overflows or is subnormal, so
those cases are not modelled. -/

/-- A finite `float64`: the rational `num / den`. -/
structure Float64 where
  num : Int
  den : Nat
deriving DecidableEq

/-- The integer nearest to `a / b`, the even one of the two when `a / b` lies
halfway. -/
def roundHalfEven (a b : Nat) : Nat :=
  let q := a / b
  let r := a % b
  if 2 * r < b then q
  else if b < 2 * r then q + 1
  else if q % 2 = 0 then q else q + 1

/-- The position of the highest set bit of `n`, found in at most `fuel` halvings. -/
def floorLog2From : Nat → Nat → Nat
  | 0, _ => 0
  | fuel + 1, n => if 2 ≤ n then floorLog2From fuel (n / 2) + 1 else 0

/-- The position of the highest set bit of `n`; 0 for `n = 0`. -/
def floorLog2 (n : Nat) : Nat := floorLog2From n n

/-- The `float64` nearest to `n / d`, for `d > 0`: the quotient is scaled by a
power of two so that its integer part has at least 53 bits, cut to a mantissa
`m` of 53 bits by dropping the lowest `t` bits with rounding to nearest, ties
to even, and scaled back. -/
def Float64.round (n : Int) (d : Nat) : Float64 :=
  let a := n.natAbs
  if a = 0 then { num := 0, den := 1 }
  else
    let scale := 2 ^ (floorLog2 d + 53)
    let t := floorLog2 (a * scale / d) - 52
    let m := roundHalfEven (a * scale) (d * 2 ^ t)
    { num := (if n < 0 then -1 else 1) * ((m * 2 ^ t : Nat) : Int), den := scale }

/-- Go `float64(n)` for an integer `n`. -/
def Float64.ofInt (n : Int) : Float64 := Float64.round n 1

/-- Go `x + y` on `float64`. -/
def Float64.add (x y : Float64) : Float64 :=
  Float64.round (x.num * y.den + y.num * x.den) (x.den * y.den)

/-- Go `x / y` on `float64`, for `y` other than zero. -/
def Float64.div (x y : Float64) : Float64 :=
  Float64.round ((if y.num < 0 then -1 else 1) * x.num * y.den) (x.den * y.num.natAbs)

/-- Go `int(x)` for a `float64`: the fraction is discarded, towards zero. -/
def Float64.toInt (x : Float64) : Int := Int.tdiv x.num x.den

/-- Go `time.Duration.Seconds`:
`sec := d / Second; nsec := d % Second; return float64(sec) + float64(nsec)/1e9`,
with `/` and `%` on `int64` truncating towards zero. -/
def Duration.Seconds (d : Int) : Float64 :=
  let sec := Int.tdiv d Second
  let nsec := Int.tmod d Second
  Float64.add (Float64.ofInt sec) (Float64.div (Float64.ofInt nsec) (Float64.ofInt 1000000000))

/-- The request `handleCachedQuery` sends upstream. -/
structure UpstreamRequest where
  Method : GoString
  URL : GoString
  Header : List (GoString × List GoString)
  Body : Bytes
deriving DecidableEq

/-- What `http.DefaultClient.Do` returns: a transport error, or the upstream's
response. -/
inductive UpstreamResult where
  | failed
  | answered (resp : Response)
deriving DecidableEq

/-- The world around one call of `handleCachedQuery`: the readings of
`time.Now()` at its three call sites (the expiry test, the new expiry, the
`Expires` header), whether `http.NewRequest` accepts a URL, the upstream, and
`Format(http.TimeFormat)`. -/
structure Env where
  nowAtCheck : Int
  nowAtExpiry : Int
  nowAtExpires : Int
  newRequestOK : GoString → Bool
  Do : UpstreamRequest → UpstreamResult
  formatTime : Int → GoString

/-- What one call of `handleCachedQuery` did: the proxy it leaves, the response
it wrote, and the requests it sent upstream. -/
structure Served where
  proxy : Proxy
  response : Response
  upstream : List UpstreamRequest
deriving DecidableEq

/-- The assignment `queryInfo.OriginalTarget = ""` for the target `/`;
`queryInfo` points at the stored record. -/
def normalizeTarget (queryInfo : QueryInfo) : QueryInfo :=
  if queryInfo.OriginalTarget = "/".toList then { queryInfo with OriginalTarget := [] }
  else queryInfo

/-- The upstream request of `handleCachedQuery`: a POST to the target with the
stored body, the headers of the incoming request overlaid with the stored auth
headers and the JSON content type. -/
def newProxyRequest (target : GoString) (queryInfo : QueryInfo) (r : Request) :
    UpstreamRequest :=
  let header := r.Header
  let header := queryInfo.AuthHeaders.foldl (fun h kv => headerSet h kv.1 kv.2) header
  let header := headerSet header "Content-Type".toList "application/json".toList
  { Method := "POST".toList, URL := target ++ queryInfo.OriginalTarget, Header := header,
    Body := queryInfo.Body }

/-- The copy of the upstream's response headers onto the response. -/
def copyHeaders (w : List (GoString × List GoString))
    (upstream : List (GoString × List GoString)) : List (GoString × List GoString) :=
  upstream.foldl (fun w kv => kv.2.foldl (fun w value => headerAdd w kv.1 value) w) w

/-- The part of `handleCachedQuery` after the expiry test, for the record
`queryInfo` found under `hash`: the replay upstream and the answer. -/
def fulfill (env : Env) (p : Proxy) (r : Request) (hash : GoString) (queryInfo : QueryInfo) :
    Served :=
  let queryInfo := normalizeTarget queryInfo
  let p := { p with queries := mapSet p.queries hash queryInfo }
  if !env.newRequestOK (p.target ++ queryInfo.OriginalTarget) then
    { proxy := p, response := httpError "Failed to create proxy request".toList 500,
      upstream := [] }
  else
    let proxyReq := newProxyRequest p.target queryInfo r
    match env.Do proxyReq with
    | UpstreamResult.failed =>
      { proxy := p, response := httpError "Failed to execute proxy request".toList 502,
        upstream := [proxyReq] }
    | UpstreamResult.answered proxyResp =>
      if queryInfo.Entities.length > 0 then
        let minCacheDuration := getMinCacheDuration p queryInfo.Entities
        let p :=
          match mapGet p.queries hash with
          | some info =>
            { p with
              queries := mapSet p.queries hash
                { info with Expiry := env.nowAtExpiry + minCacheDuration } }
          | none => p
        let w := headerSet [] "Cache-Control".toList
          ("max-age=".toList ++ formatInt (Float64.toInt (Duration.Seconds minCacheDuration)) ++
            ", public".toList)
        let w := headerSet w "Expires".toList
          (env.formatTime (env.nowAtExpires + minCacheDuration))
        { proxy := p,
          response := { status := proxyResp.status,
                        header := copyHeaders w proxyResp.header,
                        body := proxyResp.body },
          upstream := [proxyReq] }
      else
        { proxy := p,
          response := { status := proxyResp.status,
                        header := copyHeaders [] proxyResp.header,
                        body := proxyResp.body },
          upstream := [proxyReq] }

/-- Go `(*Proxy).handleCachedQuery`.  The first argument bounds the depth of the
re-entrant call; `none` means the bound was reached. -/
def handleCachedQuery (env : Env) : Nat → Proxy → Request → Option Served
  | 0, _, _ => none
  | fuel + 1, p, r =>
    let hash := path.Base r.Path
    match mapGet p.queries hash with
    | none =>
      some { proxy := p, response := httpError "Cache entry not found".toList 404,
             upstream := [] }
    | some queryInfo =>
      if queryInfo.Expiry ≠ 0 ∧ env.nowAtCheck > queryInfo.Expiry then
        handleCachedQuery env fuel { p with queries := mapDelete p.queries hash } r
      else
        some (fulfill env p r hash queryInfo)

/-! ## Concrete stores and upstreams used in the examples -/

/-- The fingerprint of the scenario request. -/
def userFingerprint : GoString := computeQueryHash userBody (extractAuthHeaders userPost)

/-- The scenario request sent to the URL `/`. -/
def rootPost : Request := { userPost with URL := "/".toList, Path := "/".toList }

/-- The default TTL table, `User:300,Post:600`. -/
def defaultCacheTimes : List (GoString × Int) :=
  [("User".toList, 300 * Second), ("Post".toList, 600 * Second)]

/-- The store after `rootPost` was registered in an empty store. -/
def rootStore : Proxy :=
  (handleRequest (parseFinds userQuery) (New "http://upstream".toList defaultCacheTimes)
    rootPost).1

/-- The phase-2 request for the scenario fingerprint. -/
def userFetch : Request :=
  { Method := "GET".toList, URL := "/_gcl/".toList ++ userFingerprint,
    Path := "/_gcl/".toList ++ userFingerprint,
    Header := [("Accept".toList, ["*/*".toList]),
               ("Authorization".toList, ["Bearer other".toList, "Bearer third".toList])],
    Body := some [] }

/-- A world at time 10 whose upstream cannot be reached. -/
def envDown : Env :=
  { nowAtCheck := 10, nowAtExpiry := 10, nowAtExpires := 10, newRequestOK := fun _ => true,
    Do := fun _ => UpstreamResult.failed, formatTime := fun _ => [] }

/-- A world at time 10 whose upstream answers 200 with the body `[123, 125]`. -/
def envUp : Env :=
  { nowAtCheck := 10, nowAtExpiry := 10, nowAtExpires := 10, newRequestOK := fun _ => true,
    Do := fun _ => UpstreamResult.answered { status := 200, header := [], body := [123, 125] },
    formatTime := fun _ => [] }

/-- The store of `rootStore` after its record was given the expiry 5. -/
def staleStore : Proxy :=
  { rootStore with
    queries := rootStore.queries.map fun kv => (kv.1, { kv.2 with Expiry := 5 }) }

/-- The query text `{User{id}}`, which holds no space. -/
def nestedQuery : GoString := "\x7bUser\x7bid\x7d\x7d".toList

/-- The TTL table `main` builds from `-cache User:15817298423145364`: the product
of the seconds with `time.Second` wraps around to 8589934592999999488 ns. -/
def wrappedCacheTimes : List (GoString × Int) := [("User".toList, 8589934592999999488)]

/-! ## The states of the proxy -/

/-- The proxies that can arise: the one `New` creates, and what any call of
`handleRequest` or `handleCachedQuery` leaves, whatever the request, the parser
result, the clock and the upstream. -/
inductive Reachable (endpoint : GoString) (cacheTimes : List (GoString × Int)) : Proxy → Prop
  | created : Reachable endpoint cacheTimes (New endpoint cacheTimes)
  | registered (parse : Bytes → GjsonResult) (p : Proxy) (r : Request) :
      Reachable endpoint cacheTimes p →
      Reachable endpoint cacheTimes (handleRequest parse p r).1
  | fulfilled (env : Env) (fuel : Nat) (p : Proxy) (r : Request) (s : Served) :
      Reachable endpoint cacheTimes p → handleCachedQuery env fuel p r = some s →
      Reachable endpoint cacheTimes s.proxy

/-! ## Start-up: the TTL table of `main` -/

/-- Go `strings.Split` for a separator of one character: the pieces between
the occurrences of the separator, one more than there are occurrences. -/
def strings.Split (s : GoString) (sep : Char) : List GoString := s.splitOn sep

/-- Go `fmt.Sscanf(s, "%d", &n)` with `n` an `int` of 64 bits, for a text that
begins with no white space (as `strings.TrimSpace` returns it): an optional
sign and the longest run of decimal digits are read, and what follows them is
not looked at.  `none` is the error: no digit, or a value outside `int`. -/
def scanInt (s : GoString) : Option Int :=
  let signed : Bool × GoString :=
    match s with
    | '+' :: t => (false, t)
    | '-' :: t => (true, t)
    | _ => (false, s)
  let digits := signed.2.takeWhile fun c => 48 ≤ c.toNat && c.toNat ≤ 57
  if digits = [] then none
  else
    let v : Int := digits.foldl (fun n c => 10 * n + ((c.toNat - 48 : Nat) : Int)) 0
    let i := if signed.1 then -v else v
    if -9223372036854775808 ≤ i ∧ i ≤ 9223372036854775807 then some i else none

/-- The value of an `int64` computation that wraps around. -/
def wrapInt64 (x : Int) : Int := (x + 9223372036854775808) % 18446744073709551616 - 9223372036854775808

/-- The two `log.Fatalf` calls of the parsing loop of `main`. -/
inductive Fatal where
  | invalidFormat (item : GoString)
  | invalidTime (entity : GoString)
deriving DecidableEq

instance exceptDecidableEq {ε α : Type} [DecidableEq ε] [DecidableEq α] :
    DecidableEq (Except ε α)
  | Except.ok a, Except.ok b =>
    if h : a = b then isTrue (congrArg Except.ok h) else isFalse fun h2 => h (Except.ok.inj h2)
  | Except.error a, Except.error b =>
    if h : a = b then isTrue (congrArg Except.error h)
    else isFalse fun h2 => h (Except.error.inj h2)
  | Except.ok _, Except.error _ => isFalse fun h => Except.noConfusion h
  | Except.error _, Except.ok _ => isFalse fun h => Except.noConfusion h

/-- The parsing loop of `main` over the items of the `-cache` flag; `cacheTimes`
is the table filled so far. -/
def parseCacheItems : List GoString → List (GoString × Int) →
    Except Fatal (List (GoString × Int))
  | [], cacheTimes => Except.ok cacheTimes
  | item :: items, cacheTimes =>
    let parts := strings.Split item ':'
    if parts.length ≠ 2 then Except.error (Fatal.invalidFormat item)
    else
      let entity := strings.TrimSpace (parts.getD 0 [])
      match scanInt (strings.TrimSpace (parts.getD 1 [])) with
      | none => Except.error (Fatal.invalidTime entity)
      | some seconds =>
        parseCacheItems items (mapSet cacheTimes entity (wrapInt64 (seconds * Second)))

/-- The TTL table `main` builds from the `-cache` flag, or the fatal error it
stops with. -/
def parseCacheMap (cacheMap : GoString) : Except Fatal (List (GoString × Int)) :=
  parseCacheItems (strings.Split cacheMap ',') []

/-! # Theorems -/

/-! ## Properties of `getMinCacheDuration` -/

/-- The invariant of the loop of `getMinCacheDuration`: `first` stays set exactly
while no entity has been found in the table, and once it is cleared the
running value is a table entry of a visited entity (or the initial value) below
every table entry visited. -/
theorem minDuration_foldl (t : List (GoString × Int)) (es : List GoString) (acc : Int × Bool) :
    ((es.foldl (minDurationStep t) acc).2 = true ↔
        (acc.2 = true ∧ ∀ e ∈ es, mapGet t e = none)) ∧
    ((es.foldl (minDurationStep t) acc).2 = false →
        (((es.foldl (minDurationStep t) acc).1 = acc.1 ∧ acc.2 = false) ∨
          ∃ e ∈ es, mapGet t e = some (es.foldl (minDurationStep t) acc).1) ∧
        (acc.2 = false → (es.foldl (minDurationStep t) acc).1 ≤ acc.1) ∧
        ∀ e ∈ es, ∀ d, mapGet t e = some d → (es.foldl (minDurationStep t) acc).1 ≤ d) := by
  induction es generalizing acc with
  | nil => simp
  | cons e es ih =>
    obtain ⟨m, f⟩ := acc
    simp only [List.foldl_cons]
    have h := ih (minDurationStep t (m, f) e)
    cases hl : mapGet t e with
    | none =>
      simp only [minDurationStep, hl] at h ⊢
      refine ⟨?_, ?_⟩
      · rw [h.1]; simp [hl]
      · intro hf
        obtain ⟨h1, h2, h3⟩ := h.2 hf
        refine ⟨?_, h2, ?_⟩
        · rcases h1 with h1 | ⟨e', he', h1⟩
          · exact Or.inl h1
          · exact Or.inr ⟨e', List.mem_cons_of_mem _ he', h1⟩
        · intro e' he' d hd
          rcases List.mem_cons.1 he' with rfl | he'
          · rw [hl] at hd; cases hd
          · exact h3 e' he' d hd
    | some d0 =>
      by_cases hc : (f || decide (d0 < m)) = true
      · simp only [minDurationStep, hl, hc, if_true] at h ⊢
        refine ⟨?_, ?_⟩
        · rw [h.1]; simp [hl]
        · intro hf
          obtain ⟨h1, h2, h3⟩ := h.2 hf
          have h2' := h2 trivial
          refine ⟨?_, ?_, ?_⟩
          · rcases h1 with h1 | ⟨e', he', h1⟩
            · exact Or.inr ⟨e, List.mem_cons_self _ _, by rw [hl, h1.1]⟩
            · exact Or.inr ⟨e', List.mem_cons_of_mem _ he', h1⟩
          · intro hff
            subst hff
            simp at hc
            omega
          · intro e' he' d hd
            rcases List.mem_cons.1 he' with rfl | he'
            · rw [hl] at hd; cases hd; exact h2'
            · exact h3 e' he' d hd
      · simp only [minDurationStep, hl, hc] at h ⊢
        simp only [Bool.or_eq_true, decide_eq_true_eq, not_or, Bool.not_eq_true, not_lt] at hc
        obtain ⟨hf0, hle⟩ := hc
        subst hf0
        simp only [Bool.false_eq_true, if_false] at h ⊢
        refine ⟨?_, ?_⟩
        · rw [h.1]; simp
        · intro hf
          obtain ⟨h1, h2, h3⟩ := h.2 hf
          have h2' := h2 trivial
          refine ⟨?_, fun _ => h2', ?_⟩
          · rcases h1 with h1 | ⟨e', he', h1⟩
            · exact Or.inl h1
            · exact Or.inr ⟨e', List.mem_cons_of_mem _ he', h1⟩
          · intro e' he' d hd
            rcases List.mem_cons.1 he' with rfl | he'
            · rw [hl] at hd; cases hd; omega
            · exact h3 e' he' d hd

/-- C1: `getMinCacheDuration` returns 60 seconds when no entity of the list is a
key of the TTL table, and otherwise a table entry of one of the entities that is
below the table entry of every entity of the list that has one; entities
`[User, Post]` with `{User: 300 s, Post: 600 s}` give 300 s and `[Comment]`
gives 60 s. -/
theorem getMinCacheDuration_min (p : Proxy) (es : List GoString) :
    ((∀ e ∈ es, mapGet p.cacheTimes e = none) → getMinCacheDuration p es = 60 * Second) ∧
    ((∃ e ∈ es, (mapGet p.cacheTimes e).isSome = true) →
      (∃ e ∈ es, mapGet p.cacheTimes e = some (getMinCacheDuration p es)) ∧
      ∀ e ∈ es, ∀ d, mapGet p.cacheTimes e = some d → getMinCacheDuration p es ≤ d) ∧
    getMinCacheDuration
        (New [] [("User".toList, 300 * Second), ("Post".toList, 600 * Second)])
        ["User".toList, "Post".toList] = 300 * Second ∧
    getMinCacheDuration
        (New [] [("User".toList, 300 * Second), ("Post".toList, 600 * Second)])
        ["Comment".toList] = 60 * Second := by
  have h := minDuration_foldl p.cacheTimes es (0, true)
  refine ⟨?_, ?_, by decide, by decide⟩
  · intro hn
    have : (es.foldl (minDurationStep p.cacheTimes) (0, true)).2 = true := h.1.2 ⟨rfl, hn⟩
    simp [getMinCacheDuration, this]
  · rintro ⟨e, he, hs⟩
    have hf : (es.foldl (minDurationStep p.cacheTimes) (0, true)).2 = false := by
      cases hb : (es.foldl (minDurationStep p.cacheTimes) (0, true)).2 with
      | false => rfl
      | true =>
        have := (h.1.1 hb).2 e he
        rw [this] at hs; cases hs
    obtain ⟨h1, -, h3⟩ := h.2 hf
    have hg : getMinCacheDuration p es = (es.foldl (minDurationStep p.cacheTimes) (0, true)).1 := by
      simp [getMinCacheDuration, hf]
    rw [hg]
    refine ⟨?_, h3⟩
    rcases h1 with h1 | h1
    · cases h1.2
    · exact h1

/-! ## Substrings -/

/-- `strings.Contains` is the contiguous-block relation. -/
theorem Contains_iff_isInfix (s substr : GoString) :
    strings.Contains s substr = true ↔ substr <:+: s := by
  induction s with
  | nil =>
    cases substr <;> simp [strings.Contains]
  | cons c cs ih =>
    unfold strings.Contains
    rw [Bool.or_eq_true, ih, List.infix_cons_iff, List.isPrefixOf_iff_prefix]

/-- `hasMutations` holds exactly when some block of the query text is `mutation`
in some letter case, that is, lower-cases to `mutation`. -/
theorem hasMutations_iff (query : GoString) :
    hasMutations query = true ↔
      ∃ pre w post, query = pre ++ w ++ post ∧ strings.ToLower w = "mutation".toList := by
  unfold hasMutations
  rw [Contains_iff_isInfix]
  unfold strings.ToLower
  constructor
  · rintro ⟨s, t, h⟩
    obtain ⟨l1, post, hq, h1, h2⟩ := List.map_eq_append_iff.1 h.symm
    obtain ⟨pre, w, hl1, h3, h4⟩ := List.map_eq_append_iff.1 h1
    exact ⟨pre, w, post, by rw [hq, hl1], h4⟩
  · rintro ⟨pre, w, post, hq, hw⟩
    refine ⟨pre.map unicode.ToLower, post.map unicode.ToLower, ?_⟩
    rw [hq, List.map_append, List.map_append, hw]

/-! ## Classification: `handleRequest` -/

/-- C2, as stated, fails: a POST request whose body cannot be read does not
carry the JSON content type (it fails the second condition) and yet
`handleRequest` does not pass it through; it answers 500. -/
theorem handleRequest_unreadable_not_forwarded :
    strings.Contains (headerGet unreadablePost.Header "Content-Type".toList)
        "application/json".toList = false ∧
    (handleRequest (parseFinds []) (New [] []) unreadablePost).2
        ≠ Outcome.forwarded unreadablePost ∧
    (handleRequest (parseFinds []) (New [] []) unreadablePost).2
        = Outcome.responded (httpError "Failed to read request body".toList 500) := by
  decide

/-- C2, amended: `handleRequest` answers 303 exactly when the method is POST, the
body can be read, the `Content-Type` header contains `application/json`, the
parsed body has a `query` field, the query text has no `mutation` in any letter
case and `extractEntities` of it is non-empty; a request that is not a POST, or
whose body can be read and that fails one of these conditions, is passed through
with the store unchanged; a POST whose body cannot be read is answered 500. -/
theorem handleRequest_classification (parse : Bytes → GjsonResult) (p : Proxy) (r : Request) :
    ((∃ resp, (handleRequest parse p r).2 = Outcome.responded resp ∧ resp.status = 303) ↔
      (r.Method = "POST".toList ∧ ∃ body, r.Body = some body ∧
        strings.Contains (headerGet r.Header "Content-Type".toList)
          "application/json".toList = true ∧
        isGraphQLQuery (parse body) = true ∧
        hasMutations (parse body).queryString = false ∧
        extractEntities (parse body).queryString ≠ [])) ∧
    (∀ body, r.Method = "POST".toList → r.Body = some body →
        strings.Contains (headerGet r.Header "Content-Type".toList)
          "application/json".toList = true →
        isGraphQLQuery (parse body) = true →
        hasMutations (parse body).queryString = false →
        extractEntities (parse body).queryString ≠ [] →
      handleRequest parse p r =
        ({ p with
            queries := mapSet p.queries (computeQueryHash body (extractAuthHeaders r))
              { Body := body, AuthHeaders := extractAuthHeaders r,
                Entities := extractEntities (parse body).queryString,
                OriginalTarget := r.URL, Expiry := 0 } },
         Outcome.responded
           { status := 303,
             header := [("Location".toList,
               ["/_gcl/".toList ++ computeQueryHash body (extractAuthHeaders r)])],
             body := [] })) ∧
    ((r.Method ≠ "POST".toList ∨ ∃ body, r.Body = some body ∧
        (strings.Contains (headerGet r.Header "Content-Type".toList)
            "application/json".toList = false ∨
          isGraphQLQuery (parse body) = false ∨
          hasMutations (parse body).queryString = true ∨
          extractEntities (parse body).queryString = [])) →
      handleRequest parse p r = (p, Outcome.forwarded r)) ∧
    ((r.Method = "POST".toList ∧ r.Body = none) →
      handleRequest parse p r =
        (p, Outcome.responded (httpError "Failed to read request body".toList 500))) := by
  refine ⟨?_, ?_, ?_, ?_⟩
  · constructor
    · rintro ⟨resp, h, hs⟩
      unfold handleRequest at h
      by_cases hm : r.Method = "POST".toList
      · refine ⟨hm, ?_⟩
        cases hb : r.Body with
        | none =>
          simp only [hm, hb, ne_eq, not_true_eq_false, if_false] at h
          cases h
          simp [httpError] at hs
        | some body =>
          refine ⟨body, rfl, ?_⟩
          simp only [hm, hb, ne_eq, not_true_eq_false, if_false] at h
          split_ifs at h with h1 h2 h3 h4
          · simp_all [List.length_eq_zero]
      · rw [if_pos hm] at h
        cases h
    · rintro ⟨hm, body, hb, h1, h2, h3, h4⟩
      unfold handleRequest
      simp only [hm, hb, h1, h2, h3, ne_eq, not_true_eq_false, if_false, Bool.not_true,
        Bool.false_eq_true, List.length_eq_zero, h4]
      exact ⟨_, rfl, rfl⟩
  · intro body hm hb h1 h2 h3 h4
    unfold handleRequest
    simp only [hm, hb, h1, h2, h3, ne_eq, not_true_eq_false, if_false, Bool.not_true,
      Bool.false_eq_true, List.length_eq_zero, h4, cachePrefix]
  · rintro (hm | ⟨body, hb, h⟩)
    · unfold handleRequest
      rw [if_pos hm]
    · unfold handleRequest
      by_cases hm : r.Method = "POST".toList
      · simp only [hm, hb, ne_eq, not_true_eq_false, if_false]
        split_ifs with h1 h2 h3 h4
        · rfl
        · rfl
        · rfl
        · rfl
        · simp_all [List.length_eq_zero]
      · rw [if_pos hm]
  · rintro ⟨hm, hb⟩
    unfold handleRequest
    simp only [hm, hb, ne_eq, not_true_eq_false, if_false]

/-- C3: whatever the store and the request, when the query text of the body
contains `mutation` in any letter case, `handleRequest` hands the request to the
reverse proxy and returns the proxy, store included, exactly as it was. -/
theorem handleRequest_mutation_forwarded (parse : Bytes → GjsonResult) (p : Proxy) (r : Request)
    (body : Bytes) (hb : r.Body = some body)
    (hmut : ∃ pre w post, (parse body).queryString = pre ++ w ++ post ∧
      strings.ToLower w = "mutation".toList) :
    handleRequest parse p r = (p, Outcome.forwarded r) ∧
    (handleRequest parse p r).1.queries = p.queries := by
  have hm : hasMutations (parse body).queryString = true := (hasMutations_iff _).2 hmut
  have h : handleRequest parse p r = (p, Outcome.forwarded r) := by
    unfold handleRequest
    by_cases hmeth : r.Method = "POST".toList
    · simp only [hmeth, hb, ne_eq, not_true_eq_false, if_false]
      split_ifs <;> rfl
    · rw [if_pos hmeth]
  exact ⟨h, by rw [h]⟩

/-- The mutation scenario of the specification: the request is passed through and
the empty store stays empty. -/
theorem handleRequest_mutation_forwarded_witness :
    handleRequest (parseFinds mutationQuery) (New [] []) mutationPost
        = (New [] [], Outcome.forwarded mutationPost) ∧
    (handleRequest (parseFinds mutationQuery) (New [] []) mutationPost).1.queries = [] :=
  handleRequest_mutation_forwarded (parseFinds mutationQuery) (New [] []) mutationPost
    mutationBody rfl
    ⟨[], "mutation".toList, " \x7b createUser(name: \x22x\x22) \x7b id \x7d \x7d".toList,
      by decide, by decide⟩

/-! ## Strings and their bytes -/

theorem char_eq_of_toNat_eq {a b : Char} (h : a.toNat = b.toNat) : a = b := by
  apply Char.ext
  apply UInt32.ext
  exact h

/-- UTF-8 is a prefix code: the encoding of a rune followed by anything
determines the rune and what follows. -/
theorem utf8EncodeRune_append_inj {r1 r2 : Char} {t1 t2 : Bytes}
    (h : utf8EncodeRune r1 ++ t1 = utf8EncodeRune r2 ++ t2) : r1 = r2 ∧ t1 = t2 := by
  have key : r1.toNat = r2.toNat ∧ t1 = t2 := by
    unfold utf8EncodeRune at h
    simp only [] at h
    split_ifs at h <;>
      simp only [List.cons_append, List.nil_append, List.cons.injEq] at h <;>
      refine ⟨by omega, by first | exact h.2 | exact h.2.2 | exact h.2.2.2 | exact h.2.2.2.2 | omega⟩
  exact ⟨char_eq_of_toNat_eq key.1, key.2⟩

theorem bytesOf_cons (c : Char) (s : GoString) : bytesOf (c :: s) = utf8EncodeRune c ++ bytesOf s := by
  simp [bytesOf]

theorem utf8EncodeRune_ne_nil (c : Char) : utf8EncodeRune c ≠ [] := by
  unfold utf8EncodeRune
  simp only []
  split_ifs <;> simp

/-- The conversion of a string to its bytes loses nothing. -/
theorem bytesOf_injective {s t : GoString} (h : bytesOf s = bytesOf t) : s = t := by
  induction s generalizing t with
  | nil =>
    cases t with
    | nil => rfl
    | cons c t =>
      rw [bytesOf_cons] at h
      have := utf8EncodeRune_ne_nil c
      simp [bytesOf] at h
      exact absurd h.1 this
  | cons c s ih =>
    cases t with
    | nil =>
      rw [bytesOf_cons] at h
      have := utf8EncodeRune_ne_nil c
      simp [bytesOf] at h
      exact absurd h.1 this
    | cons d t =>
      rw [bytesOf_cons, bytesOf_cons] at h
      obtain ⟨h1, h2⟩ := utf8EncodeRune_append_inj h
      rw [h1, ih h2]

/-- An ASCII byte occurs in the encoding of a string only as the encoding of
that ASCII character. -/
theorem mem_bytesOf_ascii {s : GoString} {c : Char} (hc : c.toNat < 128) :
    c.toNat ∈ bytesOf s ↔ c ∈ s := by
  induction s with
  | nil => simp [bytesOf]
  | cons d s ih =>
    rw [bytesOf_cons, List.mem_append, ih, List.mem_cons]
    have : c.toNat ∈ utf8EncodeRune d ↔ c = d := by
      constructor
      · intro h
        unfold utf8EncodeRune at h
        simp only [] at h
        split_ifs at h <;> simp only [List.mem_cons, List.mem_singleton, List.not_mem_nil, or_false] at h
        · exact char_eq_of_toNat_eq h
        · omega
        · omega
        · omega
      · rintro rfl
        unfold utf8EncodeRune
        simp [hc]
    rw [this]

theorem bytesLE_refl (a : Bytes) : bytesLE a a = true := by
  induction a with
  | nil => rfl
  | cons x a ih => simp [bytesLE, ih]

theorem bytesLE_total (a b : Bytes) : bytesLE a b = true ∨ bytesLE b a = true := by
  induction a generalizing b with
  | nil => left; rfl
  | cons x a ih =>
    cases b with
    | nil => right; rfl
    | cons y b =>
      simp only [bytesLE, Bool.or_eq_true, decide_eq_true_eq, Bool.and_eq_true, beq_iff_eq]
      rcases Nat.lt_trichotomy x y with h | h | h
      · left; left; exact h
      · rcases ih b with h' | h'
        · left; right; exact ⟨h, h'⟩
        · right; right; exact ⟨h.symm, h'⟩
      · right; left; exact h

theorem bytesLE_trans {a b c : Bytes} (h1 : bytesLE a b = true) (h2 : bytesLE b c = true) :
    bytesLE a c = true := by
  induction a generalizing b c with
  | nil => rfl
  | cons x a ih =>
    cases b with
    | nil => simp [bytesLE] at h1
    | cons y b =>
      cases c with
      | nil => simp [bytesLE] at h2
      | cons z c =>
        simp only [bytesLE, Bool.or_eq_true, decide_eq_true_eq, Bool.and_eq_true, beq_iff_eq] at *
        rcases h1 with h1 | ⟨h1, h1'⟩ <;> rcases h2 with h2 | ⟨h2, h2'⟩
        · left; omega
        · left; omega
        · left; omega
        · right; exact ⟨by omega, ih h1' h2'⟩

theorem bytesLE_antisymm {a b : Bytes} (h1 : bytesLE a b = true) (h2 : bytesLE b a = true) :
    a = b := by
  induction a generalizing b with
  | nil =>
    cases b with
    | nil => rfl
    | cons y b => simp [bytesLE] at h2
  | cons x a ih =>
    cases b with
    | nil => simp [bytesLE] at h1
    | cons y b =>
      simp only [bytesLE, Bool.or_eq_true, decide_eq_true_eq, Bool.and_eq_true, beq_iff_eq] at *
      rcases h1 with h1 | ⟨h1, h1'⟩ <;> rcases h2 with h2 | ⟨h2, h2'⟩
      · omega
      · omega
      · omega
      · rw [h1, ih h1' h2']

theorem stringLE_isTotal : IsTotal GoString (fun s t => stringLE s t = true) :=
  ⟨fun _ _ => bytesLE_total _ _⟩

theorem stringLE_isTrans : IsTrans GoString (fun s t => stringLE s t = true) :=
  ⟨fun _ _ _ h1 h2 => bytesLE_trans h1 h2⟩

theorem stringLE_isAntisymm : IsAntisymm GoString (fun s t => stringLE s t = true) :=
  ⟨fun _ _ h1 h2 => bytesOf_injective (bytesLE_antisymm h1 h2)⟩


/-! ## The fingerprint -/

/-- The key-collecting loop of `computeQueryHash` lists the keys in map order. -/
theorem keys_foldl (l : List (GoString × GoString)) (acc : List GoString) :
    l.foldl (fun keys kv => keys ++ [kv.1]) acc = acc ++ l.map Prod.fst := by
  induction l generalizing acc with
  | nil => simp
  | cons kv l ih => simp [ih]

/-- The bytes of one `key:value\n` entry. -/
theorem writeHeader_eq (m : List (GoString × GoString)) (h : Bytes) (k : GoString) :
    writeHeader m h k = h ++ (bytesOf k ++ 58 :: (bytesOf ((mapGet m k).getD []) ++ [10])) := by
  have h1 : bytesOf ":".toList = [58] := by decide
  have h2 : bytesOf "\n".toList = [10] := by decide
  unfold writeHeader sha256.Write
  rw [h1, h2]
  simp

theorem writeHeader_foldl (m : List (GoString × GoString)) (ks : List GoString) (h : Bytes) :
    ks.foldl (writeHeader m) h =
      h ++ ks.flatMap fun k => bytesOf k ++ 58 :: (bytesOf ((mapGet m k).getD []) ++ [10]) := by
  induction ks generalizing h with
  | nil => simp
  | cons k ks ih => rw [List.foldl_cons, ih, writeHeader_eq]; simp

/-- The closed form of what `computeQueryHash` hashes. -/
theorem hashInput_eq (body : Bytes) (m : List (GoString × GoString)) :
    hashInput body m = body ++ (sort.Strings (m.map Prod.fst)).flatMap fun k =>
      bytesOf k ++ 58 :: (bytesOf ((mapGet m k).getD []) ++ [10]) := by
  unfold hashInput
  simp only [keys_foldl, List.nil_append, writeHeader_foldl, sha256.Write, sha256.New]

/-- In a map, a key has the value it is listed with. -/
theorem mapGet_eq_some_iff {β : Type} {m : List (GoString × β)} (nd : (m.map Prod.fst).Nodup)
    (k : GoString) (v : β) : mapGet m k = some v ↔ (k, v) ∈ m := by
  induction m with
  | nil => simp [mapGet]
  | cons e m ih =>
    obtain ⟨k', v'⟩ := e
    simp only [List.map_cons, List.nodup_cons, List.mem_map, not_exists, not_and] at nd
    by_cases hk : k = k'
    · subst hk
      have hne : ∀ w, (k, w) ∉ m := fun w hw => nd.1 (k, w) hw rfl
      simp [mapGet, List.lookup, hne, eq_comm]
    · have hk' : (k == k') = false := by simpa using hk
      have := ih nd.2
      simp only [mapGet] at this
      simp [mapGet, List.lookup, hk', this, hk]

/-- Two listings of one map answer every read alike. -/
theorem mapGet_perm {β : Type} {m1 m2 : List (GoString × β)} (hp : m1.Perm m2)
    (nd : (m1.map Prod.fst).Nodup) (k : GoString) : mapGet m1 k = mapGet m2 k := by
  have nd2 : (m2.map Prod.fst).Nodup := (hp.map Prod.fst).nodup_iff.1 nd
  cases h1 : mapGet m1 k with
  | some v =>
    exact ((mapGet_eq_some_iff nd2 k v).2 (hp.mem_iff.1 ((mapGet_eq_some_iff nd k v).1 h1))).symm
  | none =>
    cases h2 : mapGet m2 k with
    | none => rfl
    | some v =>
      have := (mapGet_eq_some_iff nd k v).2 (hp.mem_iff.2 ((mapGet_eq_some_iff nd2 k v).1 h2))
      rw [h1] at this; cases this

/-- Sorting two listings of the same keys gives the same list. -/
theorem sortStrings_perm {ks1 ks2 : List GoString} (hp : ks1.Perm ks2) :
    sort.Strings ks1 = sort.Strings ks2 := by
  unfold sort.Strings
  haveI := stringLE_isTotal
  haveI := stringLE_isTrans
  haveI := stringLE_isAntisymm
  exact List.eq_of_perm_of_sorted
    (((List.perm_insertionSort _ ks1).trans hp).trans (List.perm_insertionSort _ ks2).symm)
    (List.sorted_insertionSort _ ks1) (List.sorted_insertionSort _ ks2)

/-- C4: for every body and every two listings of one auth-header map (the same
pairs, no key twice, in any two orders) `computeQueryHash` returns the same
fingerprint. -/
theorem computeQueryHash_perm (body : Bytes) (m1 m2 : List (GoString × GoString))
    (hp : m1.Perm m2) (nd : (m1.map Prod.fst).Nodup) :
    computeQueryHash body m1 = computeQueryHash body m2 := by
  unfold computeQueryHash
  rw [hashInput_eq, hashInput_eq, sortStrings_perm (hp.map Prod.fst)]
  have : ∀ k, mapGet m1 k = mapGet m2 k := mapGet_perm hp nd
  simp only [this]

/-- Two orders of the map `{Authorization: Bearer abc, X-Api-Key: k1}` under the
body `[123, 125]` have one fingerprint. -/
theorem computeQueryHash_perm_witness :
    computeQueryHash [123, 125]
        [("Authorization".toList, "Bearer abc".toList), ("X-Api-Key".toList, "k1".toList)] =
      computeQueryHash [123, 125]
        [("X-Api-Key".toList, "k1".toList), ("Authorization".toList, "Bearer abc".toList)] :=
  computeQueryHash_perm [123, 125] _ _ (List.Perm.swap _ _ _) (by decide)


theorem entryBytes_eq (kv : GoString × GoString) :
    entryBytes kv = bytesOf kv.1 ++ 58 :: (bytesOf kv.2 ++ [10]) := by
  have h1 : bytesOf ":".toList = [58] := by decide
  have h2 : bytesOf "\n".toList = [10] := by decide
  unfold entryBytes
  rw [h1, h2]
  simp

/-- The entries of a map, listed along a list of its keys. -/
theorem flatMap_keys_eq (m kvs : List (GoString × GoString)) (nd : (m.map Prod.fst).Nodup)
    (hsub : ∀ kv ∈ kvs, kv ∈ m) :
    ((kvs.map Prod.fst).flatMap fun k =>
        bytesOf k ++ 58 :: (bytesOf ((mapGet m k).getD []) ++ [10])) =
      kvs.flatMap entryBytes := by
  induction kvs with
  | nil => rfl
  | cons kv kvs ih =>
    have hm : mapGet m kv.1 = some kv.2 := (mapGet_eq_some_iff nd kv.1 kv.2).2
      (hsub kv (List.mem_cons_self _ _))
    simp only [List.map_cons, List.flatMap_cons, hm, Option.getD_some, entryBytes_eq]
    rw [ih (fun kv' h => hsub kv' (List.mem_cons_of_mem _ h))]

theorem sorted_stringLE_of_stringLT {ks : List GoString}
    (h : ks.Sorted fun s t => stringLT s t = true) : ks.Sorted fun s t => stringLE s t = true := by
  refine List.Pairwise.imp ?_ h
  intro a b hab
  rcases bytesLE_total (bytesOf a) (bytesOf b) with h1 | h1
  · exact h1
  · simp [stringLT, stringLE, h1] at hab

theorem nodup_of_sorted_stringLT {ks : List GoString}
    (h : ks.Sorted fun s t => stringLT s t = true) : ks.Nodup := by
  refine List.Pairwise.imp ?_ h
  intro a b hab hEq
  subst hEq
  simp [stringLT, stringLE, bytesLE_refl] at hab

theorem length_Sum256 (msg : Bytes) : (sha256.Sum256 msg).length = 32 := by
  simp [sha256.Sum256, sha256.wordBytes]

/-- The test vectors of FIPS 180-4 for the empty message, `abc`, and the
two-block message of 56 bytes. -/
theorem Sum256_test_vectors :
    hex.EncodeToString (sha256.Sum256 []) =
      "e3b0c44298fc1c149afbf4c8996fb92427ae41e4649b934ca495991b7852b855".toList ∧
    hex.EncodeToString (sha256.Sum256 (bytesOf "abc".toList)) =
      "ba7816bf8f01cfea414140de5dae2223b00361a396177a9cb410ff61f20015ad".toList ∧
    hex.EncodeToString (sha256.Sum256
        (bytesOf "abcdbcdecdefdefgefghfghighijhijkijkljklmklmnlmnomnopnopq".toList)) =
      "248d6a61d20638b8e5c026930c3e6039a33ce45964ff2167f6ecedd419db06c1".toList := by
  decide!

theorem length_EncodeToString (src : Bytes) : (hex.EncodeToString src).length = 2 * src.length := by
  induction src with
  | nil => rfl
  | cons b src ih =>
    simp only [hex.EncodeToString, List.flatMap_cons, List.length_append, List.length_cons,
      List.length_nil] at ih ⊢
    rw [ih]; omega

theorem hextable_getD_mem (i : Nat) (h : i < 16) : hex.hextable.getD i '0' ∈ hex.hextable := by
  interval_cases i <;> decide

theorem mem_EncodeToString {src : Bytes} {c : Char} (h : c ∈ hex.EncodeToString src) :
    c ∈ hex.hextable := by
  simp only [hex.EncodeToString, List.mem_flatMap, List.mem_cons, List.mem_singleton,
    List.not_mem_nil, or_false] at h
  obtain ⟨v, -, rfl | rfl⟩ := h
  · exact hextable_getD_mem _ (Nat.mod_lt _ (by decide))
  · exact hextable_getD_mem _ (Nat.mod_lt _ (by decide))

/-- C5: for every body and auth-header map, and the listing `kvs` of the map's
entries by strictly ascending key, `computeQueryHash` is the lower-case
hexadecimal encoding of the SHA-256 digest of the body followed by the entries
`key:value\n` of `kvs` in order; the fingerprint has exactly 64 characters, each
one of `0`-`9`, `a`-`f`. -/
theorem computeQueryHash_eq_hex_sha256 (body : Bytes) (m kvs : List (GoString × GoString))
    (hp : kvs.Perm m) (hs : (kvs.map Prod.fst).Sorted fun s t => stringLT s t = true) :
    computeQueryHash body m =
        hex.EncodeToString (sha256.Sum256 (body ++ kvs.flatMap entryBytes)) ∧
    (computeQueryHash body m).length = 64 ∧
    ∀ c ∈ computeQueryHash body m, c ∈ "0123456789abcdef".toList := by
  have nd : (m.map Prod.fst).Nodup :=
    ((hp.map Prod.fst).nodup_iff).1 (nodup_of_sorted_stringLT hs)
  have hsort : sort.Strings (m.map Prod.fst) = kvs.map Prod.fst := by
    unfold sort.Strings
    haveI := stringLE_isTotal
    haveI := stringLE_isTrans
    haveI := stringLE_isAntisymm
    exact List.eq_of_perm_of_sorted
      ((List.perm_insertionSort _ _).trans (hp.map Prod.fst).symm)
      (List.sorted_insertionSort _ _) (sorted_stringLE_of_stringLT hs)
  refine ⟨?_, ?_, ?_⟩
  · unfold computeQueryHash sha256.Sum
    rw [hashInput_eq, hsort, flatMap_keys_eq m kvs nd (fun kv h => hp.mem_iff.1 h)]
  · unfold computeQueryHash sha256.Sum
    rw [length_EncodeToString, length_Sum256]
  · intro c hc
    exact mem_EncodeToString hc

/-- The map `{X-Api-Key: k1, Authorization: Bearer abc}` is hashed in the order
`Authorization`, `X-Api-Key`. -/
theorem computeQueryHash_eq_hex_sha256_witness :
    computeQueryHash [123, 125]
        [("X-Api-Key".toList, "k1".toList), ("Authorization".toList, "Bearer abc".toList)] =
      hex.EncodeToString (sha256.Sum256 ([123, 125] ++
        [("Authorization".toList, "Bearer abc".toList),
         ("X-Api-Key".toList, "k1".toList)].flatMap entryBytes)) ∧
    (computeQueryHash [123, 125]
        [("X-Api-Key".toList, "k1".toList),
         ("Authorization".toList, "Bearer abc".toList)]).length = 64 ∧
    ∀ c ∈ computeQueryHash [123, 125]
        [("X-Api-Key".toList, "k1".toList), ("Authorization".toList, "Bearer abc".toList)],
      c ∈ "0123456789abcdef".toList :=
  computeQueryHash_eq_hex_sha256 [123, 125] _ _ (List.Perm.swap _ _ _) (by decide)


/-- A list is cut in one way at the first occurrence of a separator. -/
theorem append_sep_inj {a : Nat} {x y r r' : Bytes} (hx : a ∉ x) (hy : a ∉ y)
    (h : x ++ a :: r = y ++ a :: r') : x = y ∧ r = r' := by
  induction x generalizing y with
  | nil =>
    cases y with
    | nil => simpa using h
    | cons b y =>
      simp only [List.nil_append, List.cons_append, List.cons.injEq] at h
      exact absurd (h.1 ▸ List.mem_cons_self _ _) hy
  | cons c x ih =>
    cases y with
    | nil =>
      simp only [List.nil_append, List.cons_append, List.cons.injEq] at h
      exact absurd (h.1 ▸ List.mem_cons_self _ _) hx
    | cons b y =>
      simp only [List.cons_append, List.cons.injEq] at h
      obtain ⟨h1, h2⟩ := ih (fun hm => hx (List.mem_cons_of_mem _ hm))
        (fun hm => hy (List.mem_cons_of_mem _ hm)) h.2
      exact ⟨by rw [h.1, h1], h2⟩

/-- The serialisation of entries whose names hold no colon and whose values hold
no line feed can be read back. -/
theorem flatMap_entryBytes_inj {l1 l2 : List (GoString × GoString)}
    (h1 : ∀ kv ∈ l1, ':' ∉ kv.1 ∧ '\n' ∉ kv.2) (h2 : ∀ kv ∈ l2, ':' ∉ kv.1 ∧ '\n' ∉ kv.2)
    (h : l1.flatMap entryBytes = l2.flatMap entryBytes) : l1 = l2 := by
  have hne : ∀ (kv : GoString × GoString) (t : Bytes), entryBytes kv ++ t ≠ [] := by
    intro kv t; rw [entryBytes_eq]; simp
  induction l1 generalizing l2 with
  | nil =>
    cases l2 with
    | nil => rfl
    | cons kv l2 =>
      simp only [List.flatMap_nil, List.flatMap_cons] at h
      exact absurd h.symm (hne _ _)
  | cons kv l1 ih =>
    cases l2 with
    | nil =>
      simp only [List.flatMap_nil, List.flatMap_cons] at h
      exact absurd h (hne _ _)
    | cons kv' l2 =>
      simp only [List.flatMap_cons, entryBytes_eq, List.append_assoc, List.cons_append,
        List.nil_append] at h
      have a1 := h1 kv (List.mem_cons_self _ _)
      have a2 := h2 kv' (List.mem_cons_self _ _)
      have c58 : (':' : Char).toNat = 58 := by decide
      have c10 : ('\n' : Char).toNat = 10 := by decide
      have k1 : 58 ∉ bytesOf kv.1 := by
        rw [← c58, mem_bytesOf_ascii (by decide)]; exact a1.1
      have k2 : 58 ∉ bytesOf kv'.1 := by
        rw [← c58, mem_bytesOf_ascii (by decide)]; exact a2.1
      have v1 : 10 ∉ bytesOf kv.2 := by
        rw [← c10, mem_bytesOf_ascii (by decide)]; exact a1.2
      have v2 : 10 ∉ bytesOf kv'.2 := by
        rw [← c10, mem_bytesOf_ascii (by decide)]; exact a2.2
      obtain ⟨e1, r1⟩ := append_sep_inj k1 k2 h
      obtain ⟨e2, r2⟩ := append_sep_inj v1 v2 r1
      have := ih (fun kv h => h1 kv (List.mem_cons_of_mem _ h))
        (fun kv h => h2 kv (List.mem_cons_of_mem _ h)) r2
      rw [this, Prod.ext (bytesOf_injective e1) (bytesOf_injective e2)]

/-- The entries listed along the sorted keys are a listing of the map. -/
theorem sorted_entries_perm (m : List (GoString × GoString)) (nd : (m.map Prod.fst).Nodup) :
    ((sort.Strings (m.map Prod.fst)).map fun k => (k, (mapGet m k).getD [])).Perm m := by
  have h1 : ((sort.Strings (m.map Prod.fst)).map fun k => (k, (mapGet m k).getD [])).Perm
      ((m.map Prod.fst).map fun k => (k, (mapGet m k).getD [])) :=
    (List.perm_insertionSort _ _).map _
  have h2 : ((m.map Prod.fst).map fun k => (k, (mapGet m k).getD [])) = m := by
    rw [List.map_map]
    conv_rhs => rw [← List.map_id m]
    apply List.map_congr_left
    intro kv hkv
    have := (mapGet_eq_some_iff nd kv.1 kv.2).2 hkv
    simp [this]
  rw [h2] at h1
  exact h1

theorem hashInput_eq_entries (body : Bytes) (m : List (GoString × GoString)) :
    hashInput body m = body ++
      ((sort.Strings (m.map Prod.fst)).map fun k => (k, (mapGet m k).getD [])).flatMap
        entryBytes := by
  rw [hashInput_eq]
  congr 1
  induction sort.Strings (m.map Prod.fst) with
  | nil => rfl
  | cons k ks ih => simp only [List.flatMap_cons, List.map_cons, entryBytes_eq, ih]

/-- C6, as stated, fails: the body followed by the line `Authorization:Bearer abc`
with no auth header, and the body alone with the header
`Authorization: Bearer abc`, are different pairs with the same hash input and
the same fingerprint. -/
theorem hashInput_not_injective :
    (userBodyWithLine, ([] : List (GoString × GoString))) ≠
        (userBody, [("Authorization".toList, "Bearer abc".toList)]) ∧
    hashInput userBodyWithLine [] =
        hashInput userBody [("Authorization".toList, "Bearer abc".toList)] ∧
    computeQueryHash userBodyWithLine [] =
        computeQueryHash userBody [("Authorization".toList, "Bearer abc".toList)] := by
  have h : hashInput userBodyWithLine [] =
      hashInput userBody [("Authorization".toList, "Bearer abc".toList)] := by decide
  refine ⟨by decide, h, ?_⟩
  unfold computeQueryHash
  rw [h]

/-- C6, amended: a difference in the body alone, or in the auth context alone,
changes the bytes that are hashed.  For one auth context two different bodies
give different hash inputs; for one body, two auth contexts that are different
maps, with header names free of `:` and values free of line feeds, give
different hash inputs. -/
theorem hashInput_injective_componentwise :
    (∀ (b1 b2 : Bytes) (m : List (GoString × GoString)),
        b1 ≠ b2 → hashInput b1 m ≠ hashInput b2 m) ∧
    (∀ (b : Bytes) (m1 m2 : List (GoString × GoString)),
        WellFormedAuth m1 → WellFormedAuth m2 → ¬ m1.Perm m2 →
        hashInput b m1 ≠ hashInput b m2) := by
  constructor
  · intro b1 b2 m hne h
    rw [hashInput_eq, hashInput_eq] at h
    exact hne (List.append_cancel_right h)
  · intro b m1 m2 w1 w2 hnp h
    rw [hashInput_eq_entries, hashInput_eq_entries] at h
    have h' := List.append_cancel_left h
    have p1 := sorted_entries_perm m1 w1.1
    have p2 := sorted_entries_perm m2 w2.1
    have e := flatMap_entryBytes_inj (fun kv hkv => w1.2 kv (p1.mem_iff.1 hkv))
      (fun kv hkv => w2.2 kv (p2.mem_iff.1 hkv)) h'
    rw [e] at p1
    exact hnp (p1.symm.trans p2)

/-- Two auth contexts with different values for one header, under one body, are
hashed from different bytes. -/
theorem hashInput_injective_componentwise_witness :
    hashInput userBody [("Authorization".toList, "Bearer abc".toList)] ≠
      hashInput userBody [("Authorization".toList, "Bearer abd".toList)] :=
  hashInput_injective_componentwise.2 userBody _ _ (by decide) (by decide)
    (fun h => by simpa using h.mem_iff (a := ("Authorization".toList, "Bearer abc".toList)))

/-- C7, as stated, fails: the fingerprint of the scenario request is not the
digest of the body followed by `authorization:Bearer abc` with a lower-case
name. -/
theorem fingerprint_not_lowercase_name :
    computeQueryHash userBody (extractAuthHeaders userPost) ≠
      hex.EncodeToString
        (sha256.Sum256 (userBody ++ bytesOf "authorization:Bearer abc\n".toList)) := by
  decide!

/-- C7, amended: for the scenario request, with body
`{"query":"query { User { id name } }"}` and header `Authorization: Bearer abc`,
the fingerprint `handleRequest` computes and puts in the `Location` header is
the hex-encoded SHA-256 of the body bytes followed by the bytes of
`Authorization:Bearer abc\n`: the header name enters the hash as the header map
spells it. -/
theorem fingerprint_keeps_header_name (p : Proxy) :
    extractAuthHeaders userPost = [("Authorization".toList, "Bearer abc".toList)] ∧
    computeQueryHash userBody (extractAuthHeaders userPost) =
      hex.EncodeToString
        (sha256.Sum256 (userBody ++ bytesOf "Authorization:Bearer abc\n".toList)) ∧
    (handleRequest (parseFinds userQuery) p userPost).2 =
      Outcome.responded
        { status := 303,
          header := [("Location".toList, [ cachePrefix ++ hex.EncodeToString
            (sha256.Sum256 (userBody ++ bytesOf "Authorization:Bearer abc\n".toList))])],
          body := [] } := by
  have h1 : extractAuthHeaders userPost = [("Authorization".toList, "Bearer abc".toList)] := by
    decide
  have h2 : computeQueryHash userBody (extractAuthHeaders userPost) =
      hex.EncodeToString
        (sha256.Sum256 (userBody ++ bytesOf "Authorization:Bearer abc\n".toList)) := by
    have : hashInput userBody [("Authorization".toList, "Bearer abc".toList)] =
        userBody ++ bytesOf "Authorization:Bearer abc\n".toList := by decide
    rw [h1]
    unfold computeQueryHash sha256.Sum
    rw [this]
  refine ⟨h1, h2, ?_⟩
  rw [← h2]
  have hq : hasMutations userQuery = false := by decide
  have he : extractEntities userQuery = ["User".toList] := by decide
  have hc : strings.Contains (headerGet userPost.Header "Content-Type".toList)
      "application/json".toList = true := by decide
  have hm : userPost.Method = "POST".toList := rfl
  have hb : userPost.Body = some userBody := rfl
  unfold handleRequest
  simp only [hm, hb, hc, ne_eq, not_true_eq_false, if_false, Bool.not_true, Bool.false_eq_true,
    parseFinds, isGraphQLQuery, hq, he, List.length_singleton, one_ne_zero]


/-! ## The scenario of the specification -/

/-- C8: for every POST request with content type `application/json` and the body
`{"query":"query { User { id name } }"}`, whose parsed `query` field is the text
`query { User { id name } }`: `extractEntities` of that text is exactly `[User]`,
the request is classified cacheable, and `handleRequest` answers 303 with the
`Location` header `/_gcl/` followed by the request's fingerprint. -/
theorem handleRequest_user_scenario (parse : Bytes → GjsonResult) (p : Proxy) (r : Request)
    (hm : r.Method = "POST".toList) (hb : r.Body = some userBody)
    (hc : headerGet r.Header "Content-Type".toList = "application/json".toList)
    (hp : parse userBody = { queryExists := true, queryString := userQuery }) :
    extractEntities userQuery = ["User".toList] ∧
    (handleRequest parse p r).2 =
      Outcome.responded
        { status := 303,
          header := [("Location".toList,
            ["/_gcl/".toList ++ computeQueryHash userBody (extractAuthHeaders r)])],
          body := [] } := by
  have hq : hasMutations userQuery = false := by decide
  have he : extractEntities userQuery = ["User".toList] := by decide
  have hc' : strings.Contains "application/json".toList "application/json".toList = true := by
    decide
  refine ⟨he, ?_⟩
  unfold handleRequest
  simp only [hm, hb, hc, hc', hp, ne_eq, not_true_eq_false, if_false, Bool.not_true,
    Bool.false_eq_true, isGraphQLQuery, hq, he, List.length_singleton, one_ne_zero, cachePrefix]

/-- The scenario request itself, on an empty store. -/
theorem handleRequest_user_scenario_witness :
    extractEntities userQuery = ["User".toList] ∧
    (handleRequest (parseFinds userQuery) (New [] []) userPost).2 =
      Outcome.responded
        { status := 303,
          header := [("Location".toList,
            ["/_gcl/".toList ++ computeQueryHash userBody (extractAuthHeaders userPost)])],
          body := [] } :=
  handleRequest_user_scenario (parseFinds userQuery) (New [] []) userPost rfl rfl (by decide) rfl


/-! ## Entity extraction -/

theorem mapGet_mapSet {β : Type} (m : List (GoString × β)) (k k' : GoString) (v : β) :
    mapGet (mapSet m k v) k' = if k' = k then some v else mapGet m k' := by
  induction m with
  | nil =>
    by_cases h : k' = k
    · simp [mapSet, mapGet, List.lookup, h]
    · have : (k' == k) = false := by simpa using h
      simp [mapSet, mapGet, List.lookup, h, this]
  | cons e m ih =>
    obtain ⟨k0, v0⟩ := e
    simp only [mapGet] at ih
    by_cases h0 : k0 = k
    · subst h0
      by_cases h : k' = k0
      · simp [mapSet, mapGet, List.lookup, h]
      · have : (k' == k0) = false := by simpa using h
        simp [mapSet, mapGet, List.lookup, h, this]
    · by_cases h : k' = k0
      · subst h
        simp [mapSet, mapGet, List.lookup, h0]
      · have : (k' == k0) = false := by simpa using h
        simp [mapSet, mapGet, List.lookup, h0, this, ih]

/-- The guarded append of `extractEntities`, read on the result slice alone: the
map of recorded names holds exactly the names of the slice. -/
theorem recordEntity_spec (acc : EntityAcc) (e : GoString)
    (inv : ∀ x, (mapGet acc.entityMap x).getD false = true ↔ x ∈ acc.entities) :
    (recordEntity acc e).entities =
        (if e ≠ [] ∧ e ∉ acc.entities then acc.entities ++ [e] else acc.entities) ∧
    (∀ x, (mapGet (recordEntity acc e).entityMap x).getD false = true ↔
        x ∈ (recordEntity acc e).entities) := by
  have hiff : (mapGet acc.entityMap e).getD false = false ↔ e ∉ acc.entities := by
    rw [← inv e]; simp
  unfold recordEntity
  by_cases hc : e ≠ [] ∧ (mapGet acc.entityMap e).getD false = false
  · have hc' : e ≠ [] ∧ e ∉ acc.entities := ⟨hc.1, hiff.1 hc.2⟩
    rw [if_pos hc, if_pos hc']
    refine ⟨rfl, ?_⟩
    intro x
    simp only [mapGet_mapSet, List.mem_append, List.mem_singleton]
    by_cases hx : x = e
    · simp [hx]
    · simp [hx, inv x]
  · have hc' : ¬ (e ≠ [] ∧ e ∉ acc.entities) := fun h => hc ⟨h.1, hiff.2 h.2⟩
    rw [if_neg hc, if_neg hc']
    exact ⟨rfl, inv⟩

theorem recordEntity_nil (acc : EntityAcc) : recordEntity acc [] = acc := by
  simp [recordEntity]

theorem dedupFrom_congr {s1 s2 : List GoString} (h : ∀ x, x ∈ s1 ↔ x ∈ s2)
    (l : List GoString) : dedupFrom s1 l = dedupFrom s2 l := by
  induction l generalizing s1 s2 with
  | nil => rfl
  | cons a l ih =>
    unfold dedupFrom
    by_cases ha : a ∈ s1
    · rw [if_pos ha, if_pos ((h a).1 ha)]
      exact ih h
    · rw [if_neg ha, if_neg (fun h2 => ha ((h a).2 h2))]
      congr 1
      apply ih
      intro x
      simp [h x]

/-- A run of guarded appends adds, in order, the non-empty names that are neither
recorded already nor earlier in the run. -/
theorem foldl_recordEntity (cands : List GoString) (acc : EntityAcc)
    (inv : ∀ x, (mapGet acc.entityMap x).getD false = true ↔ x ∈ acc.entities) :
    (cands.foldl recordEntity acc).entities =
        acc.entities ++ dedupFrom acc.entities (cands.filter fun c => c ≠ []) ∧
    (∀ x, (mapGet (cands.foldl recordEntity acc).entityMap x).getD false = true ↔
        x ∈ (cands.foldl recordEntity acc).entities) := by
  induction cands generalizing acc with
  | nil => simp [dedupFrom, inv]
  | cons c cands ih =>
    obtain ⟨h1, h2⟩ := recordEntity_spec acc c inv
    obtain ⟨h3, h4⟩ := ih (recordEntity acc c) h2
    rw [List.foldl_cons]
    refine ⟨?_, h4⟩
    rw [h3, h1]
    by_cases hc : c = []
    · subst hc
      simp
    · by_cases hm : c ∈ acc.entities
      · have : ¬ (c ≠ [] ∧ c ∉ acc.entities) := fun h => h.2 hm
        rw [if_neg this]
        simp [List.filter_cons, hc, dedupFrom, hm]
      · rw [if_pos ⟨hc, hm⟩]
        simp only [List.filter_cons, hc, ne_eq, not_false_eq_true, decide_True, if_true,
          dedupFrom, hm, if_false, List.append_assoc, List.singleton_append]
        congr 2
        apply dedupFrom_congr
        intro x
        simp [or_comm]


/-- The cut set of `sanitizeEntityName` holds the characters `{}(),:"'`. -/
theorem entityCutset_eq : entityCutset = "\x7b\x7d(),:\x22\x27".toList := rfl

/-- `sanitizeEntityName` gives the accepted name, and the empty string for a
candidate that is not accepted. -/
theorem sanitizeEntityName_eq (cand : GoString) :
    sanitizeEntityName cand = (acceptedName cand).getD [] := by
  unfold sanitizeEntityName acceptedName
  rw [← entityCutset_eq]
  simp only []
  cases h : strings.Trim (strings.TrimSpace cand) entityCutset with
  | nil => rfl
  | cons c t =>
    simp only [List.head?_cons]
    have hA : ('A' ≤ c ∧ c ≤ 'Z') ↔ (65 ≤ c.toNat ∧ c.toNat ≤ 90) := by
      simp only [Char.le_def, UInt32.le_def]
      exact Iff.rfl
    by_cases hc : 65 ≤ c.toNat ∧ c.toNat ≤ 90
    · rw [if_pos hc, if_pos (hA.2 hc)]; rfl
    · rw [if_neg hc, if_neg (fun h => hc (hA.1 h))]; rfl

theorem acceptedName_ne_nil {cand t : GoString} (h : acceptedName cand = some t) : t ≠ [] := by
  unfold acceptedName at h
  rw [← entityCutset_eq] at h
  simp only [] at h
  intro ht
  cases hh : (strings.Trim (strings.TrimSpace cand) entityCutset).head? with
  | none => rw [hh] at h; cases h
  | some c =>
    rw [hh] at h
    simp only [] at h
    split_ifs at h
    cases h
    rw [ht] at hh
    cases hh

/-- The non-empty results of `sanitizeEntityName` are the accepted names. -/
theorem filter_map_getD {α : Type} (g : α → Option GoString)
    (hg : ∀ x t, g x = some t → t ≠ []) (l : List α) :
    ((l.map fun x => (g x).getD []).filter fun c => c ≠ []) = l.filterMap g := by
  induction l with
  | nil => rfl
  | cons x l ih =>
    cases hx : g x with
    | none =>
      rw [List.map_cons, List.filterMap_cons, hx, List.filter_cons]
      simpa using ih
    | some t =>
      have := hg x t hx
      rw [List.map_cons, List.filterMap_cons, hx, List.filter_cons]
      simpa [this] using ih

theorem equalFold_exclusive {w : GoString} (h1 : strings.EqualFold w "query".toList = true) :
    strings.EqualFold w "type".toList = false := by
  unfold strings.EqualFold at *
  cases h2 : (List.map unicode.foldRune w == List.map unicode.foldRune "type".toList) with
  | false => rfl
  | true =>
    exfalso
    have e1 := eq_of_beq h1
    have e2 := eq_of_beq h2
    rw [e1] at e2
    revert e2
    decide

/-- The inner loop over the two keywords records the sanitized next word when the
word is a keyword and has a next word. -/
theorem keyword_inner (words : List GoString) (i : Nat) (w : GoString) (acc : EntityAcc) :
    entityFields.foldl (keywordStep words i w) acc =
      if isEntityKeyword w = true ∧ i + 1 < words.length then
        recordEntity acc (sanitizeEntityName (words.getD (i + 1) []))
      else acc := by
  simp only [entityFields, List.foldl_cons, List.foldl_nil, keywordStep, isEntityKeyword]
  by_cases hi : i + 1 < words.length
  · by_cases hq : strings.EqualFold w "query".toList = true
    · have ht := equalFold_exclusive hq
      simp only [hq, ht, hi, decide_True, Bool.and_self, Bool.or_false, and_self, if_true,
        Bool.false_and, Bool.false_eq_true, if_false]
    · have hq' : strings.EqualFold w "query".toList = false := by simpa using hq
      by_cases ht : strings.EqualFold w "type".toList = true
      · simp only [hq', ht, hi, decide_True, Bool.and_self, Bool.false_or, and_self, if_true,
          Bool.false_and, Bool.false_eq_true, if_false]
      · have ht' : strings.EqualFold w "type".toList = false := by simpa using ht
        simp only [hq', ht', hi, decide_True, Bool.or_self, Bool.false_and, Bool.false_eq_true,
          false_and, if_false]
  · simp only [hi, decide_False, Bool.and_false, Bool.false_eq_true, and_false, if_false]

/-- The first loop is a run of guarded appends over the pairs of a word and its
successor. -/
theorem keywordLoop_from (pre ws : List GoString) (acc : EntityAcc) :
    (ws.enumFrom pre.length).foldl
        (fun acc iw => entityFields.foldl (keywordStep (pre ++ ws) iw.1 iw.2) acc) acc =
      ((ws.zip ws.tail).map fun pair =>
        ((if isEntityKeyword pair.1 then acceptedName pair.2 else none).getD [])).foldl
        recordEntity acc := by
  induction ws generalizing pre acc with
  | nil => rfl
  | cons w rest ih =>
    rw [List.enumFrom_cons, List.foldl_cons]
    simp only []
    rw [keyword_inner]
    cases rest with
    | nil => simp
    | cons nx rest' =>
      have hlen : pre.length + 1 < (pre ++ w :: nx :: rest').length := by simp
      have hget : (pre ++ w :: nx :: rest').getD (pre.length + 1) [] = nx := by
        rw [List.getD_eq_getElem?_getD, List.getElem?_append_right (by omega)]
        simp
      have hpre : pre ++ w :: nx :: rest' = (pre ++ [w]) ++ nx :: rest' := by simp
      have ih' := ih (pre ++ [w])
      simp only [List.length_append, List.length_singleton] at ih'
      rw [hpre] at hlen hget ⊢
      simp only [hlen, and_true, hget]
      rw [ih']
      simp only [List.tail_cons, List.zip_cons_cons, List.map_cons, List.foldl_cons]
      congr 1
      cases hk : isEntityKeyword w with
      | true => simp [sanitizeEntityName_eq]
      | false => simp [recordEntity_nil]


theorem isPrefixOf_space (l : GoString) :
    (" ".toList).isPrefixOf l = true ↔ l.head? = some ' ' := by
  have : " ".toList = [' '] := rfl
  rw [this]
  cases l with
  | nil => simp [List.isPrefixOf]
  | cons c l =>
    simp only [List.isPrefixOf, List.head?_cons, Option.some.injEq, Bool.and_true, beq_iff_eq]
    exact eq_comm

theorem lastIndexBelow_no_space (s : GoString) (hs : ' ' ∉ s) (n : Nat) :
    strings.lastIndexBelow s " ".toList n = 0 := by
  induction n with
  | zero => rfl
  | succ n ih =>
    unfold strings.lastIndexBelow
    have : ¬ ((" ".toList).isPrefixOf (s.drop n) = true) := by
      rw [isPrefixOf_space]
      intro h
      exact hs (List.mem_of_mem_drop (List.mem_of_mem_head? h))
    rw [if_neg this, ih]

theorem lastIndexBelow_last_space (a b : GoString) (hb : ' ' ∉ b) (k : Nat) :
    strings.lastIndexBelow (a ++ ' ' :: b) " ".toList (a.length + 1 + k) = a.length + 1 := by
  induction k with
  | zero =>
    show strings.lastIndexBelow (a ++ ' ' :: b) " ".toList (a.length + 1) = a.length + 1
    unfold strings.lastIndexBelow
    have : (" ".toList).isPrefixOf ((a ++ ' ' :: b).drop a.length) = true := by
      rw [isPrefixOf_space, List.drop_left]; rfl
    rw [if_pos this]
  | succ k ih =>
    show strings.lastIndexBelow (a ++ ' ' :: b) " ".toList (a.length + 1 + k + 1) = a.length + 1
    unfold strings.lastIndexBelow
    have hd : (a ++ ' ' :: b).drop (a.length + 1 + k) = b.drop k := by
      have : a ++ ' ' :: b = (a ++ [' ']) ++ b := by simp
      rw [this, show a.length + 1 + k = (a ++ [' ']).length + k by simp, List.drop_append]
    have : ¬ ((" ".toList).isPrefixOf ((a ++ ' ' :: b).drop (a.length + 1 + k)) = true) := by
      rw [hd, isPrefixOf_space]
      intro h
      exact hb (List.mem_of_mem_drop (List.mem_of_mem_head? h))
    rw [if_neg this, ih]

/-- A text with a space splits at its last space. -/
theorem split_last_space (s : GoString) (hs : ' ' ∈ s) :
    ∃ a, s = a ++ ' ' :: s.rtakeWhile (fun c => c ≠ ' ') ∧
      ' ' ∉ s.rtakeWhile (fun c => c ≠ ' ') := by
  have hnot : ' ' ∉ s.rtakeWhile (fun c => c ≠ ' ') := by
    intro h
    have := List.mem_rtakeWhile_imp h
    simp at this
  have hsplit : s.rdropWhile (fun c => decide (c ≠ ' ')) ++
      s.rtakeWhile (fun c => decide (c ≠ ' ')) = s := by
    have := List.takeWhile_append_dropWhile (fun c => decide (c ≠ ' ')) s.reverse
    have h2 := congrArg List.reverse this
    rw [List.reverse_append, List.reverse_reverse] at h2
    exact h2
  have hne : s.rdropWhile (fun c => decide (c ≠ ' ')) ≠ [] := by
    intro h
    rw [h, List.nil_append] at hsplit
    rw [← hsplit] at hs
    exact hnot hs
  have hlast := List.rdropWhile_last_not (fun c => decide (c ≠ ' ')) s hne
  have hl : (s.rdropWhile (fun c => decide (c ≠ ' '))).getLast hne = ' ' := by
    simpa using hlast
  refine ⟨(s.rdropWhile (fun c => decide (c ≠ ' '))).dropLast, ?_, hnot⟩
  have h2 := List.dropLast_append_getLast hne
  rw [hl] at h2
  conv_lhs => rw [← hsplit, ← h2]
  simp

theorem LastIndex_no_space (s : GoString) (hs : ' ' ∉ s) :
    strings.LastIndex s " ".toList = -1 := by
  unfold strings.LastIndex
  rw [lastIndexBelow_no_space s hs]
  rfl

theorem LastIndex_space (s : GoString) (hs : ' ' ∈ s) :
    strings.LastIndex s " ".toList ≠ -1 ∧
    s.drop (strings.LastIndex s " ".toList + 1).toNat = s.rtakeWhile (fun c => c ≠ ' ') := by
  obtain ⟨a, ha, hb⟩ := split_last_space s hs
  have hlen : s.length + 1 = a.length + 1 + ((s.rtakeWhile (fun c => c ≠ ' ')).length + 1) := by
    conv_lhs => rw [ha]
    simp
    omega
  have hli : strings.lastIndexBelow s " ".toList (s.length + 1) = a.length + 1 := by
    rw [hlen]
    conv_lhs => rw [ha]
    exact lastIndexBelow_last_space a _ hb _
  unfold strings.LastIndex
  rw [hli]
  refine ⟨by omega, ?_⟩
  have : ((((a.length + 1 : Nat) : Int) - 1 + 1).toNat) = a.length + 1 := by omega
  rw [this]
  conv_lhs => rw [ha]
  have : a ++ ' ' :: s.rtakeWhile (fun c => c ≠ ' ') =
      (a ++ [' ']) ++ s.rtakeWhile (fun c => c ≠ ' ') := by simp
  rw [this, show a.length + 1 = (a ++ [' ']).length by simp, List.drop_left]

/-- The body of the second loop is one guarded append of the sanitized word
before the brace. -/
theorem braceStep_eq (query : GoString) (acc : EntityAcc) (idx : Nat) :
    braceStep query acc idx =
      recordEntity acc (((wordBefore (query.take idx)).bind acceptedName).getD []) := by
  unfold braceStep wordBefore
  simp only []
  by_cases hs : ' ' ∈ strings.TrimSpace (query.take idx)
  · obtain ⟨h1, h2⟩ := LastIndex_space _ hs
    have hpos : 0 < idx := by
      rcases Nat.eq_zero_or_pos idx with h | h
      · subst h
        simp [strings.TrimSpace, List.rdropWhile] at hs
      · exact h
    have hlen : (strings.TrimSpace (query.take idx)).length > 0 :=
      List.length_pos_of_mem hs
    rw [if_pos hpos, if_pos hlen, if_pos h1, if_pos hs, h2, sanitizeEntityName_eq,
      Option.some_bind]
  · have h1 := LastIndex_no_space _ hs
    rw [if_neg hs]
    simp only [Option.none_bind, Option.getD_none, recordEntity_nil, h1, ne_eq,
      not_true_eq_false, if_false, ite_self]

theorem findAllIndicesFrom_eq (char : Char) (s : GoString) (i : Nat) :
    findAllIndicesFrom char s i =
      ((List.range s.length).filter fun j => s.get? j = some char).map (· + i) := by
  induction s generalizing i with
  | nil => rfl
  | cons c s ih =>
    unfold findAllIndicesFrom
    rw [ih (i + 1)]
    rw [List.length_cons, List.range_succ_eq_map, List.filter_cons, List.filter_map]
    have hf : ((fun j => decide ((c :: s).get? j = some char)) ∘ Nat.succ) =
        fun j => decide (s.get? j = some char) := by
      funext j; simp
    have hm : ((fun x => x + i) ∘ Nat.succ) = fun x => x + (i + 1) := by
      funext j; simp; omega
    rw [hf]
    by_cases hc : c = char
    · simp only [hc, if_true, List.get?_cons_zero, decide_True, List.map_cons, List.map_map,
        hm, Nat.zero_add]
    · have hc' : ¬ (some c = some char) := fun h => hc (Option.some.inj h)
      simp only [hc, if_false, List.get?_cons_zero, hc', decide_False, List.map_map, hm,
        Bool.false_eq_true]

theorem findAllIndices_eq (query : GoString) :
    findAllIndices query (Char.ofNat 123) = bracePositions query := by
  unfold findAllIndices bracePositions
  rw [findAllIndicesFrom_eq]
  simp

/-- `extractEntities` is the first-occurrence deduplication of the names of the
two passes. -/
theorem extractEntities_eq (query : GoString) :
    extractEntities query = dedupKeepFirst (keywordNames query ++ braceNames query) := by
  unfold extractEntities keywordLoop
  simp only []
  have h1 := keywordLoop_from [] (strings.Fields query) { entities := [], entityMap := [] }
  simp only [List.length_nil, List.nil_append] at h1
  rw [List.enum, h1, findAllIndices_eq]
  have h2 : ∀ (l : List Nat) (acc : EntityAcc), l.foldl (braceStep query) acc =
      (l.map fun idx => ((wordBefore (query.take idx)).bind acceptedName).getD []).foldl
        recordEntity acc := by
    intro l
    induction l with
    | nil => intro acc; rfl
    | cons i l ih => intro acc; rw [List.foldl_cons, braceStep_eq, ih, List.map_cons,
        List.foldl_cons]
  rw [h2, ← List.foldl_append]
  have h3 := (foldl_recordEntity
    (((strings.Fields query).zip (strings.Fields query).tail).map (fun pair =>
        ((if isEntityKeyword pair.1 then acceptedName pair.2 else none).getD [])) ++
      (bracePositions query).map fun idx =>
        ((wordBefore (query.take idx)).bind acceptedName).getD [])
    { entities := [], entityMap := [] } (by intro x; simp [mapGet, List.lookup])).1
  rw [h3]
  simp only [List.nil_append, List.filter_append, dedupKeepFirst, keywordNames, braceNames]
  rw [filter_map_getD (fun pair : GoString × GoString =>
        if isEntityKeyword pair.1 then acceptedName pair.2 else none),
      filter_map_getD (fun idx => (wordBefore (query.take idx)).bind acceptedName)]
  · intro idx t ht
    cases hw : wordBefore (query.take idx) with
    | none => rw [hw] at ht; cases ht
    | some w => rw [hw] at ht; exact acceptedName_ne_nil ht
  · intro pair t ht
    split_ifs at ht
    exact acceptedName_ne_nil ht


theorem dedupFrom_cons_seen (a : GoString) (seen l : List GoString) :
    dedupFrom (a :: seen) l = dedupFrom seen (l.filter fun x => x ≠ a) := by
  induction l generalizing seen with
  | nil => rfl
  | cons x l ih =>
    by_cases hx : x = a
    · subst hx
      simp [dedupFrom, ih]
    · by_cases hs : x ∈ seen
      · simp [dedupFrom, hx, hs, ih]
      · simp only [dedupFrom, List.mem_cons, hx, hs, or_self, if_false, List.filter_cons, ne_eq,
          not_false_eq_true, decide_True, if_true]
        congr 1
        rw [← ih (x :: seen)]
        apply dedupFrom_congr
        intro y
        simp only [List.mem_cons]
        tauto

/-- The textbook recursion of first-occurrence deduplication. -/
theorem dedupKeepFirst_cons (a : GoString) (l : List GoString) :
    dedupKeepFirst (a :: l) = a :: dedupKeepFirst (l.filter fun x => x ≠ a) := by
  simp [dedupKeepFirst, dedupFrom, dedupFrom_cons_seen]

theorem dedupFrom_nodup (seen l : List GoString) :
    (dedupFrom seen l).Nodup ∧ ∀ x ∈ dedupFrom seen l, x ∉ seen ∧ x ∈ l := by
  induction l generalizing seen with
  | nil => simp [dedupFrom]
  | cons a l ih =>
    unfold dedupFrom
    by_cases ha : a ∈ seen
    · rw [if_pos ha]
      obtain ⟨h1, h2⟩ := ih seen
      exact ⟨h1, fun x hx => ⟨(h2 x hx).1, List.mem_cons_of_mem _ (h2 x hx).2⟩⟩
    · rw [if_neg ha]
      obtain ⟨h1, h2⟩ := ih (a :: seen)
      refine ⟨List.nodup_cons.2 ⟨fun hm => (h2 a hm).1 (List.mem_cons_self _ _), h1⟩, ?_⟩
      intro x hx
      rcases List.mem_cons.1 hx with rfl | hx
      · exact ⟨ha, List.mem_cons_self _ _⟩
      · exact ⟨fun hs => (h2 x hx).1 (List.mem_cons_of_mem _ hs),
          List.mem_cons_of_mem _ (h2 x hx).2⟩

/-- An accepted name is not empty, begins with an upper-case ASCII letter, and
neither begins nor ends with one of the characters `{}(),:"'`. -/
theorem acceptedName_shape {cand t : GoString} (h : acceptedName cand = some t) :
    t ≠ [] ∧ (∃ c, t.head? = some c ∧ 'A' ≤ c ∧ c ≤ 'Z') ∧
    ∀ c ∈ "\x7b\x7d(),:\x22\x27".toList, t.head? ≠ some c ∧ t.getLast? ≠ some c := by
  have hne := acceptedName_ne_nil h
  unfold acceptedName at h
  rw [← entityCutset_eq] at h ⊢
  simp only [] at h
  cases hh : (strings.Trim (strings.TrimSpace cand) entityCutset).head? with
  | none => rw [hh] at h; cases h
  | some c0 =>
    rw [hh] at h
    simp only [] at h
    split_ifs at h with hc
    have ht : strings.Trim (strings.TrimSpace cand) entityCutset = t := Option.some.inj h
    rw [ht] at hh
    refine ⟨hne, ⟨c0, hh, hc⟩, ?_⟩
    intro c hcut
    constructor
    · rw [hh]
      intro he
      have he' : c0 = c := Option.some.inj he
      subst he'
      have h65 : 65 ≤ c0.toNat ∧ c0.toNat ≤ 90 := by
        simp only [Char.le_def, UInt32.le_def] at hc
        exact hc
      have : ∀ x ∈ entityCutset, ¬ (65 ≤ x.toNat ∧ x.toNat ≤ 90) := by decide
      exact this c0 hcut h65
    · intro hl
      have hne' : (strings.TrimSpace cand |>.dropWhile fun c => entityCutset.contains c).rdropWhile
          (fun c => entityCutset.contains c) ≠ [] := by
        have : strings.Trim (strings.TrimSpace cand) entityCutset ≠ [] := by rw [ht]; exact hne
        exact this
      have hlast := List.rdropWhile_last_not (fun c => entityCutset.contains c) _ hne'
      have hl' : t.getLast hne = c := by
        rw [List.getLast?_eq_getLast _ hne] at hl
        exact Option.some.inj hl
      have heq : ((strings.TrimSpace cand |>.dropWhile fun c => entityCutset.contains c).rdropWhile
          (fun c => entityCutset.contains c)).getLast hne' = c := by
        rw [← hl']
        congr 1
      rw [heq] at hlast
      apply hlast
      simpa using hcut

/-- Every name of the two passes is an accepted name. -/
theorem mem_names_accepted {query e : GoString}
    (h : e ∈ keywordNames query ++ braceNames query) : ∃ cand, acceptedName cand = some e := by
  rcases List.mem_append.1 h with h | h
  · unfold keywordNames at h
    simp only [List.mem_filterMap] at h
    obtain ⟨pair, -, hp⟩ := h
    split_ifs at hp
    exact ⟨pair.2, hp⟩
  · unfold braceNames at h
    simp only [List.mem_filterMap] at h
    obtain ⟨idx, -, hp⟩ := h
    cases hw : wordBefore (query.take idx) with
    | none => rw [hw] at hp; cases hp
    | some w => rw [hw] at hp; exact ⟨w, hp⟩

/-- C9, as stated, fails: in the query text `{User{id}}` the text that precedes
the second opening brace, back to the previous space, of which there is none, is
`{User`, whose accepted name is `User`; `extractEntities` returns no name, since
it takes the word before a brace only when the text before the brace holds a
space. -/
theorem extractEntities_skips_brace_without_space :
    extractEntities nestedQuery = [] ∧
    wordBeforePlain (nestedQuery.take 5) = "\x7bUser".toList ∧
    acceptedName "\x7bUser".toList = some "User".toList ∧
    dedupKeepFirst (keywordNames nestedQuery ++ braceNamesPlain nestedQuery) =
      ["User".toList] := by
  decide

/-- C9, amended: for every query text, `extractEntities` is the
first-occurrence-preserving deduplication of the names of the first pass (the
accepted names of the tokens that follow a token equal, in any letter case, to
`query` or `type`) followed by the names of the second pass (the accepted names
of the texts that precede an opening brace back to the previous space, for the
braces whose preceding text, its surrounding white space removed, holds a
space); a candidate is accepted when, its surrounding white space and then the
characters `{}(),:"'` removed from both ends, it is not empty and begins with an
upper-case ASCII letter, and the accepted name is that text; the deduplication
keeps a name and drops its later occurrences. -/
theorem extractEntities_refines (query : GoString) :
    extractEntities query = dedupKeepFirst (keywordNames query ++ braceNames query) ∧
    (∀ idx, wordBefore (query.take idx) =
      if ' ' ∈ strings.TrimSpace (query.take idx) then
        some (wordBeforePlain (query.take idx)) else none) ∧
    (∀ candidate : GoString, acceptedName candidate =
      if (∃ c, (strings.Trim (strings.TrimSpace candidate)
            "\x7b\x7d(),:\x22\x27".toList).head? = some c ∧ 'A' ≤ c ∧ c ≤ 'Z') then
        some (strings.Trim (strings.TrimSpace candidate) "\x7b\x7d(),:\x22\x27".toList)
      else none) ∧
    dedupKeepFirst [] = [] ∧
    ∀ (a : GoString) (l : List GoString),
      dedupKeepFirst (a :: l) = a :: dedupKeepFirst (l.filter fun x => x ≠ a) := by
  refine ⟨extractEntities_eq query, fun idx => rfl, ?_, rfl, dedupKeepFirst_cons⟩
  intro candidate
  unfold acceptedName
  simp only []
  cases hh : (strings.Trim (strings.TrimSpace candidate) "\x7b\x7d(),:\x22\x27".toList).head? with
  | none => simp
  | some c =>
    by_cases hc : 'A' ≤ c ∧ c ≤ 'Z'
    · simp [hc]
    · simp [hc]

/-- C10: for every query text, `extractEntities` lists no name twice, and every
name in it is non-empty, begins with an upper-case ASCII letter, and neither
begins nor ends with one of the punctuation characters `{}(),:"'`. -/
theorem extractEntities_names (query : GoString) :
    (extractEntities query).Nodup ∧
    ∀ e ∈ extractEntities query,
      e ≠ [] ∧ (∃ c, e.head? = some c ∧ 'A' ≤ c ∧ c ≤ 'Z') ∧
      ∀ c ∈ "\x7b\x7d(),:\x22\x27".toList, e.head? ≠ some c ∧ e.getLast? ≠ some c := by
  rw [extractEntities_eq]
  obtain ⟨h1, h2⟩ := dedupFrom_nodup [] (keywordNames query ++ braceNames query)
  refine ⟨h1, ?_⟩
  intro e he
  obtain ⟨cand, hc⟩ := mem_names_accepted (h2 e he).2
  exact acceptedName_shape hc


/-! ## Registration: phase 1 -/

/-- What `handleRequest` returns for a cacheable request. -/
theorem handleRequest_cacheable (parse : Bytes → GjsonResult) (p : Proxy) (r : Request)
    (body : Bytes) (hm : r.Method = "POST".toList) (hb : r.Body = some body)
    (hc : strings.Contains (headerGet r.Header "Content-Type".toList)
      "application/json".toList = true)
    (hq : isGraphQLQuery (parse body) = true)
    (hmut : hasMutations (parse body).queryString = false)
    (hent : extractEntities (parse body).queryString ≠ []) :
    handleRequest parse p r =
      ({ p with
          queries := mapSet p.queries (computeQueryHash body (extractAuthHeaders r))
            { Body := body, AuthHeaders := extractAuthHeaders r,
              Entities := extractEntities (parse body).queryString,
              OriginalTarget := r.URL, Expiry := 0 } },
       Outcome.responded
         { status := 303,
           header := [("Location".toList,
             ["/_gcl/".toList ++ computeQueryHash body (extractAuthHeaders r)])],
           body := [] }) := by
  unfold handleRequest
  simp only [hm, hb, hc, hq, hmut, ne_eq, not_true_eq_false, if_false, Bool.not_true,
    Bool.false_eq_true, List.length_eq_zero, hent, cachePrefix]

/-- C11: for every store and every cacheable request, `handleRequest` does not
forward the request upstream; it answers 303 with the `Location` header `/_gcl/`
followed by the fingerprint `fp` of the body and the captured auth headers, and
the store it leaves maps `fp` to the record of the body, the auth headers, the
extracted entities and the request's URL with the zero expiry, and every other
fingerprint to what it mapped to before. -/
theorem handleRequest_registers (parse : Bytes → GjsonResult) (p : Proxy) (r : Request)
    (body : Bytes) (hm : r.Method = "POST".toList) (hb : r.Body = some body)
    (hc : strings.Contains (headerGet r.Header "Content-Type".toList)
      "application/json".toList = true)
    (hq : isGraphQLQuery (parse body) = true)
    (hmut : hasMutations (parse body).queryString = false)
    (hent : extractEntities (parse body).queryString ≠ []) :
    (handleRequest parse p r).2 =
      Outcome.responded
        { status := 303,
          header := [("Location".toList,
            ["/_gcl/".toList ++ computeQueryHash body (extractAuthHeaders r)])],
          body := [] } ∧
    mapGet (handleRequest parse p r).1.queries (computeQueryHash body (extractAuthHeaders r)) =
      some { Body := body, AuthHeaders := extractAuthHeaders r,
             Entities := extractEntities (parse body).queryString,
             OriginalTarget := r.URL, Expiry := 0 } ∧
    (∀ k, k ≠ computeQueryHash body (extractAuthHeaders r) →
      mapGet (handleRequest parse p r).1.queries k = mapGet p.queries k) ∧
    (handleRequest parse p r).1.target = p.target ∧
    (handleRequest parse p r).1.cacheTimes = p.cacheTimes := by
  have h := handleRequest_cacheable parse p r body hm hb hc hq hmut hent
  rw [h]
  refine ⟨rfl, ?_, ?_, rfl, rfl⟩
  · simp only [mapGet_mapSet, if_true]
  · intro k hk
    simp only [mapGet_mapSet, hk, if_false]

/-- The scenario request on an empty store: fingerprint registered, 303. -/
theorem handleRequest_registers_witness :
    (handleRequest (parseFinds userQuery) (New [] []) userPost).2 =
      Outcome.responded
        { status := 303,
          header := [("Location".toList,
            ["/_gcl/".toList ++ computeQueryHash userBody (extractAuthHeaders userPost)])],
          body := [] } ∧
    mapGet (handleRequest (parseFinds userQuery) (New [] []) userPost).1.queries
        (computeQueryHash userBody (extractAuthHeaders userPost)) =
      some { Body := userBody, AuthHeaders := extractAuthHeaders userPost,
             Entities := extractEntities (parseFinds userQuery userBody).queryString,
             OriginalTarget := userPost.URL, Expiry := 0 } ∧
    (∀ k, k ≠ computeQueryHash userBody (extractAuthHeaders userPost) →
      mapGet (handleRequest (parseFinds userQuery) (New [] []) userPost).1.queries k =
        mapGet (New [] []).queries k) ∧
    (handleRequest (parseFinds userQuery) (New [] []) userPost).1.target = (New [] []).target ∧
    (handleRequest (parseFinds userQuery) (New [] []) userPost).1.cacheTimes =
      (New [] []).cacheTimes :=
  handleRequest_registers (parseFinds userQuery) (New [] []) userPost userBody rfl rfl
    (by decide) rfl (by decide) (by decide)


/-! ## Fulfilment: phase 2 -/

theorem mapGet_cons {β : Type} (k0 : GoString) (v0 : β) (m : List (GoString × β))
    (k : GoString) : mapGet ((k0, v0) :: m) k = if k = k0 then some v0 else mapGet m k := by
  by_cases h : k = k0
  · simp [mapGet, List.lookup, h]
  · have hb : (k == k0) = false := by simpa using h
    simp [mapGet, List.lookup, h, hb]

theorem mapDelete_cons {β : Type} (k0 : GoString) (v0 : β) (m : List (GoString × β))
    (k : GoString) :
    mapDelete ((k0, v0) :: m) k = if k0 = k then mapDelete m k else (k0, v0) :: mapDelete m k := by
  by_cases h : k0 = k
  · simp [mapDelete, List.filter_cons, h]
  · simp [mapDelete, List.filter_cons, h]

theorem mapGet_mapDelete {β : Type} (m : List (GoString × β)) (k k' : GoString) :
    mapGet (mapDelete m k) k' = if k' = k then none else mapGet m k' := by
  induction m with
  | nil => simp [mapDelete, mapGet, List.lookup]
  | cons e m ih =>
    obtain ⟨k0, v0⟩ := e
    rw [mapDelete_cons, mapGet_cons]
    by_cases h0 : k0 = k
    · rw [if_pos h0, ih]
      by_cases h : k' = k
      · rw [if_pos h, if_pos h]
      · rw [if_neg h, if_neg h, if_neg (fun h2 => h (h2.trans h0))]
    · rw [if_neg h0, mapGet_cons, ih]
      by_cases h : k' = k0
      · rw [if_pos h, if_pos h, if_neg (fun h2 => h0 (h.symm.trans h2))]
      · rw [if_neg h, if_neg h]

/-- A request for a fingerprint the store does not hold: 404, nothing sent
upstream, the proxy as it was. -/
theorem handleCachedQuery_absent (env : Env) (fuel : Nat) (p : Proxy) (r : Request)
    (h : mapGet p.queries (path.Base r.Path) = none) :
    handleCachedQuery env (fuel + 1) p r =
      some { proxy := p, response := httpError "Cache entry not found".toList 404,
             upstream := [] } := by
  unfold handleCachedQuery
  simp only [h]

/-- A request for a record that is not expired goes on to the replay. -/
theorem handleCachedQuery_live (env : Env) (fuel : Nat) (p : Proxy) (r : Request)
    (info : QueryInfo) (h : mapGet p.queries (path.Base r.Path) = some info)
    (hlive : ¬ (info.Expiry ≠ 0 ∧ env.nowAtCheck > info.Expiry)) :
    handleCachedQuery env (fuel + 1) p r = some (fulfill env p r (path.Base r.Path) info) := by
  unfold handleCachedQuery
  simp only [h]
  rw [if_neg hlive]

/-- A request for an expired record: the record is deleted and the re-entrant
call answers 404. -/
theorem handleCachedQuery_stale (env : Env) (fuel : Nat) (p : Proxy) (r : Request)
    (info : QueryInfo) (h : mapGet p.queries (path.Base r.Path) = some info)
    (hstale : info.Expiry ≠ 0 ∧ env.nowAtCheck > info.Expiry) :
    handleCachedQuery env (fuel + 2) p r =
      some { proxy := { p with queries := mapDelete p.queries (path.Base r.Path) },
             response := httpError "Cache entry not found".toList 404,
             upstream := [] } := by
  conv_lhs => unfold handleCachedQuery
  simp only [h]
  rw [if_pos hstale]
  apply handleCachedQuery_absent
  simp only [mapGet_mapDelete, if_true]

/-- Every result of `handleCachedQuery` is one of three: the 404 for a missing
record, the 404 after the deletion of an expired record, or the replay. -/
theorem handleCachedQuery_cases (env : Env) (fuel : Nat) (p : Proxy) (r : Request) (s : Served)
    (h : handleCachedQuery env fuel p r = some s) :
    (mapGet p.queries (path.Base r.Path) = none ∧
      s = { proxy := p, response := httpError "Cache entry not found".toList 404,
            upstream := [] }) ∨
    (∃ info, mapGet p.queries (path.Base r.Path) = some info ∧
      (info.Expiry ≠ 0 ∧ env.nowAtCheck > info.Expiry) ∧
      s = { proxy := { p with queries := mapDelete p.queries (path.Base r.Path) },
            response := httpError "Cache entry not found".toList 404,
            upstream := [] }) ∨
    (∃ info, mapGet p.queries (path.Base r.Path) = some info ∧
      ¬ (info.Expiry ≠ 0 ∧ env.nowAtCheck > info.Expiry) ∧
      s = fulfill env p r (path.Base r.Path) info) := by
  cases fuel with
  | zero => simp [handleCachedQuery] at h
  | succ fuel =>
    cases hg : mapGet p.queries (path.Base r.Path) with
    | none =>
      rw [handleCachedQuery_absent env fuel p r hg] at h
      exact Or.inl ⟨rfl, (Option.some.inj h).symm⟩
    | some info =>
      by_cases hst : info.Expiry ≠ 0 ∧ env.nowAtCheck > info.Expiry
      · cases fuel with
        | zero =>
          unfold handleCachedQuery at h
          simp only [hg] at h
          rw [if_pos hst] at h
          simp [handleCachedQuery] at h
        | succ fuel =>
          rw [handleCachedQuery_stale env fuel p r info hg hst] at h
          exact Or.inr (Or.inl ⟨info, rfl, hst, (Option.some.inj h).symm⟩)
      · rw [handleCachedQuery_live env fuel p r info hg hst] at h
        exact Or.inr (Or.inr ⟨info, rfl, hst, (Option.some.inj h).symm⟩)

/-- `handleCachedQuery` returns, whatever the store, the request and the world:
one re-entrant call is enough. -/
theorem handleCachedQuery_returns (env : Env) (fuel : Nat) (p : Proxy) (r : Request) :
    ∃ s, handleCachedQuery env (fuel + 2) p r = some s := by
  cases hg : mapGet p.queries (path.Base r.Path) with
  | none => exact ⟨_, handleCachedQuery_absent env (fuel + 1) p r hg⟩
  | some info =>
    by_cases hst : info.Expiry ≠ 0 ∧ env.nowAtCheck > info.Expiry
    · exact ⟨_, handleCachedQuery_stale env fuel p r info hg hst⟩
    · exact ⟨_, handleCachedQuery_live env (fuel + 1) p r info hg hst⟩

/-- The store after the replay: under `hash` the record with its target
normalized and some expiry, elsewhere what was there. -/
theorem fulfill_store (env : Env) (p : Proxy) (r : Request) (hash : GoString)
    (info : QueryInfo) :
    (fulfill env p r hash info).proxy.target = p.target ∧
    (fulfill env p r hash info).proxy.cacheTimes = p.cacheTimes ∧
    (∀ k, k ≠ hash → mapGet (fulfill env p r hash info).proxy.queries k = mapGet p.queries k) ∧
    ∃ e, mapGet (fulfill env p r hash info).proxy.queries hash =
      some { normalizeTarget info with Expiry := e } := by
  have hget : mapGet (mapSet p.queries hash (normalizeTarget info)) hash =
      some (normalizeTarget info) := by simp only [mapGet_mapSet, if_true]
  unfold fulfill
  simp only [hget]
  split_ifs with h1 h2
  · refine ⟨rfl, rfl, ?_, ⟨(normalizeTarget info).Expiry, ?_⟩⟩
    · intro k hk; simp only [mapGet_mapSet, hk, if_false]
    · simp only [mapGet_mapSet, if_true]
  · split
    · refine ⟨rfl, rfl, ?_, ⟨(normalizeTarget info).Expiry, ?_⟩⟩
      · intro k hk; simp only [mapGet_mapSet, hk, if_false]
      · simp only [mapGet_mapSet, if_true]
    · refine ⟨rfl, rfl, ?_, ⟨env.nowAtExpiry + getMinCacheDuration
        { p with queries := mapSet p.queries hash (normalizeTarget info) }
        (normalizeTarget info).Entities, ?_⟩⟩
      · intro k hk; simp only [mapGet_mapSet, hk, if_false]
      · simp only [mapGet_mapSet, if_true]
  · split
    · refine ⟨rfl, rfl, ?_, ⟨(normalizeTarget info).Expiry, ?_⟩⟩
      · intro k hk; simp only [mapGet_mapSet, hk, if_false]
      · simp only [mapGet_mapSet, if_true]
    · refine ⟨rfl, rfl, ?_, ⟨(normalizeTarget info).Expiry, ?_⟩⟩
      · intro k hk; simp only [mapGet_mapSet, hk, if_false]
      · simp only [mapGet_mapSet, if_true]

/-- C13: for every store, fingerprint and time such that the store holds a record
for the fingerprint whose expiry is set and passed, `handleCachedQuery` returns
within one re-entry, sends nothing upstream, answers the 404 it answers for a
fingerprint the store does not hold, and leaves the store without a record
for the fingerprint; for a fingerprint the store does not hold it answers that
404 and leaves the proxy unchanged. -/
theorem handleCachedQuery_expired (env : Env) (fuel : Nat) (p : Proxy) (r : Request)
    (info : QueryInfo) (hget : mapGet p.queries (path.Base r.Path) = some info)
    (hset : info.Expiry ≠ 0) (hafter : env.nowAtCheck > info.Expiry) :
    handleCachedQuery env (fuel + 2) p r =
      some { proxy := { p with queries := mapDelete p.queries (path.Base r.Path) },
             response := httpError "Cache entry not found".toList 404,
             upstream := [] } ∧
    mapGet (mapDelete p.queries (path.Base r.Path)) (path.Base r.Path) = none ∧
    (∀ k, k ≠ path.Base r.Path →
      mapGet (mapDelete p.queries (path.Base r.Path)) k = mapGet p.queries k) ∧
    ∀ p0 : Proxy, mapGet p0.queries (path.Base r.Path) = none →
      handleCachedQuery env (fuel + 1) p0 r =
        some { proxy := p0, response := httpError "Cache entry not found".toList 404,
               upstream := [] } := by
  refine ⟨handleCachedQuery_stale env fuel p r info hget ⟨hset, hafter⟩, ?_, ?_, ?_⟩
  · simp only [mapGet_mapDelete, if_true]
  · intro k hk
    simp only [mapGet_mapDelete, hk, if_false]
  · intro p0 h0
    exact handleCachedQuery_absent env fuel p0 r h0

/-- A record with expiry 5 looked up at time 10. -/
theorem handleCachedQuery_expired_witness :
    handleCachedQuery envDown 2 staleStore userFetch =
      some { proxy := { staleStore with
                        queries := mapDelete staleStore.queries (path.Base userFetch.Path) },
             response := httpError "Cache entry not found".toList 404,
             upstream := [] } ∧
    mapGet (mapDelete staleStore.queries (path.Base userFetch.Path))
      (path.Base userFetch.Path) = none ∧
    (∀ k, k ≠ path.Base userFetch.Path →
      mapGet (mapDelete staleStore.queries (path.Base userFetch.Path)) k =
        mapGet staleStore.queries k) ∧
    ∀ p0 : Proxy, mapGet p0.queries (path.Base userFetch.Path) = none →
      handleCachedQuery envDown (0 + 1) p0 userFetch =
        some { proxy := p0, response := httpError "Cache entry not found".toList 404,
               upstream := [] } :=
  handleCachedQuery_expired envDown 0 staleStore userFetch
    { Body := userBody, AuthHeaders := extractAuthHeaders rootPost,
      Entities := ["User".toList], OriginalTarget := "/".toList, Expiry := 5 }
    (by decide!) (by decide) (by decide)

/-- C14: for every store that holds an unexpired or never-fulfilled record for the
requested fingerprint, when the upstream call fails at the transport level
`handleCachedQuery` answers 502, with no `Cache-Control` and no `Expires`
header, and every record has the expiry it had before the call. -/
theorem handleCachedQuery_transport_failure (env : Env) (fuel : Nat) (p : Proxy) (r : Request)
    (info : QueryInfo) (hget : mapGet p.queries (path.Base r.Path) = some info)
    (hlive : info.Expiry = 0 ∨ ¬ env.nowAtCheck > info.Expiry)
    (hurl : env.newRequestOK (p.target ++ (normalizeTarget info).OriginalTarget) = true)
    (hdo : env.Do (newProxyRequest p.target (normalizeTarget info) r) =
      UpstreamResult.failed) :
    ∃ s, handleCachedQuery env (fuel + 1) p r = some s ∧
      s.response = httpError "Failed to execute proxy request".toList 502 ∧
      s.response.status = 502 ∧
      mapGet s.response.header "Cache-Control".toList = none ∧
      mapGet s.response.header "Expires".toList = none ∧
      (∀ k, (mapGet s.proxy.queries k).map (fun q => q.Expiry) =
        (mapGet p.queries k).map (fun q => q.Expiry)) ∧
      s.upstream = [newProxyRequest p.target (normalizeTarget info) r] := by
  have hl : ¬ (info.Expiry ≠ 0 ∧ env.nowAtCheck > info.Expiry) := by
    rintro ⟨h1, h2⟩
    rcases hlive with h | h
    · exact h1 h
    · exact h h2
  refine ⟨_, handleCachedQuery_live env fuel p r info hget hl, ?_⟩
  have hf : fulfill env p r (path.Base r.Path) info =
      { proxy := { p with
                   queries := mapSet p.queries (path.Base r.Path) (normalizeTarget info) },
        response := httpError "Failed to execute proxy request".toList 502,
        upstream := [newProxyRequest p.target (normalizeTarget info) r] } := by
    unfold fulfill
    simp only [hurl, hdo, Bool.not_true, Bool.false_eq_true, if_false]
  rw [hf]
  have hcc : mapGet (httpError "Failed to execute proxy request".toList 502).header
      "Cache-Control".toList = none := by decide
  have hex : mapGet (httpError "Failed to execute proxy request".toList 502).header
      "Expires".toList = none := by decide
  refine ⟨rfl, rfl, hcc, hex, ?_, rfl⟩
  intro k
  simp only [mapGet_mapSet]
  by_cases hk : k = path.Base r.Path
  · rw [if_pos hk, hk, hget]
    unfold normalizeTarget
    split_ifs <;> rfl
  · rw [if_neg hk]

/-- The registered scenario record, fetched while the upstream is down. -/
theorem handleCachedQuery_transport_failure_witness :
    ∃ s, handleCachedQuery envDown (0 + 1) rootStore userFetch = some s ∧
      s.response = httpError "Failed to execute proxy request".toList 502 ∧
      s.response.status = 502 ∧
      mapGet s.response.header "Cache-Control".toList = none ∧
      mapGet s.response.header "Expires".toList = none ∧
      (∀ k, (mapGet s.proxy.queries k).map (fun q => q.Expiry) =
        (mapGet rootStore.queries k).map (fun q => q.Expiry)) ∧
      s.upstream = [newProxyRequest rootStore.target
        (normalizeTarget
          { Body := userBody, AuthHeaders := extractAuthHeaders rootPost,
            Entities := ["User".toList], OriginalTarget := "/".toList, Expiry := 0 })
        userFetch] :=
  handleCachedQuery_transport_failure envDown 0 rootStore userFetch
    { Body := userBody, AuthHeaders := extractAuthHeaders rootPost,
      Entities := ["User".toList], OriginalTarget := "/".toList, Expiry := 0 }
    (by decide!) (by decide) rfl rfl

/-- C15, as stated, fails: the record registered for a request to `/` has the
original target `/` before a fulfilment and the empty original target after it. -/
theorem handleCachedQuery_rewrites_target :
    (mapGet rootStore.queries userFingerprint).map (fun q => q.OriginalTarget) =
      some "/".toList ∧
    ((handleCachedQuery envUp 1 rootStore userFetch).bind fun s =>
      (mapGet s.proxy.queries userFingerprint).map fun q => q.OriginalTarget) = some [] := by
  decide!

/-- C15, amended: for every store and every phase-2 request, whatever the upstream
does, a record that is in the store before and after `handleCachedQuery` has the
body, the auth context and the entities it had before; it has the original
target it had before, except the record of the requested fingerprint when its
original target was `/`, which has the empty original target afterwards; the
expiry may differ. -/
theorem handleCachedQuery_frame (env : Env) (fuel : Nat) (p : Proxy) (r : Request) (s : Served)
    (k : GoString) (before after : QueryInfo)
    (h : handleCachedQuery env fuel p r = some s)
    (hb : mapGet p.queries k = some before) (ha : mapGet s.proxy.queries k = some after) :
    after.Body = before.Body ∧ after.AuthHeaders = before.AuthHeaders ∧
    after.Entities = before.Entities ∧
    after.OriginalTarget =
      if k = path.Base r.Path ∧ before.OriginalTarget = "/".toList then []
      else before.OriginalTarget := by
  rcases handleCachedQuery_cases env fuel p r s h with ⟨hg, hs⟩ | ⟨info, -, -, hs⟩ |
    ⟨info, hg, -, hs⟩
  · subst hs
    have hk : k ≠ path.Base r.Path := by
      intro hk
      rw [hk, hg] at hb
      cases hb
    rw [hb] at ha
    cases ha
    rw [if_neg (fun hc => hk hc.1)]
    exact ⟨rfl, rfl, rfl, rfl⟩
  · subst hs
    simp only [mapGet_mapDelete] at ha
    split_ifs at ha with hk
    rw [hb] at ha
    cases ha
    rw [if_neg (fun hc => hk hc.1)]
    exact ⟨rfl, rfl, rfl, rfl⟩
  · subst hs
    obtain ⟨-, -, hother, e, hhash⟩ := fulfill_store env p r (path.Base r.Path) info
    by_cases hk : k = path.Base r.Path
    · subst hk
      rw [hhash] at ha
      rw [hg] at hb
      cases hb
      cases ha
      unfold normalizeTarget
      split_ifs with ht hc hc
      · exact ⟨rfl, rfl, rfl, rfl⟩
      · exact absurd ⟨rfl, ht⟩ hc
      · exact absurd hc.2 ht
      · exact ⟨rfl, rfl, rfl, rfl⟩
    · rw [hother k hk, hb] at ha
      cases ha
      rw [if_neg (fun hc => hk hc.1)]
      exact ⟨rfl, rfl, rfl, rfl⟩

/-- The scenario record registered for `/`, fetched while the upstream answers:
its original target is empty afterwards. -/
theorem handleCachedQuery_frame_witness :
    ({ Body := userBody, AuthHeaders := extractAuthHeaders rootPost,
       Entities := ["User".toList], OriginalTarget := [],
       Expiry := 10 + 300 * Second } : QueryInfo).Body = userBody ∧
    ({ Body := userBody, AuthHeaders := extractAuthHeaders rootPost,
       Entities := ["User".toList], OriginalTarget := [],
       Expiry := 10 + 300 * Second } : QueryInfo).AuthHeaders = extractAuthHeaders rootPost ∧
    ({ Body := userBody, AuthHeaders := extractAuthHeaders rootPost,
       Entities := ["User".toList], OriginalTarget := [],
       Expiry := 10 + 300 * Second } : QueryInfo).Entities = ["User".toList] ∧
    ([] : GoString) =
      if userFingerprint = path.Base userFetch.Path ∧ "/".toList = "/".toList then []
      else "/".toList :=
  handleCachedQuery_frame envUp 1 rootStore userFetch
    (fulfill envUp rootStore userFetch (path.Base userFetch.Path)
      { Body := userBody, AuthHeaders := extractAuthHeaders rootPost,
        Entities := ["User".toList], OriginalTarget := "/".toList, Expiry := 0 })
    userFingerprint
    { Body := userBody, AuthHeaders := extractAuthHeaders rootPost,
      Entities := ["User".toList], OriginalTarget := "/".toList, Expiry := 0 }
    { Body := userBody, AuthHeaders := extractAuthHeaders rootPost,
      Entities := ["User".toList], OriginalTarget := [], Expiry := 10 + 300 * Second }
    (by decide!) (by decide!) (by decide!)


/-! ## The round trip -/

theorem takeWhile_append_stop {q : Char → Bool} (l1 l2 : GoString) (s : Char)
    (h1 : ∀ c ∈ l1, q c = true) (hs : q s = false) : (l1 ++ s :: l2).takeWhile q = l1 := by
  induction l1 with
  | nil => simp [List.takeWhile, hs]
  | cons c l1 ih =>
    have hc := h1 c (List.mem_cons_self _ _)
    simp only [List.cons_append, List.takeWhile_cons, hc, if_true]
    rw [ih (fun x hx => h1 x (List.mem_cons_of_mem _ hx))]

/-- `path.Base` of a cache path is the fingerprint after the prefix. -/
theorem path_Base_cachePath (h : GoString) (hne : h ≠ []) (hslash : '/' ∉ h) :
    path.Base ("/_gcl/".toList ++ h) = h := by
  have hp : "/_gcl/".toList ++ h ≠ [] := by
    intro hnil
    exact hne (List.append_eq_nil.1 hnil).2
  have hlast : ∀ hl : "/_gcl/".toList ++ h ≠ [], ¬ (decide
      (("/_gcl/".toList ++ h).getLast hl = '/') = true) := by
    intro hl
    rw [List.getLast_append_of_ne_nil hne]
    intro hd
    have := of_decide_eq_true hd
    exact hslash (this ▸ List.getLast_mem hne)
  have hdrop : ("/_gcl/".toList ++ h).rdropWhile (fun c => decide (c = '/')) =
      "/_gcl/".toList ++ h := List.rdropWhile_eq_self_iff.2 hlast
  have htake : ("/_gcl/".toList ++ h).rtakeWhile (fun c => decide (c ≠ '/')) = h := by
    unfold List.rtakeWhile
    have hr : ("/_gcl/".toList ++ h).reverse = h.reverse ++ '/' :: "/_gcl".toList.reverse := by
      have : "/_gcl/".toList = "/_gcl".toList ++ ['/'] := by decide
      rw [this]
      simp
    rw [hr, takeWhile_append_stop _ _ _ _ (by simp), List.reverse_reverse]
    intro c hc
    have hc' : c ∈ h := List.mem_reverse.1 hc
    have : c ≠ '/' := fun he => hslash (he ▸ hc')
    simpa using this
  unfold path.Base
  rw [if_neg hp]
  simp only []
  rw [hdrop, htake, if_neg hne]

/-- A fingerprint is not empty and holds no slash. -/
theorem computeQueryHash_shape (body : Bytes) (m : List (GoString × GoString)) :
    computeQueryHash body m ≠ [] ∧ '/' ∉ computeQueryHash body m := by
  constructor
  · intro h
    have hl : (computeQueryHash body m).length = 64 := by
      unfold computeQueryHash sha256.Sum
      rw [length_EncodeToString, length_Sum256]
    rw [h] at hl
    cases hl
  · intro h
    have := mem_EncodeToString h
    revert this
    decide

theorem mapGet_headerAdd (w : List (GoString × List GoString)) (key value k : GoString) :
    mapGet (headerAdd w key value) k =
      if k = textproto.CanonicalMIMEHeaderKey key then
        some ((mapGet w (textproto.CanonicalMIMEHeaderKey key)).getD [] ++ [value])
      else mapGet w k := by
  unfold headerAdd
  rw [mapGet_mapSet]

/-- Copying the upstream's headers keeps the first value of a header that was
set before. -/
theorem copyHeaders_first (w upstream : List (GoString × List GoString)) (k x : GoString)
    (xs : List GoString) (h : mapGet w k = some (x :: xs)) :
    ∃ ys, mapGet (copyHeaders w upstream) k = some (x :: ys) := by
  have hadd : ∀ (w : List (GoString × List GoString)) (key value : GoString) (xs : List GoString),
      mapGet w k = some (x :: xs) → ∃ ys, mapGet (headerAdd w key value) k = some (x :: ys) := by
    intro w key value xs hw
    rw [mapGet_headerAdd]
    by_cases hk : k = textproto.CanonicalMIMEHeaderKey key
    · rw [if_pos hk, ← hk, hw]
      exact ⟨xs ++ [value], rfl⟩
    · rw [if_neg hk]
      exact ⟨xs, hw⟩
  have hvals : ∀ (vals : List GoString) (key : GoString) (w : List (GoString × List GoString))
      (xs : List GoString), mapGet w k = some (x :: xs) →
      ∃ ys, mapGet (vals.foldl (fun w value => headerAdd w key value) w) k = some (x :: ys) := by
    intro vals key
    induction vals with
    | nil => intro w xs hw; exact ⟨xs, hw⟩
    | cons v vals ih =>
      intro w xs hw
      obtain ⟨ys, hy⟩ := hadd w key v xs hw
      exact ih _ ys hy
  unfold copyHeaders
  induction upstream generalizing w xs with
  | nil => exact ⟨xs, h⟩
  | cons kv upstream ih =>
    obtain ⟨ys, hy⟩ := hvals kv.2 kv.1 w xs h
    exact ih _ ys hy

/-! ## The seconds of a duration -/

theorem floorLog2From_eq (fuel n : Nat) (h : n ≤ fuel) :
    floorLog2From fuel n = Nat.log2 n := by
  induction fuel generalizing n with
  | zero =>
    have : n = 0 := by omega
    subst this
    rw [Nat.log2_zero]
    rfl
  | succ fuel ih =>
    rw [floorLog2From, Nat.log2]
    by_cases h2 : 2 ≤ n
    · rw [if_pos h2, if_pos h2, ih _ (by omega)]
    · rw [if_neg h2, if_neg h2]

/-- `floorLog2 n` is the `k` with `2 ^ k ≤ n < 2 ^ (k + 1)`, for `n` other than 0. -/
theorem floorLog2_eq (n : Nat) : floorLog2 n = Nat.log2 n :=
  floorLog2From_eq n n (Nat.le_refl n)

theorem log2_mul_two_pow (a k : Nat) (ha : a ≠ 0) : Nat.log2 (a * 2 ^ k) = Nat.log2 a + k := by
  have hne : a * 2 ^ k ≠ 0 := Nat.mul_ne_zero ha (by positivity)
  apply Nat.le_antisymm
  · have : Nat.log2 (a * 2 ^ k) < Nat.log2 a + k + 1 := by
      rw [Nat.log2_lt hne]
      have h1 : a < 2 ^ (Nat.log2 a + 1) := Nat.lt_log2_self
      calc a * 2 ^ k < 2 ^ (Nat.log2 a + 1) * 2 ^ k :=
            Nat.mul_lt_mul_of_pos_right h1 (by positivity)
        _ = 2 ^ (Nat.log2 a + k + 1) := by ring
    omega
  · rw [Nat.le_log2 hne, pow_add]
    exact Nat.mul_le_mul_right _ (Nat.log2_self_le ha)

theorem roundHalfEven_mul (q b : Nat) (hb : 0 < b) : roundHalfEven (q * b) b = q := by
  unfold roundHalfEven
  simp only [Nat.mul_mod_left, Nat.mul_zero]
  rw [if_pos hb, Nat.mul_div_cancel _ hb]

/-- An integer of at most 53 bits, written over a power of two, is a `float64`:
rounding leaves its value as it is. -/
theorem Float64_round_exact (z : Int) (j : Nat) (hz : z ≠ 0) (h : z.natAbs < 2 ^ 53) :
    Float64.round (z * 2 ^ j) (2 ^ j) = { num := z * 2 ^ (j + 53), den := 2 ^ (j + 53) } := by
  have ha0 : z.natAbs ≠ 0 := Int.natAbs_ne_zero.mpr hz
  have habs : (z * 2 ^ j).natAbs = z.natAbs * 2 ^ j := by
    rw [Int.natAbs_mul, Int.natAbs_pow]; rfl
  have hl : Nat.log2 z.natAbs ≤ 52 := by
    have := (Nat.log2_lt ha0).mpr h
    omega
  have hpos : (0 : Int) < 2 ^ j := by positivity
  have hsign : (z * 2 ^ j < 0) ↔ z < 0 := by
    constructor
    · intro h1
      by_contra h2
      have : 0 ≤ z * 2 ^ j := Int.mul_nonneg (not_lt.mp h2) hpos.le
      omega
    · intro h1
      exact Int.mul_neg_of_neg_of_pos h1 hpos
  unfold Float64.round
  simp only [habs, floorLog2_eq, Nat.log2_two_pow]
  rw [if_neg (Nat.mul_ne_zero ha0 (by positivity))]
  have hq : z.natAbs * 2 ^ j * 2 ^ (j + 53) / 2 ^ j = z.natAbs * 2 ^ (j + 53) := by
    rw [show z.natAbs * 2 ^ j * 2 ^ (j + 53) = z.natAbs * 2 ^ (j + 53) * 2 ^ j by ring]
    exact Nat.mul_div_cancel _ (by positivity)
  rw [hq, log2_mul_two_pow _ _ ha0]
  have ht : Nat.log2 z.natAbs + (j + 53) - 52 = Nat.log2 z.natAbs + j + 1 := by omega
  rw [ht]
  have hsplit : z.natAbs * 2 ^ j * 2 ^ (j + 53) =
      (z.natAbs * 2 ^ (52 - Nat.log2 z.natAbs)) * (2 ^ j * 2 ^ (Nat.log2 z.natAbs + j + 1)) := by
    have : j + 53 = (52 - Nat.log2 z.natAbs) + (Nat.log2 z.natAbs + j + 1) := by omega
    rw [this]; ring
  rw [hsplit, roundHalfEven_mul _ _ (by positivity)]
  have hm : z.natAbs * 2 ^ (52 - Nat.log2 z.natAbs) * 2 ^ (Nat.log2 z.natAbs + j + 1) =
      z.natAbs * 2 ^ (j + 53) := by
    have : j + 53 = (52 - Nat.log2 z.natAbs) + (Nat.log2 z.natAbs + j + 1) := by omega
    rw [this]; ring
  rw [hm, Float64.mk.injEq]
  refine ⟨?_, rfl⟩
  by_cases hneg : z < 0
  · rw [if_pos (hsign.mpr hneg)]
    push_cast
    rw [abs_of_neg hneg]; ring
  · rw [if_neg (fun h => hneg (hsign.mp h))]
    push_cast
    rw [abs_of_nonneg (not_lt.mp hneg)]; ring

/-- `int(d.Seconds())` of a duration of `n` whole seconds is `n`, for every `n`
of at most 53 bits, which covers every `int64` duration. -/
theorem Duration_Seconds_whole (n : Int) (h : n.natAbs < 2 ^ 53) :
    (Duration.Seconds (n * Second)).toInt = n := by
  have hs : (Second : Int) ≠ 0 := by decide
  have h1 : Int.tdiv (n * Second) Second = n := Int.mul_tdiv_cancel _ hs
  have h2 : Int.tmod (n * Second) Second = 0 := Int.mul_tmod_left _ _
  unfold Duration.Seconds
  simp only [h1, h2]
  have hq : Float64.div (Float64.ofInt 0) (Float64.ofInt 1000000000) =
      { num := 0, den := 1 } := by
    decide!
  rw [hq]
  by_cases hz : n = 0
  · subst hz; decide!
  · have hof : Float64.ofInt n = { num := n * 2 ^ 53, den := 2 ^ 53 } := by
      have := Float64_round_exact n 0 hz h
      simpa [Float64.ofInt] using this
    rw [hof]
    unfold Float64.add
    simp only [Nat.mul_one, Int.mul_one, Nat.cast_ofNat, Int.zero_mul, Int.add_zero,
      Nat.cast_one]
    have := Float64_round_exact n 53 hz h
    rw [this]
    unfold Float64.toInt
    simp only
    have hp : ((2 ^ (53 + 53) : Nat) : Int) = 2 ^ (53 + 53) := by norm_cast
    rw [hp]
    exact Int.mul_tdiv_cancel _ (by positivity)

/-- The seconds of four durations: a whole number of seconds, one second and a
half, and two durations whose `float64` sum rounds up to the next second. -/
theorem Duration_Seconds_examples :
    (Duration.Seconds (300 * Second)).toInt = 300 ∧
    (Duration.Seconds 1500000000).toInt = 1 ∧
    (Duration.Seconds 16777216999999999).toInt = 16777217 ∧
    (Duration.Seconds 8589934592999999488).toInt = 8589934593 ∧
    (Duration.Seconds (-16777216999999999)).toInt = -16777217 := by
  decide!

/-- The replay when the upstream answers and the record has entities: the
upstream's status and body, the `Cache-Control` header with `int(T.Seconds())`
of the table's minimum duration `T`, and the record's expiry set to the time
plus `T`. -/
theorem fulfill_answered (env : Env) (p : Proxy) (r : Request) (hash : GoString)
    (info : QueryInfo) (up : Response)
    (hurl : env.newRequestOK (p.target ++ (normalizeTarget info).OriginalTarget) = true)
    (hdo : env.Do (newProxyRequest p.target (normalizeTarget info) r) =
      UpstreamResult.answered up)
    (hent : info.Entities ≠ []) :
    (fulfill env p r hash info).upstream = [newProxyRequest p.target (normalizeTarget info) r] ∧
    (fulfill env p r hash info).response.status = up.status ∧
    (fulfill env p r hash info).response.body = up.body ∧
    headerGet (fulfill env p r hash info).response.header "Cache-Control".toList =
      "max-age=".toList ++
          formatInt (Float64.toInt (Duration.Seconds (getMinCacheDuration p info.Entities))) ++
        ", public".toList ∧
    (mapGet (fulfill env p r hash info).proxy.queries hash).map (fun q => q.Expiry) =
      some (env.nowAtExpiry + getMinCacheDuration p info.Entities) := by
  have hents : (normalizeTarget info).Entities = info.Entities := by
    unfold normalizeTarget
    split_ifs <;> rfl
  have hlen : (normalizeTarget info).Entities.length > 0 := by
    rw [hents]
    exact List.length_pos.2 hent
  have hsame : mapGet (mapSet p.queries hash (normalizeTarget info)) hash =
      some (normalizeTarget info) := by
    simp only [mapGet_mapSet, if_true]
  have hT : getMinCacheDuration { p with queries := mapSet p.queries hash (normalizeTarget info) }
      (normalizeTarget info).Entities = getMinCacheDuration p info.Entities := by
    rw [hents]
    rfl
  unfold fulfill
  simp only [hurl, hdo, hlen, hsame, Bool.not_true, Bool.false_eq_true, if_false, if_true]
  rw [hT]
  refine ⟨trivial, trivial, trivial, ?_, ?_⟩
  · have hcc : mapGet (headerSet (headerSet [] "Cache-Control".toList
        ("max-age=".toList ++
          formatInt (Float64.toInt (Duration.Seconds (getMinCacheDuration p info.Entities))) ++
          ", public".toList))
        "Expires".toList (env.formatTime (env.nowAtExpires +
          getMinCacheDuration p info.Entities))) "Cache-Control".toList =
        some [("max-age=".toList ++
          formatInt (Float64.toInt (Duration.Seconds (getMinCacheDuration p info.Entities))) ++
          ", public".toList)] := by
      have c1 : textproto.CanonicalMIMEHeaderKey "Cache-Control".toList =
          "Cache-Control".toList := by decide
      have c2 : textproto.CanonicalMIMEHeaderKey "Expires".toList = "Expires".toList := by
        decide
      have c3 : "Cache-Control".toList ≠ "Expires".toList := by decide
      unfold headerSet
      rw [c1, c2, mapGet_mapSet, if_neg c3, mapGet_mapSet, if_pos rfl]
    obtain ⟨ys, hy⟩ := copyHeaders_first _ up.header _ _ _ hcc
    unfold headerGet
    rw [hy]
  · simp only [mapGet_mapSet, if_true, Option.map_some']

/-- C12, as stated, fails: with the TTL table that `main` builds from
`-cache User:15817298423145364` the duration of the scenario request is
8589934592 s and 999999488 ns, whose whole seconds are 8589934592, and the round
trip answers `max-age=8589934593`; with the table entry 16777216999999999 ns,
whose whole seconds are 16777216, it answers `max-age=16777217`. -/
theorem round_trip_max_age_not_whole_seconds :
    parseCacheMap "User:15817298423145364".toList = Except.ok wrappedCacheTimes ∧
    getMinCacheDuration (New "http://upstream".toList wrappedCacheTimes)
      (extractEntities userQuery) = 8589934592 * Second + 999999488 ∧
    ((handleCachedQuery envUp 1
        (handleRequest (parseFinds userQuery)
          (New "http://upstream".toList wrappedCacheTimes) userPost).1 userFetch).map
      fun s => headerGet s.response.header "Cache-Control".toList) =
      some "max-age=8589934593, public".toList ∧
    getMinCacheDuration (New "http://upstream".toList [("User".toList, 16777216999999999)])
      (extractEntities userQuery) = 16777216 * Second + 999999999 ∧
    ((handleCachedQuery envUp 1
        (handleRequest (parseFinds userQuery)
          (New "http://upstream".toList [("User".toList, 16777216999999999)])
          userPost).1 userFetch).map
      fun s => headerGet s.response.header "Cache-Control".toList) =
      some "max-age=16777217, public".toList := by
  decide!

/-- C12, amended: for every store, every cacheable request and every time,
`handleRequest` followed by `handleCachedQuery` on the path of the returned
`Location` header, with an upstream call that succeeds at the transport level,
finds the record just registered, answers with the upstream's status and body
and with the header `Cache-Control: max-age=<S>, public`, and sets the record's
expiry to the time plus `T`, where `T` is `getMinCacheDuration` of the extracted
entities and `S` is `int(T.Seconds())`: the number of seconds of `T` when `T` is
a whole number of seconds (and an `int64`), and in general the `float64` sum of
the whole seconds of `T` and of its fraction, cut to an integer. -/
theorem round_trip (parse : Bytes → GjsonResult) (env : Env) (fuel : Nat) (p : Proxy)
    (r fetch : Request) (body : Bytes) (fp : GoString) (info : QueryInfo) (up : Response)
    (hm : r.Method = "POST".toList) (hb : r.Body = some body)
    (hc : strings.Contains (headerGet r.Header "Content-Type".toList)
      "application/json".toList = true)
    (hq : isGraphQLQuery (parse body) = true)
    (hmut : hasMutations (parse body).queryString = false)
    (hent : extractEntities (parse body).queryString ≠ [])
    (hfp : fp = computeQueryHash body (extractAuthHeaders r))
    (hinfo : info = { Body := body, AuthHeaders := extractAuthHeaders r,
                      Entities := extractEntities (parse body).queryString,
                      OriginalTarget := r.URL, Expiry := 0 })
    (hloc : (handleRequest parse p r).2 =
      Outcome.responded { status := 303, header := [("Location".toList, [fetch.Path])],
                          body := [] })
    (hurl : env.newRequestOK (p.target ++ (normalizeTarget info).OriginalTarget) = true)
    (hdo : env.Do (newProxyRequest p.target (normalizeTarget info) fetch) =
      UpstreamResult.answered up) :
    path.Base fetch.Path = fp ∧
    mapGet (handleRequest parse p r).1.queries fp = some info ∧
    ∃ s, handleCachedQuery env (fuel + 1) (handleRequest parse p r).1 fetch = some s ∧
      s.upstream = [newProxyRequest p.target (normalizeTarget info) fetch] ∧
      s.response.status = up.status ∧ s.response.body = up.body ∧
      headerGet s.response.header "Cache-Control".toList =
        "max-age=".toList ++
          formatInt (Float64.toInt (Duration.Seconds (getMinCacheDuration p
            (extractEntities (parse body).queryString)))) ++ ", public".toList ∧
      (∀ n : Int, getMinCacheDuration p (extractEntities (parse body).queryString) =
          n * Second →
        -9223372036854775808 ≤ n * Second → n * Second ≤ 9223372036854775807 →
        headerGet s.response.header "Cache-Control".toList =
          "max-age=".toList ++ formatInt n ++ ", public".toList) ∧
      (mapGet s.proxy.queries fp).map (fun q => q.Expiry) =
        some (env.nowAtExpiry +
          getMinCacheDuration p (extractEntities (parse body).queryString)) := by
  have heq := handleRequest_cacheable parse p r body hm hb hc hq hmut hent
  rw [← hfp, ← hinfo] at heq
  have h303 : (handleRequest parse p r).2 =
      Outcome.responded { status := 303,
                          header := [("Location".toList, ["/_gcl/".toList ++ fp])],
                          body := [] } := by rw [heq]
  have hreg : mapGet (handleRequest parse p r).1.queries fp = some info := by
    rw [heq]; simp only [mapGet_mapSet, if_true]
  have htarget : (handleRequest parse p r).1.target = p.target := by rw [heq]
  have htimes : (handleRequest parse p r).1.cacheTimes = p.cacheTimes := by rw [heq]
  have hpath : fetch.Path = "/_gcl/".toList ++ fp := by
    rw [h303] at hloc
    have := Outcome.responded.inj hloc
    have h2 := congrArg Response.header this
    simp only [List.cons.injEq, Prod.mk.injEq, true_and, and_true] at h2
    exact h2.symm
  have hbase : path.Base fetch.Path = fp := by
    rw [hpath, path_Base_cachePath fp (hfp ▸ (computeQueryHash_shape _ _).1)
      (hfp ▸ (computeQueryHash_shape _ _).2)]
  refine ⟨hbase, hreg, ?_⟩
  have hlive : ¬ (info.Expiry ≠ 0 ∧ env.nowAtCheck > info.Expiry) := by
    rw [hinfo]
    exact fun h => h.1 rfl
  have hget' : mapGet (handleRequest parse p r).1.queries (path.Base fetch.Path) = some info := by
    rw [hbase]; exact hreg
  refine ⟨_, handleCachedQuery_live env fuel _ fetch info hget' hlive, ?_⟩
  have hent' : info.Entities ≠ [] := by rw [hinfo]; exact hent
  have hE : info.Entities = extractEntities (parse body).queryString := by rw [hinfo]
  have hgmd : ∀ q : Proxy, q.cacheTimes = p.cacheTimes → ∀ es,
      getMinCacheDuration q es = getMinCacheDuration p es := by
    intro q hq2 es
    unfold getMinCacheDuration
    rw [hq2]
  have hurl' : env.newRequestOK ((handleRequest parse p r).1.target ++
      (normalizeTarget info).OriginalTarget) = true := by rw [htarget]; exact hurl
  have hdo' : env.Do (newProxyRequest (handleRequest parse p r).1.target
      (normalizeTarget info) fetch) = UpstreamResult.answered up := by rw [htarget]; exact hdo
  obtain ⟨f1, f2, f3, f4, f5⟩ := fulfill_answered env (handleRequest parse p r).1 fetch
    (path.Base fetch.Path) info up hurl' hdo' hent'
  rw [htarget] at f1
  rw [hgmd _ htimes, hE] at f4 f5
  refine ⟨f1, f2, f3, f4, ?_, ?_⟩
  · intro n hn hlo hhi
    rw [f4, hn, Duration_Seconds_whole n]
    unfold Second at hlo hhi
    omega
  · rw [← hbase]
    exact f5

/-- The scenario request registered and fetched at time 10 with an upstream that
answers 200: `max-age=300, public`, expiry 10 + 300 s. -/
theorem round_trip_witness :
    path.Base userFetch.Path = userFingerprint ∧
    ∃ s, handleCachedQuery envUp (0 + 1)
        (handleRequest (parseFinds userQuery)
          (New "http://upstream".toList defaultCacheTimes) userPost).1 userFetch = some s ∧
      s.response.status = (200 : Nat) ∧ s.response.body = [123, 125] ∧
      headerGet s.response.header "Cache-Control".toList = "max-age=300, public".toList ∧
      (mapGet s.proxy.queries userFingerprint).map (fun q => q.Expiry) =
        some (10 + 300 * 1000000000) := by
  obtain ⟨h1, -, s, hs, -, h3, h4, -, h6, h7⟩ :=
    round_trip (parseFinds userQuery) envUp 0 (New "http://upstream".toList defaultCacheTimes)
      userPost userFetch userBody userFingerprint
      { Body := userBody, AuthHeaders := extractAuthHeaders userPost,
        Entities := extractEntities (parseFinds userQuery userBody).queryString,
        OriginalTarget := userPost.URL, Expiry := 0 }
      { status := 200, header := [], body := [123, 125] }
      rfl rfl (by decide) rfl (by decide) (by decide) rfl rfl (by decide!) rfl rfl
  have hT : getMinCacheDuration (New "http://upstream".toList defaultCacheTimes)
      (extractEntities (parseFinds userQuery userBody).queryString) = 300 * Second := by
    decide
  refine ⟨h1, s, hs, h3, h4, ?_, ?_⟩
  · exact h6 300 hT (by decide) (by decide)
  · rw [h7, hT]
    rfl

/-! ## The replayed request -/

theorem mapGet_eq_none_of_not_mem {β : Type} (m : List (GoString × β)) (k : GoString)
    (h : k ∉ m.map Prod.fst) : mapGet m k = none := by
  induction m with
  | nil => rfl
  | cons e m ih =>
    obtain ⟨k0, v0⟩ := e
    simp only [List.map_cons, List.mem_cons, not_or] at h
    rw [mapGet_cons, if_neg h.1, ih h.2]

/-- The overlay of the stored auth headers: every stored name carries its single
stored value, every other name what the incoming request carried. -/
theorem mapGet_overlay (auth : List (GoString × GoString))
    (hcanon : ∀ kv ∈ auth, textproto.CanonicalMIMEHeaderKey kv.1 = kv.1)
    (nd : (auth.map Prod.fst).Nodup) (h0 : List (GoString × List GoString)) (k : GoString) :
    mapGet (auth.foldl (fun h kv => headerSet h kv.1 kv.2) h0) k =
      match mapGet auth k with
      | some v => some [v]
      | none => mapGet h0 k := by
  induction auth generalizing h0 with
  | nil => rfl
  | cons e auth ih =>
    obtain ⟨k1, v1⟩ := e
    have hc1 : textproto.CanonicalMIMEHeaderKey k1 = k1 := hcanon (k1, v1) (List.mem_cons_self _ _)
    simp only [List.map_cons, List.nodup_cons] at nd
    rw [List.foldl_cons, ih (fun kv h => hcanon kv (List.mem_cons_of_mem _ h)) nd.2, mapGet_cons]
    by_cases hk : k = k1
    · subst hk
      rw [if_pos rfl, mapGet_eq_none_of_not_mem auth k nd.1]
      simp only [headerSet, hc1, mapGet_mapSet, if_true]
    · rw [if_neg hk]
      cases hg : mapGet auth k with
      | some v => rfl
      | none => simp only [headerSet, hc1, mapGet_mapSet, hk, if_false]

/-- C18: every request `handleCachedQuery` sends upstream is built from a record
found under the requested fingerprint: its method is POST, its body is the
stored body, and (the stored header names being in canonical form and distinct,
as `net/http` delivers them) its headers are those of the phase-2 request, except
that every header name of the record's auth context carries exactly the single
stored value and `Content-Type` carries exactly `application/json`. -/
theorem handleCachedQuery_replay (env : Env) (fuel : Nat) (p : Proxy) (r : Request)
    (s : Served) (req : UpstreamRequest)
    (h : handleCachedQuery env fuel p r = some s) (hreq : req ∈ s.upstream) :
    ∃ info, mapGet p.queries (path.Base r.Path) = some info ∧
      req.Method = "POST".toList ∧ req.Body = info.Body ∧
      ((∀ kv ∈ info.AuthHeaders, textproto.CanonicalMIMEHeaderKey kv.1 = kv.1) →
        (info.AuthHeaders.map Prod.fst).Nodup →
        ∀ k, mapGet req.Header k =
          if k = "Content-Type".toList then some ["application/json".toList]
          else match mapGet info.AuthHeaders k with
            | some v => some [v]
            | none => mapGet r.Header k) := by
  rcases handleCachedQuery_cases env fuel p r s h with ⟨-, hs⟩ | ⟨info, -, -, hs⟩ |
    ⟨info, hg, -, hs⟩
  · subst hs; cases hreq
  · subst hs; cases hreq
  · refine ⟨info, hg, ?_⟩
    have hauth : (normalizeTarget info).AuthHeaders = info.AuthHeaders := by
      unfold normalizeTarget; split_ifs <;> rfl
    have hbody : (normalizeTarget info).Body = info.Body := by
      unfold normalizeTarget; split_ifs <;> rfl
    have hreq' : req = newProxyRequest p.target (normalizeTarget info) r := by
      subst hs
      unfold fulfill at hreq
      simp only [] at hreq
      split_ifs at hreq
      · cases hreq
      · split at hreq <;> simpa using hreq
      · split at hreq <;> simpa using hreq
    subst hreq'
    refine ⟨rfl, hbody, ?_⟩
    intro hcanon nd k
    have hct : textproto.CanonicalMIMEHeaderKey "Content-Type".toList =
        "Content-Type".toList := by decide
    show mapGet (headerSet _ "Content-Type".toList "application/json".toList) k = _
    unfold headerSet
    rw [hct, mapGet_mapSet]
    by_cases hk : k = "Content-Type".toList
    · rw [if_pos hk, if_pos hk]
    · rw [if_neg hk, if_neg hk, hauth]
      exact mapGet_overlay info.AuthHeaders hcanon nd r.Header k

/-- The replay of the scenario record: the caller's two `Authorization` values are
replaced by the stored one. -/
theorem handleCachedQuery_replay_witness :
    ∃ info, mapGet rootStore.queries (path.Base userFetch.Path) = some info ∧
      (newProxyRequest rootStore.target
        (normalizeTarget
          { Body := userBody, AuthHeaders := extractAuthHeaders rootPost,
            Entities := ["User".toList], OriginalTarget := "/".toList, Expiry := 0 })
        userFetch).Method = "POST".toList ∧
      (newProxyRequest rootStore.target
        (normalizeTarget
          { Body := userBody, AuthHeaders := extractAuthHeaders rootPost,
            Entities := ["User".toList], OriginalTarget := "/".toList, Expiry := 0 })
        userFetch).Body = info.Body ∧
      ((∀ kv ∈ info.AuthHeaders, textproto.CanonicalMIMEHeaderKey kv.1 = kv.1) →
        (info.AuthHeaders.map Prod.fst).Nodup →
        ∀ k, mapGet (newProxyRequest rootStore.target
          (normalizeTarget
            { Body := userBody, AuthHeaders := extractAuthHeaders rootPost,
              Entities := ["User".toList], OriginalTarget := "/".toList, Expiry := 0 })
          userFetch).Header k =
          if k = "Content-Type".toList then some ["application/json".toList]
          else match mapGet info.AuthHeaders k with
            | some v => some [v]
            | none => mapGet userFetch.Header k) :=
  handleCachedQuery_replay envUp 1 rootStore userFetch
    (fulfill envUp rootStore userFetch (path.Base userFetch.Path)
      { Body := userBody, AuthHeaders := extractAuthHeaders rootPost,
        Entities := ["User".toList], OriginalTarget := "/".toList, Expiry := 0 })
    _ (by decide!) (by decide!)


/-! ## The store invariant -/

theorem mem_mapSet {β : Type} {m : List (GoString × β)} {k k' : GoString} {v v' : β}
    (h : (k', v') ∈ mapSet m k v) : (k', v') = (k, v) ∨ (k', v') ∈ m := by
  induction m with
  | nil =>
    simp only [mapSet, List.mem_singleton] at h
    exact Or.inl h
  | cons e m ih =>
    obtain ⟨k0, v0⟩ := e
    unfold mapSet at h
    split_ifs at h with h0
    · rcases List.mem_cons.1 h with h | h
      · exact Or.inl h
      · exact Or.inr (List.mem_cons_of_mem _ h)
    · rcases List.mem_cons.1 h with h | h
      · exact Or.inr (h ▸ List.mem_cons_self _ _)
      · rcases ih h with h | h
        · exact Or.inl h
        · exact Or.inr (List.mem_cons_of_mem _ h)

theorem mem_of_mapGet {β : Type} {m : List (GoString × β)} {k : GoString} {v : β}
    (h : mapGet m k = some v) : (k, v) ∈ m := by
  induction m with
  | nil => cases h
  | cons e m ih =>
    obtain ⟨k0, v0⟩ := e
    rw [mapGet_cons] at h
    split_ifs at h with h0
    · cases h
      rw [h0]
      exact List.mem_cons_self _ _
    · exact List.mem_cons_of_mem _ (ih h)

/-- The records of the store after the replay: those of the store before, and
under `hash` the looked-up record with its target normalized and some expiry. -/
theorem fulfill_mem (env : Env) (p : Proxy) (r : Request) (hash : GoString) (info : QueryInfo)
    (k : GoString) (q : QueryInfo) (h : (k, q) ∈ (fulfill env p r hash info).proxy.queries) :
    (k, q) ∈ p.queries ∨ (k = hash ∧ ∃ e, q = { normalizeTarget info with Expiry := e }) := by
  have hget : mapGet (mapSet p.queries hash (normalizeTarget info)) hash =
      some (normalizeTarget info) := by simp only [mapGet_mapSet, if_true]
  have base : ∀ kq : GoString × QueryInfo,
      kq ∈ mapSet p.queries hash (normalizeTarget info) →
      kq ∈ p.queries ∨ (kq.1 = hash ∧ ∃ e, kq.2 = { normalizeTarget info with Expiry := e }) := by
    rintro ⟨k1, q1⟩ hm
    rcases mem_mapSet hm with hm | hm
    · cases hm
      exact Or.inr ⟨rfl, (normalizeTarget info).Expiry, rfl⟩
    · exact Or.inl hm
  unfold fulfill at h
  simp only [hget] at h
  split_ifs at h with h1 h2
  · exact base (k, q) h
  · split at h
    · exact base (k, q) h
    · rcases mem_mapSet h with hm | hm
      · cases hm
        exact Or.inr ⟨rfl, _, rfl⟩
      · exact base (k, q) hm
  · split at h
    · exact base (k, q) h
    · exact base (k, q) h

/-- `handleRequest` leaves the proxy as it was unless the request is cacheable. -/
theorem handleRequest_proxy (parse : Bytes → GjsonResult) (p : Proxy) (r : Request) :
    (handleRequest parse p r).1 = p ∨
    ∃ body, r.Method = "POST".toList ∧ r.Body = some body ∧
      strings.Contains (headerGet r.Header "Content-Type".toList)
        "application/json".toList = true ∧
      isGraphQLQuery (parse body) = true ∧
      hasMutations (parse body).queryString = false ∧
      extractEntities (parse body).queryString ≠ [] := by
  by_cases hm : r.Method = "POST".toList
  · cases hb : r.Body with
    | none =>
      left
      unfold handleRequest
      simp only [hm, hb, ne_eq, not_true_eq_false, if_false]
    | some body =>
      by_cases h1 : strings.Contains (headerGet r.Header "Content-Type".toList)
          "application/json".toList = true
      · by_cases h2 : isGraphQLQuery (parse body) = true
        · by_cases h3 : hasMutations (parse body).queryString = true
          · left
            unfold handleRequest
            simp only [hm, hb, h1, h2, h3, ne_eq, not_true_eq_false, if_false, Bool.not_true,
              Bool.false_eq_true, if_true]
          · by_cases h4 : extractEntities (parse body).queryString = []
            · left
              unfold handleRequest
              simp only [hm, hb, h1, h2, h3, h4, ne_eq, not_true_eq_false, if_false,
                Bool.not_true, Bool.false_eq_true, List.length_nil, if_true]
            · right
              exact ⟨body, hm, rfl, h1, h2, by simpa using h3, h4⟩
        · left
          have h2' : isGraphQLQuery (parse body) = false := by simpa using h2
          unfold handleRequest
          simp only [hm, hb, h1, h2', ne_eq, not_true_eq_false, if_false, Bool.not_true,
            Bool.false_eq_true, Bool.not_false, if_true]
      · left
        have h1' : strings.Contains (headerGet r.Header "Content-Type".toList)
            "application/json".toList = false := by simpa using h1
        unfold handleRequest
        simp only [hm, hb, h1', ne_eq, not_true_eq_false, if_false, Bool.not_false, if_true]
  · left
    unfold handleRequest
    rw [if_pos hm]

/-- The invariant of the store: every record has entities and is stored under
the fingerprint of its body and auth headers. -/
theorem reachable_invariant {endpoint : GoString} {cacheTimes : List (GoString × Int)}
    {p : Proxy} (hr : Reachable endpoint cacheTimes p) :
    p.cacheTimes = cacheTimes ∧
    ∀ k info, (k, info) ∈ p.queries →
      info.Entities ≠ [] ∧ k = computeQueryHash info.Body info.AuthHeaders := by
  induction hr with
  | created => exact ⟨rfl, fun k info h => by cases h⟩
  | registered parse p r _ ih =>
    rcases handleRequest_proxy parse p r with hsame | ⟨body, hm, hb, hc, hq, hmut, hent⟩
    · rw [hsame]
      exact ih
    · rw [handleRequest_cacheable parse p r body hm hb hc hq hmut hent]
      refine ⟨ih.1, ?_⟩
      intro k info hmem
      rcases mem_mapSet hmem with hm | hm
      · cases hm
        exact ⟨hent, rfl⟩
      · exact ih.2 k info hm
  | fulfilled env fuel p r s _ hs ih =>
    rcases handleCachedQuery_cases env fuel p r s hs with ⟨-, hs'⟩ | ⟨info, -, -, hs'⟩ |
      ⟨info, hg, -, hs'⟩
    · subst hs'
      exact ih
    · subst hs'
      refine ⟨ih.1, ?_⟩
      intro k q hmem
      exact ih.2 k q (List.mem_of_mem_filter hmem)
    · subst hs'
      refine ⟨(fulfill_store env p r _ info).2.1.trans ih.1, ?_⟩
      intro k q hmem
      rcases fulfill_mem env p r _ info k q hmem with hm | ⟨hk, e, hq⟩
      · exact ih.2 k q hm
      · have hinv := ih.2 _ info (mem_of_mapGet hg)
        subst hq
        subst hk
        unfold normalizeTarget
        split_ifs
        · exact hinv
        · exact hinv


/-- C19: every proxy that arises from the empty store of `New` by calls of
`handleRequest` and `handleCachedQuery` holds only records with a non-empty
entity list, each stored under `computeQueryHash` of its body and auth headers;
so whenever `handleCachedQuery` sends a request upstream and the upstream
answers it, the record has entities, the response carries `Cache-Control` with
`int(T.Seconds())` of the table's minimum duration `T`, and the record's expiry
is set to the time plus `T`. -/
theorem reachable_store_invariant (endpoint : GoString) (cacheTimes : List (GoString × Int))
    (p : Proxy) (hr : Reachable endpoint cacheTimes p) :
    (∀ k info, (k, info) ∈ p.queries →
      info.Entities ≠ [] ∧ k = computeQueryHash info.Body info.AuthHeaders) ∧
    ∀ (env : Env) (fuel : Nat) (r : Request) (s : Served) (req : UpstreamRequest)
      (up : Response),
      handleCachedQuery env fuel p r = some s → req ∈ s.upstream →
      env.Do req = UpstreamResult.answered up →
      ∃ info, mapGet p.queries (path.Base r.Path) = some info ∧
        info.Entities.length > 0 ∧
        s.response.status = up.status ∧
        headerGet s.response.header "Cache-Control".toList =
          "max-age=".toList ++
          formatInt (Float64.toInt (Duration.Seconds (getMinCacheDuration p info.Entities))) ++
            ", public".toList ∧
        (mapGet s.proxy.queries (path.Base r.Path)).map (fun q => q.Expiry) =
          some (env.nowAtExpiry + getMinCacheDuration p info.Entities) := by
  have hinv := (reachable_invariant hr).2
  refine ⟨hinv, ?_⟩
  intro env fuel r s req up hs hreq hdo
  rcases handleCachedQuery_cases env fuel p r s hs with ⟨-, hs'⟩ | ⟨info, -, -, hs'⟩ |
    ⟨info, hg, -, hs'⟩
  · subst hs'; cases hreq
  · subst hs'; cases hreq
  · have hent := (hinv _ info (mem_of_mapGet hg)).1
    refine ⟨info, hg, List.length_pos.2 hent, ?_⟩
    subst hs'
    have hurl : env.newRequestOK (p.target ++ (normalizeTarget info).OriginalTarget) = true := by
      cases hok : env.newRequestOK (p.target ++ (normalizeTarget info).OriginalTarget) with
      | true => rfl
      | false =>
        unfold fulfill at hreq
        simp only [hok, Bool.not_false, if_true] at hreq
        cases hreq
    have hreq' : req = newProxyRequest p.target (normalizeTarget info) r := by
      unfold fulfill at hreq
      simp only [hurl, Bool.not_true, Bool.false_eq_true, if_false] at hreq
      split at hreq
      · simpa using hreq
      · split_ifs at hreq <;> simpa using hreq
    rw [hreq'] at hdo
    obtain ⟨-, f2, -, f4, f5⟩ := fulfill_answered env p r (path.Base r.Path) info up hurl hdo hent
    exact ⟨f2, f4, f5⟩

/-- The store after the scenario request was registered is reachable. -/
theorem reachable_store_invariant_witness :
    (∀ k info, (k, info) ∈ rootStore.queries →
      info.Entities ≠ [] ∧ k = computeQueryHash info.Body info.AuthHeaders) ∧
    ∀ (env : Env) (fuel : Nat) (r : Request) (s : Served) (req : UpstreamRequest)
      (up : Response),
      handleCachedQuery env fuel rootStore r = some s → req ∈ s.upstream →
      env.Do req = UpstreamResult.answered up →
      ∃ info, mapGet rootStore.queries (path.Base r.Path) = some info ∧
        info.Entities.length > 0 ∧
        s.response.status = up.status ∧
        headerGet s.response.header "Cache-Control".toList =
          "max-age=".toList ++
            formatInt (Float64.toInt (Duration.Seconds
              (getMinCacheDuration rootStore info.Entities))) ++
            ", public".toList ∧
        (mapGet s.proxy.queries (path.Base r.Path)).map (fun q => q.Expiry) =
          some (env.nowAtExpiry + getMinCacheDuration rootStore info.Entities) :=
  reachable_store_invariant "http://upstream".toList defaultCacheTimes rootStore
    (Reachable.registered (parseFinds userQuery)
      (New "http://upstream".toList defaultCacheTimes) rootPost Reachable.created)


/-! ## The captured auth headers -/

theorem mapSet_idem {β : Type} (m : List (GoString × β)) (k : GoString) (v : β) :
    mapSet (mapSet m k v) k v = mapSet m k v := by
  induction m with
  | nil => simp [mapSet]
  | cons e m ih =>
    obtain ⟨k0, v0⟩ := e
    by_cases h0 : k0 = k
    · simp [mapSet, h0]
    · simp [mapSet, h0, ih]

/-- The inner loop of `extractAuthHeaders`: the header is recorded with its first
value when its lower-cased name contains a lower-cased pattern. -/
theorem authPattern_foldl (key : GoString) (values : List GoString) (pats : List GoString)
    (acc : List (GoString × GoString)) :
    pats.foldl (authPatternStep key values) acc =
      if (∃ pattern ∈ pats,
          strings.Contains (strings.ToLower key) (strings.ToLower pattern) = true) then
        match values with
        | v :: _ => mapSet acc key v
        | [] => acc
      else acc := by
  cases values with
  | nil =>
    have : ∀ acc : List (GoString × GoString),
        pats.foldl (authPatternStep key []) acc = acc := by
      induction pats with
      | nil => intro acc; rfl
      | cons pt pats ih =>
        intro acc
        rw [List.foldl_cons, ih]
        unfold authPatternStep
        simp only [ite_self]
    rw [this]
    simp only [ite_self]
  | cons v vs =>
    have hset : ∀ pats : List GoString,
        pats.foldl (authPatternStep key (v :: vs)) (mapSet acc key v) = mapSet acc key v := by
      intro pats
      induction pats with
      | nil => rfl
      | cons pt pats ih =>
        rw [List.foldl_cons]
        have : authPatternStep key (v :: vs) (mapSet acc key v) pt = mapSet acc key v := by
          unfold authPatternStep
          simp only [mapSet_idem, ite_self]
        rw [this, ih]
    induction pats with
    | nil => simp
    | cons pt pats ih =>
      rw [List.foldl_cons]
      by_cases hp : strings.Contains (strings.ToLower key) (strings.ToLower pt) = true
      · have h1 : authPatternStep key (v :: vs) acc pt = mapSet acc key v := by
          unfold authPatternStep
          simp only [hp, if_true]
        have h2 : ∃ pattern ∈ pt :: pats,
            strings.Contains (strings.ToLower key) (strings.ToLower pattern) = true :=
          ⟨pt, List.mem_cons_self _ _, hp⟩
        rw [h1, hset, if_pos h2]
      · have h1 : authPatternStep key (v :: vs) acc pt = acc := by
          unfold authPatternStep
          simp only [hp, Bool.false_eq_true, if_false]
        rw [h1, ih]
        have hiff : (∃ pattern ∈ pt :: pats,
            strings.Contains (strings.ToLower key) (strings.ToLower pattern) = true) ↔
            ∃ pattern ∈ pats,
              strings.Contains (strings.ToLower key) (strings.ToLower pattern) = true := by
          constructor
          · rintro ⟨x, hx, hc⟩
            rcases List.mem_cons.1 hx with rfl | hx
            · exact absurd hc hp
            · exact ⟨x, hx, hc⟩
          · rintro ⟨x, hx, hc⟩
            exact ⟨x, List.mem_cons_of_mem _ hx, hc⟩
        by_cases hq : ∃ pattern ∈ pats,
            strings.Contains (strings.ToLower key) (strings.ToLower pattern) = true
        · rw [if_pos hq, if_pos (hiff.2 hq)]
        · rw [if_neg hq, if_neg (fun h => hq (hiff.1 h))]

/-- The outer loop of `extractAuthHeaders` over a header map. -/
theorem authHeaders_foldl (l : List (GoString × List GoString))
    (nd : (l.map Prod.fst).Nodup) (acc : List (GoString × GoString)) (k : GoString) :
    mapGet (l.foldl (fun authHeaders kv =>
        authPatterns.foldl (authPatternStep kv.1 kv.2) authHeaders) acc) k =
      match mapGet l k with
      | some (v :: _) =>
        if (∃ pattern ∈ authPatterns,
            strings.Contains (strings.ToLower k) (strings.ToLower pattern) = true) then some v
        else mapGet acc k
      | _ => mapGet acc k := by
  induction l generalizing acc with
  | nil => rfl
  | cons e l ih =>
    obtain ⟨k0, vs0⟩ := e
    simp only [List.map_cons, List.nodup_cons] at nd
    rw [List.foldl_cons, ih nd.2, mapGet_cons]
    simp only []
    rw [authPattern_foldl]
    by_cases hk : k = k0
    · subst hk
      rw [if_pos rfl, mapGet_eq_none_of_not_mem l k nd.1]
      simp only []
      cases vs0 with
      | nil => simp only [ite_self]
      | cons v vs =>
        simp only []
        split_ifs with hm
        · simp only [mapGet_mapSet, if_true]
        · rfl
    · rw [if_neg hk]
      have hacc : mapGet (if (∃ pattern ∈ authPatterns,
            strings.Contains (strings.ToLower k0) (strings.ToLower pattern) = true) then
          (match vs0 with
            | v :: _ => mapSet acc k0 v
            | [] => acc)
          else acc) k = mapGet acc k := by
        split_ifs
        · cases vs0 with
          | nil => rfl
          | cons v vs => simp only [mapGet_mapSet, hk, if_false]
        · rfl
      rw [hacc]

/-- C17: for every request header map, `extractAuthHeaders` maps the header name
`k` to `v` exactly when `k` is a header of the request with at least one value,
`v` is its first value, and the lower-cased `k` contains the lower-cased form of
one of the patterns; the name is kept as the header map spells it. -/
theorem extractAuthHeaders_captures (r : Request) (nd : (r.Header.map Prod.fst).Nodup)
    (k v : GoString) :
    mapGet (extractAuthHeaders r) k = some v ↔
      (∃ vs, mapGet r.Header k = some (v :: vs)) ∧
      ∃ pattern ∈ ["Authorization".toList, "Auth".toList, "X-Auth".toList, "Api-Key".toList,
          "X-Api-Key".toList, "Bearer".toList, "Token".toList],
        strings.Contains (strings.ToLower k) (strings.ToLower pattern) = true := by
  unfold extractAuthHeaders
  rw [authHeaders_foldl r.Header nd [] k]
  have hnil : mapGet ([] : List (GoString × GoString)) k = none := rfl
  rw [hnil]
  cases hg : mapGet r.Header k with
  | none => simp
  | some vs =>
    cases vs with
    | nil => simp
    | cons v0 vs =>
      simp only []
      by_cases hm : ∃ pattern ∈ authPatterns,
          strings.Contains (strings.ToLower k) (strings.ToLower pattern) = true
      · rw [if_pos hm]
        constructor
        · intro h
          cases h
          exact ⟨⟨vs, rfl⟩, hm⟩
        · rintro ⟨⟨vs', h1⟩, -⟩
          cases h1
          rfl
      · rw [if_neg hm]
        constructor
        · intro h; cases h
        · rintro ⟨-, h2⟩
          exact absurd h2 hm

/-- The headers of the scenario request: `Authorization` is captured. -/
theorem extractAuthHeaders_captures_witness :
    mapGet (extractAuthHeaders userPost) "Authorization".toList = some "Bearer abc".toList ↔
      (∃ vs, mapGet userPost.Header "Authorization".toList =
        some ("Bearer abc".toList :: vs)) ∧
      ∃ pattern ∈ ["Authorization".toList, "Auth".toList, "X-Auth".toList, "Api-Key".toList,
          "X-Api-Key".toList, "Bearer".toList, "Token".toList],
        strings.Contains (strings.ToLower "Authorization".toList)
          (strings.ToLower pattern) = true :=
  extractAuthHeaders_captures userPost (by decide) _ _


theorem mapSet_keys {β : Type} (m : List (GoString × β)) (k : GoString) (v : β) :
    (mapSet m k v).map Prod.fst =
      if k ∈ m.map Prod.fst then m.map Prod.fst else m.map Prod.fst ++ [k] := by
  induction m with
  | nil =>
    show [k] = if k ∈ ([] : List GoString) then ([] : List GoString) else [] ++ [k]
    rw [if_neg (List.not_mem_nil k)]
    rfl
  | cons e m ih =>
    obtain ⟨k0, v0⟩ := e
    by_cases h0 : k0 = k
    · have hm : mapSet ((k0, v0) :: m) k v = (k, v) :: m := by
        unfold mapSet
        rw [if_pos h0]
      rw [hm, List.map_cons, List.map_cons, if_pos (h0 ▸ List.mem_cons_self _ _), h0]
    · have hm : mapSet ((k0, v0) :: m) k v = (k0, v0) :: mapSet m k v := by
        conv_lhs => unfold mapSet
        rw [if_neg h0]
      rw [hm, List.map_cons, List.map_cons, ih]
      by_cases hk : k ∈ m.map Prod.fst
      · rw [if_pos hk, if_pos (List.mem_cons_of_mem _ hk)]
      · have hk' : k ∉ k0 :: m.map Prod.fst := by
          intro h
          rcases List.mem_cons.1 h with h | h
          · exact h0 h.symm
          · exact hk h
        rw [if_neg hk, if_neg hk']
        rfl

theorem mapSet_nodup {β : Type} (m : List (GoString × β)) (k : GoString) (v : β)
    (nd : (m.map Prod.fst).Nodup) : ((mapSet m k v).map Prod.fst).Nodup := by
  rw [mapSet_keys]
  split_ifs with h
  · exact nd
  · refine List.Nodup.append nd (List.nodup_singleton k) ?_
    intro a h1 h2
    rw [List.mem_singleton.1 h2] at h1
    exact h h1

/-- The auth context captured from a request is a map over header names of the
request: no name twice, every name one of the request's header names.  With
header names in canonical form, as `net/http` delivers them, the captured names
are in canonical form. -/
theorem extractAuthHeaders_names (r : Request) :
    ((extractAuthHeaders r).map Prod.fst).Nodup ∧
    ∀ kv ∈ extractAuthHeaders r, kv.1 ∈ r.Header.map Prod.fst := by
  have step : ∀ (l : List (GoString × List GoString)) (acc : List (GoString × GoString)),
      (acc.map Prod.fst).Nodup →
      ((l.foldl (fun authHeaders kv =>
          authPatterns.foldl (authPatternStep kv.1 kv.2) authHeaders) acc).map Prod.fst).Nodup ∧
      ∀ kv ∈ l.foldl (fun authHeaders kv =>
          authPatterns.foldl (authPatternStep kv.1 kv.2) authHeaders) acc,
        kv ∈ acc ∨ kv.1 ∈ l.map Prod.fst := by
    intro l
    induction l with
    | nil => intro acc nd; exact ⟨nd, fun kv h => Or.inl h⟩
    | cons e l ih =>
      intro acc nd
      rw [List.foldl_cons]
      have hacc : ((authPatterns.foldl (authPatternStep e.1 e.2) acc).map Prod.fst).Nodup ∧
          ∀ kv ∈ authPatterns.foldl (authPatternStep e.1 e.2) acc, kv ∈ acc ∨ kv.1 = e.1 := by
        rw [authPattern_foldl]
        split_ifs
        · cases e.2 with
          | nil => exact ⟨nd, fun kv h => Or.inl h⟩
          | cons v vs =>
            refine ⟨mapSet_nodup acc e.1 v nd, ?_⟩
            rintro ⟨k1, v1⟩ hm
            rcases mem_mapSet hm with hm | hm
            · cases hm; exact Or.inr rfl
            · exact Or.inl hm
        · exact ⟨nd, fun kv h => Or.inl h⟩
      obtain ⟨h1, h2⟩ := ih _ hacc.1
      refine ⟨h1, ?_⟩
      intro kv hkv
      rcases h2 kv hkv with h | h
      · rcases hacc.2 kv h with h | h
        · exact Or.inl h
        · exact Or.inr (by rw [List.map_cons, h]; exact List.mem_cons_self _ _)
      · exact Or.inr (by rw [List.map_cons]; exact List.mem_cons_of_mem _ h)
  obtain ⟨h1, h2⟩ := step r.Header [] List.nodup_nil
  refine ⟨h1, ?_⟩
  intro kv hkv
  rcases h2 kv hkv with h | h
  · cases h
  · exact h


/-! ## Queries without white space -/

theorem mem_TrimSpace {c : Char} {s : GoString} (h : c ∈ strings.TrimSpace s) : c ∈ s := by
  unfold strings.TrimSpace at h
  have h1 := (List.rdropWhile_prefix unicode.IsSpace _).subset h
  exact (List.dropWhile_suffix unicode.IsSpace).subset h1

/-- C20: for every query text without any white-space character, `extractEntities`
returns the empty list, so every request that carries such a query, whatever
names the text holds, is passed through with the store unchanged. -/
theorem extractEntities_no_whitespace (query : GoString)
    (h : ∀ c ∈ query, unicode.IsSpace c = false) :
    extractEntities query = [] ∧
    ∀ (parse : Bytes → GjsonResult) (p : Proxy) (r : Request) (body : Bytes),
      r.Body = some body → (parse body).queryString = query →
      handleRequest parse p r = (p, Outcome.forwarded r) := by
  have hkw : keywordNames query = [] := by
    unfold keywordNames strings.Fields
    have hs : List.splitOnP unicode.IsSpace query = [query] :=
      List.splitOnP_eq_single _ _ (fun x hx => by simp [h x hx])
    rw [hs]
    cases hq : (!query.isEmpty) <;> simp [List.filter, hq]
  have hbr : braceNames query = [] := by
    unfold braceNames
    rw [List.filterMap_eq_nil_iff]
    intro idx _
    have hw : wordBefore (query.take idx) = none := by
      unfold wordBefore
      simp only []
      rw [if_neg]
      intro hmem
      have h1 : ' ' ∈ query := List.mem_of_mem_take (mem_TrimSpace hmem)
      have h2 := h ' ' h1
      revert h2
      decide
    rw [hw]
    rfl
  have hnil : extractEntities query = [] := by
    rw [extractEntities_eq, hkw, hbr]
    rfl
  refine ⟨hnil, ?_⟩
  intro parse p r body hb hq
  unfold handleRequest
  by_cases hmeth : r.Method = "POST".toList
  · simp only [hmeth, hb, ne_eq, not_true_eq_false, if_false]
    split_ifs with h1 h2 h3 h4
    · rfl
    · rfl
    · rfl
    · rfl
    · exact absurd (by rw [hq, hnil]; rfl) h4
  · rw [if_pos hmeth]

/-- The minified document `query{User{id}}` in a JSON POST request. -/
theorem extractEntities_no_whitespace_witness :
    extractEntities "query\x7bUser\x7bid\x7d\x7d".toList = [] ∧
    ∀ (parse : Bytes → GjsonResult) (p : Proxy) (r : Request) (body : Bytes),
      r.Body = some body → (parse body).queryString = "query\x7bUser\x7bid\x7d\x7d".toList →
      handleRequest parse p r = (p, Outcome.forwarded r) :=
  extractEntities_no_whitespace "query\x7bUser\x7bid\x7d\x7d".toList (by decide)


/-! ## Start-up parsing -/

/-- An item that does not split into two parts at `:`, or whose second part does
not scan as an integer, stops the loop in a fatal error, whatever was parsed
before. -/
theorem parseCacheItems_fatal (items : List GoString) (cacheTimes : List (GoString × Int))
    (h : ∃ item ∈ items, (strings.Split item ':').length ≠ 2 ∨
      scanInt (strings.TrimSpace ((strings.Split item ':').getD 1 [])) = none) :
    ∃ e, parseCacheItems items cacheTimes = Except.error e := by
  induction items generalizing cacheTimes with
  | nil =>
    obtain ⟨item, hmem, -⟩ := h
    cases hmem
  | cons item items ih =>
    unfold parseCacheItems
    simp only []
    by_cases hlen : (strings.Split item ':').length ≠ 2
    · rw [if_pos hlen]
      exact ⟨_, rfl⟩
    · rw [if_neg hlen]
      cases hs : scanInt (strings.TrimSpace ((strings.Split item ':').getD 1 [])) with
      | none => exact ⟨_, rfl⟩
      | some seconds =>
        simp only []
        apply ih
        obtain ⟨it, hmem, hbad⟩ := h
        rcases List.mem_cons.1 hmem with rfl | hmem
        · rcases hbad with hbad | hbad
          · exact absurd hbad hlen
          · rw [hs] at hbad
            cases hbad
        · exact ⟨it, hmem, hbad⟩

/-- C16, on the code: the table string `User:300abc`, whose seconds part is not
wholly a number, is not rejected; the loop of `main` reads the leading `300` and
produces the table `{User: 300 s}`.  What the claim says otherwise holds: the
default string gives `{User: 300 s, Post: 600 s}`, and a table string with an
item that has not exactly one `:`, or whose seconds part does not begin with a
decimal integer, ends in the fatal error. -/
theorem parseCacheMap_accepts_trailing_text :
    parseCacheMap "User:300abc".toList = Except.ok [("User".toList, 300 * Second)] ∧
    parseCacheMap "User:300,Post:600".toList =
      Except.ok [("User".toList, 300 * Second), ("Post".toList, 600 * Second)] ∧
    ∀ cacheMap : GoString,
      (∃ item ∈ strings.Split cacheMap ',', (strings.Split item ':').length ≠ 2 ∨
        scanInt (strings.TrimSpace ((strings.Split item ':').getD 1 [])) = none) →
      ∃ e, parseCacheMap cacheMap = Except.error e := by
  refine ⟨by decide, by decide, ?_⟩
  intro cacheMap h
  exact parseCacheItems_fatal _ [] h


end Graphcl
